import Mathlib

/-!
# Verification of `lib/utils.js` (ytdl-core)

A shallow embedding of the functions of `lib/utils.js` and theorems about them.

JavaScript strings are modelled as lists of characters (`Str`); an index `s[i]` that is out of
range is `none` (JavaScript `undefined`).  Thrown errors are `Except.error` results.
The definitions come first, the theorems follow.
-/

namespace Utils

/-- A JavaScript string, as the list of its characters. -/
abbrev Str := List Char

/-! ### JavaScript string primitives -/

/-- `s.substring(a, b)` for integer arguments: negative arguments are clamped to `0`, arguments
beyond the length are clamped to the length, and the two are swapped when `a > b`. -/
def substring (s : Str) (a b : Int) : Str :=
  let a' := min a.toNat s.length
  let b' := min b.toNat s.length
  (s.take (max a' b')).drop (min a' b')

/-- `s.slice(a)` for `0 ≤ a`. -/
def sliceFrom (s : Str) (a : Nat) : Str := s.drop a

/-- `s.slice(0, b)` for `0 ≤ b`. -/
def sliceTo (s : Str) (b : Nat) : Str := s.take b

/-- The first index at which `pat` occurs in `s` at or after offset `k`
(`k` is the offset of `s` in the whole haystack). -/
def indexOfFrom (pat : Str) : Str → Nat → Option Nat
  | [], k => if pat = [] then some k else none
  | c :: s, k => if pat.isPrefixOf (c :: s) then some k else indexOfFrom pat s (k + 1)

/-- `s.indexOf(pat)`; `none` stands for the result `-1`. -/
def indexOf (s pat : Str) : Option Nat := indexOfFrom pat s 0

/-- The white space class `\s` of JavaScript regular expressions. -/
def isRegexSpace (c : Char) : Bool :=
  let n := c.toNat
  n = 0x09 || n = 0x0a || n = 0x0b || n = 0x0c || n = 0x0d || n = 0x20 || n = 0xa0 ||
  n = 0x1680 || (0x2000 ≤ n && n ≤ 0x200a) || n = 0x2028 || n = 0x2029 || n = 0x202f ||
  n = 0x205f || n = 0x3000 || n = 0xfeff

/-! ### `cutAfterJS` -/

/-- The character class `[[{:;,/]` of the `startPrefix` pattern. -/
def isPrefixPunct (c : Char) : Bool :=
  c = '[' || c = '{' || c = ':' || c = ';' || c = ',' || c = '/'

/-- Whether the window `w` matches `/(^|[[{:;,/])\s?$/`: the window is empty or one white space
character (the `^` alternative), or it ends with a character of the class, optionally followed by
one white space character. -/
def startPrefixRegex (w : Str) : Bool :=
  match w.reverse with
  | [] => true
  | [c] => isRegexSpace c || isPrefixPunct c
  | c :: d :: _ => isPrefixPunct c || (isRegexSpace c && isPrefixPunct d)

/-- An entry of `ESCAPING_SEQUENZES`; `stop` is the field `end`. -/
structure EscSeq where
  start : Char
  stop : Char
  startPrefix : Option (Str → Bool)

/-- The table `ESCAPING_SEQUENZES`: three kinds of string and the regular expression literal. -/
def ESCAPING_SEQUENZES : List EscSeq :=
  [ ⟨'"', '"', none⟩,
    ⟨'\'', '\'', none⟩,
    ⟨'`', '`', none⟩,
    ⟨'/', '/', some startPrefixRegex⟩ ]

/-- The two errors `cutAfterJS` throws. -/
inductive CutError
  | unsupported
  | unbalanced
  deriving DecidableEq, Repr

/-- The loop variables of `cutAfterJS`. -/
structure ScanState where
  isEscapedObject : Option EscSeq
  isEscaped : Bool
  counter : Int

/-- What one pass through the loop body does: go on with new loop variables (`continue` or the
end of the body), or `return`. -/
inductive IterResult
  | next (st : ScanState)
  | ret (r : Str)

/-- The inner `for (const escaped of ESCAPING_SEQUENZES)` loop: the first entry whose `start` is
the current character and whose `startPrefix`, if any, matches the ten characters before `i`. -/
def findEscape (s : Str) (i : Nat) (ci : Option Char) : List EscSeq → Option EscSeq
  | [] => none
  | escaped :: more =>
    if ci ≠ some escaped.start then findEscape s i ci more
    else
      match escaped.startPrefix with
      | none => some escaped
      | some re =>
        if re (substring s ((i : Int) - 10) i) then some escaped else findEscape s i ci more

/-- The part of the loop body after the two literal checks: update `isEscaped`, skip counting
inside a literal, count the bracket, return when the counter is zero. -/
def countStep (s : Str) (op cl : Char) (i : Nat) (ci : Option Char) (st : ScanState) :
    IterResult :=
  let isEscaped := (ci = some '\\') && !st.isEscaped
  if st.isEscapedObject.isSome then .next { st with isEscaped := isEscaped }
  else
    let counter :=
      if ci = some op then st.counter + 1
      else if ci = some cl then st.counter - 1
      else st.counter
    if counter = 0 then .ret (substring s 0 ((i : Int) + 1))
    else .next { st with isEscaped := isEscaped, counter := counter }

/-- One pass through the body of the `for (i = 0; i < mixedJson.length; i++)` loop at index `i`. -/
def iter (s : Str) (op cl : Char) (i : Nat) (st : ScanState) : IterResult :=
  let ci := s[i]?
  if !st.isEscaped && st.isEscapedObject.isSome &&
      ci = st.isEscapedObject.map EscSeq.stop then
    .next { st with isEscapedObject := none }
  else if !st.isEscaped && st.isEscapedObject.isNone then
    match findEscape s i ci ESCAPING_SEQUENZES with
    | some escaped => .next { st with isEscapedObject := some escaped }
    | none => countStep s op cl i ci st
  else countStep s op cl i ci st

/-- The loop of `cutAfterJS` with `n` passes left, at index `i`; after the last pass the
function throws the closing-bracket error. -/
def cutLoop (s : Str) (op cl : Char) : Nat → Nat → ScanState → Except CutError Str
  | 0, _, _ => .error .unbalanced
  | n + 1, i, st =>
    match iter s op cl i st with
    | .ret r => .ok r
    | .next st' => cutLoop s op cl n (i + 1) st'

/-- The bracket pair chosen from the first character; `none` when `open` stays undefined. -/
def bracketPair (s : Str) : Option (Char × Char) :=
  if s[0]? = some '[' then some ('[', ']')
  else if s[0]? = some '{' then some ('{', '}')
  else none

/-- The function `cutAfterJS`. -/
def cutAfterJS (mixedJson : Str) : Except CutError Str :=
  match bracketPair mixedJson with
  | none => .error .unsupported
  | some (op, cl) => cutLoop mixedJson op cl mixedJson.length 0 ⟨none, false, 0⟩

/-! ### The loop of `cutAfterJS` seen from a split of the input

`scanFrom op cl pre rest st` is the loop at index `pre.length` of the input `pre ++ rest`. -/

/-- The loop of `cutAfterJS` on `pre ++ rest`, started at the first character of `rest`. -/
def scanFrom (op cl : Char) (pre rest : Str) (st : ScanState) : Except CutError Str :=
  cutLoop (pre ++ rest) op cl rest.length pre.length st

/-- The loop variables before pass `i`, or `none` when an earlier pass has returned. -/
def stateAt (s : Str) (op cl : Char) : Nat → Option ScanState
  | 0 => some ⟨none, false, 0⟩
  | i + 1 =>
    match stateAt s op cl i with
    | none => none
    | some st =>
      match iter s op cl i st with
      | .next st' => some st'
      | .ret _ => none

/-- The value of `counter` at the end of pass `i` started with the loop variables `st`; a pass
returns exactly when it has brought the counter to zero. -/
def counterAfter (s : Str) (op cl : Char) (i : Nat) (st : ScanState) : Int :=
  match iter s op cl i st with
  | .next st' => st'.counter
  | .ret _ => 0

/-- The entry of `ESCAPING_SEQUENZES` for double-quoted strings. -/
def dquoteSeq : EscSeq := ⟨'"', '"', none⟩

/-- The characters that can open a literal: the `start` fields of `ESCAPING_SEQUENZES`. -/
def isLiteralStart (c : Char) : Bool :=
  c = '"' || c = '\'' || c = '`' || c = '/'

/-! ### The JSON grammar (ECMA-404), as a predicate on texts -/

/-- JSON white space: space, tab, line feed, carriage return. -/
def isJsonWs (c : Char) : Bool :=
  c = ' ' || c = '\t' || c = '\n' || c = '\r'

/-- A decimal digit. -/
def isDigit (c : Char) : Bool := 48 ≤ c.toNat && c.toNat ≤ 57

/-- A hexadecimal digit `[0-9a-fA-F]`. -/
def isHexDigit (c : Char) : Bool :=
  (48 ≤ c.toNat && c.toNat ≤ 57) || (97 ≤ c.toNat && c.toNat ≤ 102) ||
  (65 ≤ c.toNat && c.toNat ≤ 70)

/-- A run of JSON white space, possibly empty. -/
def JWs (s : Str) : Prop := ∀ c ∈ s, isJsonWs c = true

/-- A non-empty run of decimal digits. -/
def JDigits (s : Str) : Prop := s ≠ [] ∧ ∀ c ∈ s, isDigit c = true

/-- The integer part of a number: `0`, or digits that do not start with `0`. -/
def JInt (s : Str) : Prop := s = ['0'] ∨ (JDigits s ∧ s.head? ≠ some '0')

/-- The optional fraction of a number. -/
def JFrac (s : Str) : Prop := s = [] ∨ ∃ d, s = '.' :: d ∧ JDigits d

/-- The optional exponent of a number. -/
def JExp (s : Str) : Prop :=
  s = [] ∨ ∃ e sg d, s = e :: (sg ++ d) ∧ (e = 'e' ∨ e = 'E') ∧
    (sg = [] ∨ sg = ['+'] ∨ sg = ['-']) ∧ JDigits d

/-- A JSON number literal. -/
def JNumber (s : Str) : Prop :=
  ∃ sg i f e, s = sg ++ i ++ f ++ e ∧ (sg = [] ∨ sg = ['-']) ∧ JInt i ∧ JFrac f ∧ JExp e

/-- The characters that may follow a backslash in a JSON string, `u` apart. -/
def isSimpleEscape (c : Char) : Bool :=
  c = '"' || c = '\\' || c = '/' || c = 'b' || c = 'f' || c = 'n' || c = 'r' || c = 't'

/-- The text between the quotes of a JSON string: characters other than the quote, the backslash
and the control characters, and escape sequences. -/
inductive JStrBody : Str → Prop
  | nil : JStrBody []
  | plain (c : Char) {t : Str} (hq : c ≠ '"') (hb : c ≠ '\\') (hc : 32 ≤ c.toNat)
      (ht : JStrBody t) : JStrBody (c :: t)
  | esc (c : Char) {t : Str} (he : isSimpleEscape c = true) (ht : JStrBody t) :
      JStrBody ('\\' :: c :: t)
  | uni (a b c d : Char) {t : Str} (ha : isHexDigit a = true) (hb : isHexDigit b = true)
      (hc : isHexDigit c = true) (hd : isHexDigit d = true) (ht : JStrBody t) :
      JStrBody ('\\' :: 'u' :: a :: b :: c :: d :: t)

/-- The syntactic categories of the grammar below. -/
inductive JKind
  | value
  | elements
  | members

/-- The JSON grammar: `JSyn .value s` says that `s` is a JSON value; `JSyn .elements s` that `s`
is a non-empty comma-separated list of values, each surrounded by optional white space;
`JSyn .members s` the same for `string : value` pairs. -/
inductive JSyn : JKind → Str → Prop
  | str {b : Str} (hb : JStrBody b) : JSyn .value ('"' :: (b ++ ['"']))
  | num {n : Str} (hn : JNumber n) : JSyn .value n
  | litTrue : JSyn .value ['t', 'r', 'u', 'e']
  | litFalse : JSyn .value ['f', 'a', 'l', 's', 'e']
  | litNull : JSyn .value ['n', 'u', 'l', 'l']
  | arrEmpty {w : Str} (hw : JWs w) : JSyn .value ('[' :: (w ++ [']']))
  | arr {es : Str} (he : JSyn .elements es) : JSyn .value ('[' :: (es ++ [']']))
  | objEmpty {w : Str} (hw : JWs w) : JSyn .value ('{' :: (w ++ ['}']))
  | obj {ms : Str} (hm : JSyn .members ms) : JSyn .value ('{' :: (ms ++ ['}']))
  | elemOne {w1 v w2 : Str} (h1 : JWs w1) (hv : JSyn .value v) (h2 : JWs w2) :
      JSyn .elements (w1 ++ v ++ w2)
  | elemCons {w1 v w2 es : Str} (h1 : JWs w1) (hv : JSyn .value v) (h2 : JWs w2)
      (he : JSyn .elements es) : JSyn .elements (w1 ++ v ++ w2 ++ ',' :: es)
  | memOne {w1 k w2 w3 v w4 : Str} (h1 : JWs w1) (hk : JStrBody k) (h2 : JWs w2)
      (h3 : JWs w3) (hv : JSyn .value v) (h4 : JWs w4) :
      JSyn .members (w1 ++ '"' :: (k ++ '"' :: (w2 ++ ':' :: (w3 ++ v ++ w4))))
  | memCons {w1 k w2 w3 v w4 ms : Str} (h1 : JWs w1) (hk : JStrBody k) (h2 : JWs w2)
      (h3 : JWs w3) (hv : JSyn .value v) (h4 : JWs w4) (hm : JSyn .members ms) :
      JSyn .members (w1 ++ '"' :: (k ++ '"' :: (w2 ++ ':' :: (w3 ++ v ++ w4 ++ ',' :: ms))))

/-- A JSON object or array: a JSON value that starts with `{` or `[`. -/
def JContainer (s : Str) : Prop :=
  JSyn .value s ∧ (s.head? = some '{' ∨ s.head? = some '[')

/-! ### Segments that the scanner passes over -/

/-- The facts about a counted bracket pair that the scanner relies on: neither bracket opens a
literal or is a backslash, and the two differ. -/
structure CountedPair (op cl : Char) : Prop where
  op_lit : isLiteralStart op = false
  cl_lit : isLiteralStart cl = false
  op_bs : op ≠ '\\'
  cl_bs : cl ≠ '\\'
  ne : cl ≠ op

/-- A character that, outside a literal, changes nothing: it opens no literal, is no backslash
and is neither counted bracket. -/
def PlainFor (op cl : Char) (c : Char) : Prop :=
  isLiteralStart c = false ∧ c ≠ '\\' ∧ c ≠ op ∧ c ≠ cl

/-- The scanner started outside a literal with a positive counter before `seg` reaches the end
of `seg` in the same state, whatever surrounds `seg`. -/
def Neutral (op cl : Char) (seg : Str) : Prop :=
  ∀ (pre post : Str) (k : Int), 1 ≤ k →
    scanFrom op cl pre (seg ++ post) ⟨none, false, k⟩ =
      scanFrom op cl (pre ++ seg) post ⟨none, false, k⟩

/-- The two bracket pairs `cutAfterJS` can count. -/
def JsonPair (op cl : Char) : Prop := (op = '{' ∧ cl = '}') ∨ (op = '[' ∧ cl = ']')

/-- The characters of JSON text outside strings and brackets: white space, the characters of
numbers, the letters of `true`, `false` and `null`, the comma and the colon. -/
def isJsonToken (c : Char) : Bool :=
  isJsonWs c || isDigit c || c = '-' || c = '+' || c = '.' || c = 'e' || c = 'E' ||
  c = 't' || c = 'r' || c = 'u' || c = 'f' || c = 'a' || c = 'l' || c = 's' || c = 'n' ||
  c = ',' || c = ':'

/-! ### `between` -/

/-- The result of `haystack.match(left)` for a pattern without the `g` flag: the offset
`match.index` of the first match and the matched text `match[0]`. -/
structure RegExpMatch where
  index : Nat
  matched : Str

/-- The argument `left` of `between`: literal text, or a pattern (`left instanceof RegExp`),
given by what `haystack.match(left)` returns (`none` for `null`). -/
inductive LeftDelim
  | literal (left : Str)
  | pattern (exec : Str → Option RegExpMatch)

/-- The first half of `between`: the offset just after the first match of `left`, or `none`
where `between` returns the empty string. -/
def leftEnd (haystack : Str) : LeftDelim → Option Nat
  | .pattern exec =>
    match exec haystack with
    | none => none
    | some m => some (m.index + m.matched.length)
  | .literal left =>
    match indexOf haystack left with
    | none => none
    | some pos => some (pos + left.length)

/-- The function `between`. -/
def between (haystack : Str) (left : LeftDelim) (right : Str) : Str :=
  match leftEnd haystack left with
  | none => []
  | some pos =>
    let haystack := sliceFrom haystack pos
    match indexOf haystack right with
    | none => []
    | some pos => sliceTo haystack pos

/-- The text `pat` occurs in `s`. -/
def Occurs (pat s : Str) : Prop := ∃ p r, s = p ++ pat ++ r

/-- The split `s = p ++ pat ++ r` shows the first occurrence of `pat` in `s`: no occurrence
starts earlier. -/
def FirstOccurrence (pat s p r : Str) : Prop :=
  s = p ++ pat ++ r ∧ ∀ p' r', s = p' ++ pat ++ r' → p.length ≤ p'.length

/-! ### The platform functions `JSON.parse` and `JSON.stringify`

`tryParseBetween` calls `JSON.parse`, and the round trip through `cutAfterJS` is stated with
`JSON.stringify`.  Both are functions of the JavaScript platform; they are modelled here after
ECMA-262 (`JSON.parse`, `JSON.stringify`, `QuoteJSONString`) and the JSON grammar of ECMA-404.
Numbers are floating point and stay abstract: a number type `ν` with the two platform
conversions of `NumberOps`. -/

/-- The platform conversions between numbers and text: `Number::toString`, which
`JSON.stringify` uses, and the conversion of a JSON number literal to a number in `JSON.parse`. -/
structure NumberOps (ν : Type) where
  toString : ν → Str
  ofLiteral : Str → ν

mutual
/-- A JSON value: what `JSON.parse` returns and what `JSON.stringify` serialises. -/
inductive JSON (ν : Type)
  | null
  | bool (b : Bool)
  | num (n : ν)
  | str (s : Str)
  | arr (xs : JArr ν)
  | obj (ms : JObj ν)
  deriving DecidableEq
/-- The elements of an array, in order. -/
inductive JArr (ν : Type)
  | nil
  | cons (x : JSON ν) (xs : JArr ν)
  deriving DecidableEq
/-- The properties of an object, in order: key, value. -/
inductive JObj (ν : Type)
  | nil
  | cons (k : Str) (v : JSON ν) (ms : JObj ν)
  deriving DecidableEq
end

/-- The value of a hexadecimal digit. -/
def hexVal (c : Char) : Option Nat :=
  if 48 ≤ c.toNat ∧ c.toNat ≤ 57 then some (c.toNat - 48)
  else if 97 ≤ c.toNat ∧ c.toNat ≤ 102 then some (c.toNat - 87)
  else if 65 ≤ c.toNat ∧ c.toNat ≤ 70 then some (c.toNat - 55)
  else none

/-- The character that the escape `\e` denotes in a JSON string, `\u` apart. -/
def unescape (e : Char) : Option Char :=
  if e = '"' then some '"'
  else if e = '\\' then some '\\'
  else if e = '/' then some '/'
  else if e = 'b' then some (Char.ofNat 8)
  else if e = 'f' then some (Char.ofNat 12)
  else if e = 'n' then some (Char.ofNat 10)
  else if e = 'r' then some (Char.ofNat 13)
  else if e = 't' then some (Char.ofNat 9)
  else none

/-- The character that the escape `u` with the four hexadecimal digits `a b c d` denotes. -/
def hex4 (a b c d : Char) : Option Char :=
  match hexVal a, hexVal b, hexVal c, hexVal d with
  | some x, some y, some z, some w => some (Char.ofNat (((x * 16 + y) * 16 + z) * 16 + w))
  | _, _, _, _ => none

/-- Reads a JSON string after its opening quote: the string and the text after the closing
quote. -/
def parseStrBody : Str → Option (Str × Str)
  | [] => none
  | c :: s =>
    if c = '"' then some ([], s)
    else if c = '\\' then
      match s with
      | [] => none
      | e :: s1 =>
        if e = 'u' then
          match s1 with
          | a :: b :: c :: d :: s2 =>
            match hex4 a b c d, parseStrBody s2 with
            | some ch, some (t, r) => some (ch :: t, r)
            | _, _ => none
          | _ => none
        else
          match unescape e, parseStrBody s1 with
          | some ch, some (t, r) => some (ch :: t, r)
          | _, _ => none
    else if c.toNat < 32 then none
    else
      match parseStrBody s with
      | some (t, r) => some (c :: t, r)
      | none => none

/-- Drops leading JSON white space. -/
def skipWs : Str → Str
  | [] => []
  | c :: s => if isJsonWs c then skipWs s else c :: s

/-- Splits off the longest run of decimal digits. -/
def takeDigits : Str → Str × Str
  | [] => ([], [])
  | c :: s =>
    if isDigit c then ((c :: (takeDigits s).1), (takeDigits s).2) else ([], c :: s)

/-- Reads a non-empty run of digits after the introducing text `intro` (`.` for a fraction,
`e`, `e+`, `e-` and so on for an exponent). -/
def lexDigitsAfter (intro s : Str) : Option (Str × Str) :=
  match takeDigits s with
  | ([], _) => none
  | (d :: ds, r) => some (intro ++ d :: ds, r)

/-- Reads the optional fraction of a number literal. -/
def lexFrac (s : Str) : Option (Str × Str) :=
  match s with
  | [] => some ([], [])
  | c :: t => if c = '.' then lexDigitsAfter ['.'] t else some ([], c :: t)

/-- Reads the optional exponent of a number literal. -/
def lexExp (s : Str) : Option (Str × Str) :=
  match s with
  | [] => some ([], [])
  | c :: t =>
    if c = 'e' ∨ c = 'E' then
      match t with
      | [] => none
      | g :: u => if g = '+' ∨ g = '-' then lexDigitsAfter [c, g] u else lexDigitsAfter [c] t
    else some ([], c :: t)

/-- Reads the integer part of a number literal: `0`, or digits that do not start with `0`. -/
def lexInt (s : Str) : Option (Str × Str) :=
  match s with
  | [] => none
  | c :: t =>
    if c = '0' then some (['0'], t)
    else if isDigit c then some (c :: (takeDigits t).1, (takeDigits t).2)
    else none

/-- Reads a JSON number literal at the start of `s`: the literal and the text after it. -/
def lexNumber (s : Str) : Option (Str × Str) :=
  let sg : Str × Str :=
    match s with
    | [] => ([], [])
    | c :: t => if c = '-' then (['-'], t) else ([], c :: t)
  match lexInt sg.2 with
  | none => none
  | some (ip, s1) =>
    match lexFrac s1 with
    | none => none
    | some (fp, s2) =>
      match lexExp s2 with
      | none => none
      | some (ep, s3) => some (sg.1 ++ ip ++ fp ++ ep, s3)

/-- Reads the elements of an array after the first `[`, given the reader `pv` of values:
the elements and the text after the closing `]`.  The number `fuel` bounds the elements. -/
def parseElements {ν : Type} (pv : Str → Option (JSON ν × Str)) :
    Nat → Str → Option (JArr ν × Str)
  | 0, _ => none
  | fuel + 1, s =>
    match pv (skipWs s) with
    | none => none
    | some (v, r) =>
      match skipWs r with
      | [] => none
      | c :: t =>
        if c = ']' then some (.cons v .nil, t)
        else if c = ',' then
          match parseElements pv fuel t with
          | none => none
          | some (vs, r') => some (.cons v vs, r')
        else none

/-- Reads the properties of an object after the first `{`, given the reader `pv` of values:
the properties and the text after the closing `}`. -/
def parseMembers {ν : Type} (pv : Str → Option (JSON ν × Str)) :
    Nat → Str → Option (JObj ν × Str)
  | 0, _ => none
  | fuel + 1, s =>
    match skipWs s with
    | [] => none
    | q :: s1 =>
      if q = '"' then
        match parseStrBody s1 with
        | none => none
        | some (k, s2) =>
          match skipWs s2 with
          | [] => none
          | col :: s3 =>
            if col = ':' then
              match pv (skipWs s3) with
              | none => none
              | some (v, r) =>
                match skipWs r with
                | [] => none
                | c :: t =>
                  if c = '}' then some (.cons k v .nil, t)
                  else if c = ',' then
                    match parseMembers pv fuel t with
                    | none => none
                    | some (ms, r') => some (.cons k v ms, r')
                  else none
            else none
      else none

/-- Reads a JSON value at the start of `s` (no leading white space): the value and the text
after it.  The number `fuel` bounds the nesting depth and the number of elements. -/
def parseValue {ν : Type} (N : NumberOps ν) : Nat → Str → Option (JSON ν × Str)
  | 0, _ => none
  | fuel + 1, s =>
    match s with
    | [] => none
    | c :: t =>
      if c = '{' then
        match skipWs t with
        | [] => none
        | d :: u =>
          if d = '}' then some (.obj .nil, u)
          else
            match parseMembers (parseValue N fuel) fuel t with
            | none => none
            | some (ms, r) => some (.obj ms, r)
      else if c = '[' then
        match skipWs t with
        | [] => none
        | d :: u =>
          if d = ']' then some (.arr .nil, u)
          else
            match parseElements (parseValue N fuel) fuel t with
            | none => none
            | some (xs, r) => some (.arr xs, r)
      else if c = '"' then
        match parseStrBody t with
        | none => none
        | some (str, r) => some (.str str, r)
      else if ['t', 'r', 'u', 'e'].isPrefixOf s then some (.bool true, s.drop 4)
      else if ['f', 'a', 'l', 's', 'e'].isPrefixOf s then some (.bool false, s.drop 5)
      else if ['n', 'u', 'l', 'l'].isPrefixOf s then some (.null, s.drop 4)
      else
        match lexNumber s with
        | none => none
        | some (lit, r) => some (.num (N.ofLiteral lit), r)

/-- The platform function `JSON.parse` on a text: the value, or `none` where `JSON.parse` throws
a `SyntaxError`.  The whole text has to be one JSON value between optional white space. -/
def JSONparse {ν : Type} (N : NumberOps ν) (text : Str) : Option (JSON ν) :=
  match parseValue N (text.length + 1) (skipWs text) with
  | none => none
  | some (v, r) => if skipWs r = [] then some v else none

/-- A hexadecimal digit, lower case, for a value below 16. -/
def hexDigit (n : Nat) : Char :=
  if n < 10 then Char.ofNat (48 + n) else Char.ofNat (87 + n)

/-- What `QuoteJSONString` writes for one character. -/
def escapeChar (c : Char) : Str :=
  if c = '"' then ['\\', '"']
  else if c = '\\' then ['\\', '\\']
  else if c = Char.ofNat 8 then ['\\', 'b']
  else if c = Char.ofNat 12 then ['\\', 'f']
  else if c = Char.ofNat 10 then ['\\', 'n']
  else if c = Char.ofNat 13 then ['\\', 'r']
  else if c = Char.ofNat 9 then ['\\', 't']
  else if c.toNat < 32 then ['\\', 'u', '0', '0', hexDigit (c.toNat / 16), hexDigit (c.toNat % 16)]
  else [c]

/-- The escaped characters of a string, without the quotes. -/
def escapeStr : Str → Str
  | [] => []
  | c :: s => escapeChar c ++ escapeStr s

/-- The function `QuoteJSONString`: the string in double quotes, escaped. -/
def quoteJSONString (s : Str) : Str := '"' :: (escapeStr s ++ ['"'])

mutual
/-- The platform function `JSON.stringify` on a JSON value (no indentation). -/
def JSONstringify {ν : Type} (N : NumberOps ν) : JSON ν → Str
  | .null => ['n', 'u', 'l', 'l']
  | .bool b => if b then ['t', 'r', 'u', 'e'] else ['f', 'a', 'l', 's', 'e']
  | .num n => N.toString n
  | .str s => quoteJSONString s
  | .arr xs => '[' :: (stringifyElements N xs ++ [']'])
  | .obj ms => '{' :: (stringifyMembers N ms ++ ['}'])
/-- The elements of an array, separated by commas. -/
def stringifyElements {ν : Type} (N : NumberOps ν) : JArr ν → Str
  | .nil => []
  | .cons x xs =>
    JSONstringify N x ++
      (match xs with
       | .nil => []
       | .cons _ _ => ',' :: stringifyElements N xs)
/-- The properties of an object, separated by commas. -/
def stringifyMembers {ν : Type} (N : NumberOps ν) : JObj ν → Str
  | .nil => []
  | .cons k v ms =>
    quoteJSONString k ++ ':' :: (JSONstringify N v ++
      (match ms with
       | .nil => []
       | .cons _ _ _ => ',' :: stringifyMembers N ms))
end

/-- The value of a run of decimal digits. -/
def digitsValue (ds : Str) : Nat :=
  ds.foldl (fun acc c => 10 * acc + (c.toNat - 48)) 0

/-- The digits of a number in the given radix (at most 16), lowest first, for at most `fuel`
digits; the digits above 9 are the lower case letters. -/
def radixDigitsRev (radix : Nat) : Nat → Nat → Str
  | 0, _ => []
  | fuel + 1, n =>
    if n < radix then [hexDigit n]
    else hexDigit (n % radix) :: radixDigitsRev radix fuel (n / radix)

/-- The digits of a natural number in the given radix, highest first. -/
def radixDigits (radix n : Nat) : Str := (radixDigitsRev radix (n + 1) n).reverse

/-- The integers as an instance of the number conversions, for the examples: an integer is
written in decimal, and an integer literal denotes its decimal value. -/
def intNumberOps : NumberOps Int where
  toString n :=
    if n < 0 then '-' :: radixDigits 10 n.natAbs else radixDigits 10 n.natAbs
  ofLiteral lit :=
    match lit with
    | [] => 0
    | c :: t => if c = '-' then -((digitsValue (takeDigits t).1 : Nat) : Int)
                else ((digitsValue (takeDigits (c :: t)).1 : Nat) : Int)

/-! ### `tryParseBetween` -/

/-- The function `tryParseBetween`, over the platform's `JSON.parse` (`none` where it throws).
The body of the `try` block is the `Except` computation; `catch (e) { return null; }` turns its
error into `null`. -/
def tryParseBetween {ν : Type} (JSON_parse : Str → Option (JSON ν)) (body : Str)
    (left : LeftDelim) (right : Str) (prepend append : Str) : JSON ν :=
  let tryBlock : Except Unit (JSON ν) :=
    let data := between body left right
    if data = [] then .ok .null
    else
      match JSON_parse (prepend ++ data ++ append) with
      | some v => .ok v
      | none => .error ()
  match tryBlock with
  | .ok v => v
  | .error _ => .null

/-! ### Regular expressions, for `isIPv6`

The pattern `IPV6_REGEX` uses characters, classes, sequences, alternatives and repetitions, and
it is anchored at both ends, so `test` asks whether the pattern matches the whole text. -/

/-- The syntax of the regular expressions that `IPV6_REGEX` is made of. -/
inductive Re
  | eps
  | chr (c : Char)
  | cls (p : Char → Bool)
  | seq (a b : Re)
  | alt (a b : Re)
  | rep (r : Re) (lo hi : Nat)
  | atLeast (r : Re) (lo : Nat)

/-- Repetition: `repEnds step hi lo s` lists what can remain of `s` after at least `lo` and at
most `hi` matches in a row of the pattern whose remainders `step` lists. -/
def repEnds (step : Str → List Str) : Nat → Nat → Str → List Str
  | 0, lo, s => if lo = 0 then [s] else []
  | hi + 1, lo, s =>
    (if lo = 0 then [s] else []) ++ (step s).flatMap (repEnds step hi (lo - 1))

/-- What can remain of `s` after a match of the pattern at the start of `s`. -/
def Re.ends : Re → Str → List Str
  | .eps, s => [s]
  | .chr c, s =>
    match s with
    | [] => []
    | d :: t => if d = c then [t] else []
  | .cls p, s =>
    match s with
    | [] => []
    | d :: t => if p d then [t] else []
  | .seq a b, s => (a.ends s).flatMap b.ends
  | .alt a b, s => a.ends s ++ b.ends s
  | .rep r lo hi, s => repEnds r.ends hi lo s
  | .atLeast r lo, s => repEnds r.ends (lo + s.length) lo s

/-- The method `test` of the anchored pattern `^(?:re)$`: some match of `re` uses up the text. -/
def Re.test (re : Re) (s : Str) : Bool := (re.ends s).any (fun r => r.isEmpty)

/-- The sequence of the given patterns. -/
def Re.seqs : List Re → Re
  | [] => .eps
  | [r] => r
  | r :: rs => .seq r (Re.seqs rs)

/-- The alternative of the given patterns (at least one). -/
def Re.alts : List Re → Re
  | [] => .cls (fun _ => false)
  | [r] => r
  | r :: rs => .alt r (Re.alts rs)

/-- The pattern of a literal text. -/
def Re.text (s : Str) : Re := Re.seqs (s.map Re.chr)

/-- The optional pattern `r?`. -/
def Re.opt (r : Re) : Re := .rep r 0 1

/-- The class `[a-b]`, by character codes. -/
def Re.range (a b : Char) : Re := .cls (fun c => a.toNat ≤ c.toNat && c.toNat ≤ b.toNat)

/-- The group `[0-9a-fA-F]{1,4}`. -/
def reH4 : Re := .rep (.cls isHexDigit) 1 4

/-- The group `(?:25[0-5]|(?:2[0-4]|1?[0-9])?[0-9])`: a decimal byte. -/
def reByte : Re :=
  .alt (Re.seqs [.chr '2', .chr '5', Re.range '0' '5'])
    (.seq (Re.opt (.alt (.seq (.chr '2') (Re.range '0' '4'))
      (.seq (Re.opt (.chr '1')) (Re.range '0' '9')))) (Re.range '0' '9'))

/-- The dotted quad `(?:byte\.){3}byte`. -/
def reIPv4 : Re := .seq (.rep (.seq reByte (.chr '.')) 3 3) reByte

/-- The group `(?:[0-9a-fA-F]{1,4}:){lo,hi}`. -/
def reH4Colon (lo hi : Nat) : Re := .rep (.seq reH4 (.chr ':')) lo hi

/-- The group `(?::[0-9a-fA-F]{1,4}){lo,hi}`. -/
def reColonH4 (lo hi : Nat) : Re := .rep (.seq (.chr ':') reH4) lo hi

/-- The twelve alternatives of the address part of `IPV6_REGEX`, in the order of the source. -/
def ipv6Alternatives : List Re :=
  [ .seq (reH4Colon 7 7) reH4,
    .seq (.rep (.cls isHexDigit) 1 7) (.chr ':'),
    Re.seqs [reH4Colon 1 6, .chr ':', reH4],
    .seq (reH4Colon 1 5) (reColonH4 1 2),
    .seq (reH4Colon 1 4) (reColonH4 1 3),
    .seq (reH4Colon 1 3) (reColonH4 1 4),
    .seq (reH4Colon 1 2) (reColonH4 1 5),
    Re.seqs [reH4, .chr ':', reColonH4 1 6],
    .seq (.chr ':') (.alt (reColonH4 1 7) (.chr ':')),
    Re.seqs [Re.text ['f', 'e', '8', '0', ':'],
      .rep (.seq (.chr ':') (.rep (.cls isHexDigit) 0 4)) 0 4, .chr '%',
      .atLeast (.cls (fun c => isDigit c || (97 ≤ c.toNat && c.toNat ≤ 122) ||
        (65 ≤ c.toNat && c.toNat ≤ 90))) 1],
    Re.seqs [Re.text [':', ':'],
      .rep (Re.seqs [Re.text ['f', 'f', 'f', 'f'],
        .rep (.seq (.chr ':') (.rep (.chr '0') 1 4)) 0 1, .chr ':']) 0 1,
      reIPv4],
    Re.seqs [reH4Colon 1 4, .chr ':', reIPv4] ]

/-- The prefix length part `(?:\/(?:1[0-1][0-9]|12[0-8]|[1-9][0-9]|[1-9]))?` of `IPV6_REGEX`. -/
def reMask : Re :=
  Re.opt (.seq (.chr '/') (Re.alts
    [ Re.seqs [.chr '1', Re.range '0' '1', Re.range '0' '9'],
      Re.seqs [.chr '1', .chr '2', Re.range '0' '8'],
      .seq (Re.range '1' '9') (Re.range '0' '9'),
      Re.range '1' '9' ]))

/-- The pattern `IPV6_REGEX`, without its anchors. -/
def IPV6_REGEX : Re := .seq (Re.alts ipv6Alternatives) reMask

/-- The function `isIPv6`. -/
def isIPv6 (ip : Str) : Bool := IPV6_REGEX.test ip

/-! ### `getRandomIPv6` and `normalizeIP` -/

/-- A number of these functions: an integer, or `NaN` (`none`). -/
abbrev JSNum := Option Int

/-- The white space that `parseInt` skips: the class `\s`. -/
def skipSpace : Str → Str
  | [] => []
  | c :: s => if isRegexSpace c then skipSpace s else c :: s

/-- The value of a character as a digit in a radix up to 36. -/
def digitValue (c : Char) : Option Nat :=
  if 48 ≤ c.toNat ∧ c.toNat ≤ 57 then some (c.toNat - 48)
  else if 97 ≤ c.toNat ∧ c.toNat ≤ 122 then some (c.toNat - 87)
  else if 65 ≤ c.toNat ∧ c.toNat ≤ 90 then some (c.toNat - 55)
  else none

/-- The value of the longest run of digits of the radix at the start of `s`, after the value
`acc` of the digits read so far; `seen` says whether a digit has been read. -/
def readDigits (radix : Nat) : Str → Nat → Bool → Option Nat
  | [], acc, seen => if seen then some acc else none
  | c :: s, acc, seen =>
    match digitValue c with
    | some d =>
      if d < radix then readDigits radix s (acc * radix + d) true
      else if seen then some acc else none
    | none => if seen then some acc else none

/-- The function `parseInt(string, radix)` for the radix 10 or 16: leading white space, a sign,
with the radix 16 a prefix `0x` or `0X`, and the longest run of digits; `NaN` without a digit.
The value is the exact integer, which is what `parseInt` returns below `2 ^ 53`. -/
def parseInt (string : Str) (radix : Nat) : JSNum :=
  let s := skipSpace string
  let sg : Bool × Str :=
    match s with
    | [] => (false, [])
    | c :: t => if c = '-' then (true, t) else if c = '+' then (false, t) else (false, c :: t)
  let body : Str :=
    match sg.2 with
    | z :: x :: t => if radix = 16 ∧ z = '0' ∧ (x = 'x' ∨ x = 'X') then t else z :: x :: t
    | t => t
  match readDigits radix body 0 false with
  | none => none
  | some v => some (if sg.1 then -(v : Int) else (v : Int))

/-- The method `split` with a non-empty separator: `cur` holds the characters of the current
piece in reverse and `skip` counts the characters of a separator still to be dropped. -/
def splitAux (sep : Str) : Str → Str → Nat → List Str
  | [], cur, _ => [cur.reverse]
  | _ :: s, cur, skip + 1 => splitAux sep s cur skip
  | c :: s, cur, 0 =>
    if sep.isPrefixOf (c :: s) then cur.reverse :: splitAux sep s [] (sep.length - 1)
    else splitAux sep s (c :: cur) 0

/-- The method `s.split(sep)` for a non-empty separator `sep`. -/
def split (s sep : Str) : List Str := splitAux sep s [] 0

/-- The errors of `getRandomIPv6` and `normalizeIP`: the two thrown with `new Error`, and the
`RangeError` of `new Array(missing)` for a negative `missing`. -/
inductive IPError
  | invalidFormat
  | invalidMask
  | rangeError
  deriving DecidableEq, Repr

/-- The function `normalizeIP`. -/
def normalizeIP (ip : Str) : Except IPError (List JSNum) :=
  let parts := split ip [':', ':']
  let start : List Str :=
    match parts[0]? with
    | some p => if p = [] then [] else split p [':']
    | none => []
  let stop : List Str :=
    match parts[1]? with
    | some p => if p = [] then [] else split p [':']
    | none => []
  let missing : Int := 8 - ((start.length : Int) + stop.length)
  if missing < 0 then .error .rangeError
  else
    let zeros : List Str := List.replicate missing.toNat ['0']
    let full := start ++ zeros ++ stop
    .ok (full.map (fun part => parseInt (if part = [] then ['0'] else part) 16))

/-- An outcome of `Math.random()`: the fraction `num / den`, at least 0 and below 1. -/
structure RandomOutcome where
  num : Nat
  den : Nat
  lt : num < den

/-- The expression `Math.floor(Math.random() * n)` for the outcome `x` and an integer `n`
(the division of integers by a positive number rounds down). -/
def RandomOutcome.floorMul (x : RandomOutcome) (n : Int) : Int := (x.num : Int) * n / (x.den : Int)

/-- The conversion `ToUint32` of the bitwise operators; `NaN` becomes 0. -/
def toUint32 (x : JSNum) : Nat :=
  match x with
  | none => 0
  | some v => (v % 4294967296).toNat

/-- An unsigned 32-bit pattern read as a signed number, the result of a bitwise operator. -/
def asInt32 (n : Nat) : Int :=
  if 2147483648 ≤ n then (n : Int) - 4294967296 else (n : Int)

/-- The operator `a << k`. -/
def jsShl (a : JSNum) (k : Nat) : Int := asInt32 ((toUint32 a * 2 ^ (k % 32)) % 4294967296)

/-- The operator `a & b`. -/
def jsAnd (a b : JSNum) : Int := asInt32 (toUint32 a &&& toUint32 b)

/-- The operator `a | b`. -/
def jsOr (a b : JSNum) : Int := asInt32 (toUint32 a ||| toUint32 b)

/-- The loop `for (let i = 0; i < 8; i++)` of `getRandomIPv6`, with `n` passes left at index
`i`: the groups `result[i]` onwards.  The random source `rnd` gives the outcome of each call of
`Math.random()`, and `calls` counts the calls made so far.  The address `base10addr` has eight
groups, so that `base10addr[i]` is defined in every pass. -/
def fillGroups (rnd : Nat → RandomOutcome) (base10addr : List JSNum)
    (fullMaskGroups remainingBits : Nat) : Nat → Nat → Nat → List JSNum
  | 0, _, _ => []
  | n + 1, i, calls =>
    if i < fullMaskGroups then
      (base10addr[i]?).join :: fillGroups rnd base10addr fullMaskGroups remainingBits n (i + 1) calls
    else if i = fullMaskGroups ∧ remainingBits > 0 then
      let groupMask := jsShl (some 65535) (16 - remainingBits)
      let randomPart := (rnd calls).floorMul (jsShl (some 1) (16 - remainingBits))
      some (jsOr (some (jsAnd ((base10addr[i]?).join) (some groupMask))) (some randomPart)) ::
        fillGroups rnd base10addr fullMaskGroups remainingBits n (i + 1) (calls + 1)
    else
      some ((rnd calls).floorMul 65536) ::
        fillGroups rnd base10addr fullMaskGroups remainingBits n (i + 1) (calls + 1)

/-- The method `x.toString(16)` of a number: `NaN`, or the hexadecimal digits, after a minus
sign for a negative number. -/
def toStringHex (x : JSNum) : Str :=
  match x with
  | none => ['N', 'a', 'N']
  | some v => if v < 0 then '-' :: radixDigits 16 v.natAbs else radixDigits 16 v.natAbs

/-- The method `s.padStart(n, "0")`. -/
def padStart (s : Str) (n : Nat) : Str := List.replicate (n - s.length) '0' ++ s

/-- The method `join(":")`. -/
def joinColon : List Str → Str
  | [] => []
  | [s] => s
  | s :: rest => s ++ ':' :: joinColon rest

/-- The last line of `getRandomIPv6`: `result.map(x => x.toString(16).padStart(4, "0")).join(":")`. -/
def formatGroups (result : List JSNum) : Str :=
  joinColon (result.map (fun x => padStart (toStringHex x) 4))

/-- The function `getRandomIPv6`, over the outcomes `rnd` of the calls of `Math.random()`. -/
def getRandomIPv6 (rnd : Nat → RandomOutcome) (ip : Str) : Except IPError Str :=
  if !isIPv6 ip then .error .invalidFormat
  else
    let pieces := split ip ['/']
    let rawAddr : Str := (pieces[0]?).getD []
    let mask : JSNum :=
      match pieces[1]? with
      | none => none
      | some rawMask => parseInt rawMask 10
    match mask with
    | none => .error .invalidMask
    | some m =>
      if m > 128 ∨ m < 1 then .error .invalidMask
      else
        match normalizeIP rawAddr with
        | .error e => .error e
        | .ok base10addr =>
          let fullMaskGroups := m.toNat / 16
          let remainingBits := m.toNat % 16
          .ok (formatGroups (fillGroups rnd base10addr fullMaskGroups remainingBits 8 0 0))

/-! ### The round trip through `JSON.stringify`, `cutAfterJS` and `JSON.parse` -/

/-- The number conversions agree on the number `n`: `Number::toString` writes a JSON number
literal and that literal denotes `n` again.  (The platform guarantees this for every finite
number.) -/
def NumberOps.Faithful {ν : Type} (N : NumberOps ν) (n : ν) : Prop :=
  JNumber (N.toString n) ∧ N.ofLiteral (N.toString n) = n

mutual
/-- Every number in the value is one on which the number conversions agree. -/
def JSON.NumbersOk {ν : Type} (N : NumberOps ν) : JSON ν → Prop
  | .null => True
  | .bool _ => True
  | .num n => N.Faithful n
  | .str _ => True
  | .arr xs => JArr.NumbersOk N xs
  | .obj ms => JObj.NumbersOk N ms
/-- Every number in the elements is one on which the number conversions agree. -/
def JArr.NumbersOk {ν : Type} (N : NumberOps ν) : JArr ν → Prop
  | .nil => True
  | .cons x xs => JSON.NumbersOk N x ∧ JArr.NumbersOk N xs
/-- Every number in the properties is one on which the number conversions agree. -/
def JObj.NumbersOk {ν : Type} (N : NumberOps ν) : JObj ν → Prop
  | .nil => True
  | .cons _ v ms => JSON.NumbersOk N v ∧ JObj.NumbersOk N ms
end

mutual
/-- The number of values in a value, itself included. -/
def JSON.size {ν : Type} : JSON ν → Nat
  | .null => 1
  | .bool _ => 1
  | .num _ => 1
  | .str _ => 1
  | .arr xs => JArr.size xs + 1
  | .obj ms => JObj.size ms + 1
/-- The number of values in the elements. -/
def JArr.size {ν : Type} : JArr ν → Nat
  | .nil => 0
  | .cons x xs => JSON.size x + JArr.size xs
/-- The number of values in the properties. -/
def JObj.size {ν : Type} : JObj ν → Nat
  | .nil => 0
  | .cons _ v ms => JSON.size v + JObj.size ms
end

/-- The value is an object or an array. -/
def JSON.IsContainer {ν : Type} : JSON ν → Prop
  | .arr _ => True
  | .obj _ => True
  | _ => False

/-- The text after a value in the output of `JSON.stringify`: nothing, or a text that starts
with a comma or a closing bracket. -/
def Delimited (rest : Str) : Prop :=
  rest = [] ∨ ∃ c t, rest = c :: t ∧ (c = ',' ∨ c = ']' ∨ c = '}')

/-- The text after a number literal does not continue it: it does not start with a digit, a
point or an exponent mark. -/
def NumberEnd (rest : Str) : Prop :=
  ∀ c t, rest = c :: t → isDigit c = false ∧ c ≠ '.' ∧ c ≠ 'e' ∧ c ≠ 'E'

/-! ### The brackets that `cutAfterJS` counts

The counter of `cutAfterJS` is the number of opening brackets minus the number of closing
brackets that the loop has met outside literals.  `tallyPass` is the body of the loop with the
`return` left out and with the two numbers kept apart. -/

/-- The loop variables of `cutAfterJS`, with the opening and the closing brackets counted so far
in place of the counter. -/
structure Tally where
  isEscapedObject : Option EscSeq
  isEscaped : Bool
  opens : Nat
  closes : Nat

/-- The counting part of the loop body, without the `return`. -/
def tallyCount (op cl : Char) (ci : Option Char) (t : Tally) : Tally :=
  let isEscaped := (ci = some '\\') && !t.isEscaped
  if t.isEscapedObject.isSome then { t with isEscaped := isEscaped }
  else if ci = some op then { t with isEscaped := isEscaped, opens := t.opens + 1 }
  else if ci = some cl then { t with isEscaped := isEscaped, closes := t.closes + 1 }
  else { t with isEscaped := isEscaped }

/-- One pass through the loop body at index `i`, without the `return`. -/
def tallyPass (s : Str) (op cl : Char) (i : Nat) (t : Tally) : Tally :=
  let ci := s[i]?
  if !t.isEscaped && t.isEscapedObject.isSome &&
      ci = t.isEscapedObject.map EscSeq.stop then
    { t with isEscapedObject := none }
  else if !t.isEscaped && t.isEscapedObject.isNone then
    match findEscape s i ci ESCAPING_SEQUENZES with
    | some escaped => { t with isEscapedObject := some escaped }
    | none => tallyCount op cl ci t
  else tallyCount op cl ci t

/-- The tally after the first `k` passes over `s`. -/
def tallyAfter (s : Str) (op cl : Char) : Nat → Tally
  | 0 => ⟨none, false, 0, 0⟩
  | k + 1 => tallyPass s op cl k (tallyAfter s op cl k)

/-- The brackets of the kind `op`, `cl` in the text `p` that lie outside the literals of `p`:
the tally after a pass over every character of `p`. -/
def bracketTally (op cl : Char) (p : Str) : Tally := tallyAfter p op cl p.length

/-- The loop variables `st` agree with the tally `t`. -/
def TallyMatches (st : ScanState) (t : Tally) : Prop :=
  st.isEscapedObject = t.isEscapedObject ∧ st.isEscaped = t.isEscaped ∧
    st.counter = (t.opens : Int) - (t.closes : Int)

/-- A random source for the examples: every call of `Math.random()` gives one half. -/
def halfRandom : Nat → RandomOutcome := fun _ => ⟨1, 2, by decide⟩

/-! ### Properties looked up without regard to case

An object is modelled by its own enumerable properties, as the list of the pairs of key and
value in the order of `Object.keys`.  The method `toLowerCase` of the platform is a parameter. -/

/-- An object: its own enumerable properties in the order of `Object.keys`. -/
abbrev Obj (α : Type) := List (Str × α)

/-- The function `Object.keys`. -/
def Obj.keys {α : Type} (obj : Obj α) : List Str := obj.map (fun p => p.1)

/-- The value of an expression that reads a property: `null`, `undefined`, or a value. -/
inductive Lookup (α : Type)
  | null
  | undefined
  | value (v : α)
  deriving DecidableEq

/-- The expression `obj[key]` on an own property. -/
def Obj.get {α : Type} : Obj α → Str → Lookup α
  | [], _ => .undefined
  | (k, v) :: rest, key => if k = key then .value v else Obj.get rest key

/-- The assignment `obj[key] = value`: an existing property keeps its place, a new property
comes last (the place of a new key does not matter to the functions below, which add a key
only when no key of the object matches). -/
def Obj.set {α : Type} : Obj α → Str → α → Obj α
  | [], key, value => [(key, value)]
  | (k, v) :: rest, key, value =>
    if k = key then (k, value) :: rest else (k, v) :: Obj.set rest key value

/-- The function `findPropKeyInsensitive`: the first key that equals `prop` in lower case,
`|| null`; the empty key is falsy, so that it gives `null` (`none`) too. -/
def findPropKeyInsensitive {α : Type} (toLowerCase : Str → Str) (obj : Obj α) (prop : Str) :
    Option Str :=
  match (Obj.keys obj).find? (fun p => toLowerCase p = toLowerCase prop) with
  | none => none
  | some p => if p = [] then none else some p

/-- The function `getPropInsensitive`: `key && obj[key]`. -/
def getPropInsensitive {α : Type} (toLowerCase : Str → Str) (obj : Obj α) (prop : Str) :
    Lookup α :=
  match findPropKeyInsensitive toLowerCase obj prop with
  | none => .null
  | some key => Obj.get obj key

/-- The function `setPropInsensitive`: the object after `obj[key || prop] = value`, and the
returned `key`. -/
def setPropInsensitive {α : Type} (toLowerCase : Str → Str) (obj : Obj α) (prop : Str)
    (value : α) : Obj α × Option Str :=
  let key := findPropKeyInsensitive toLowerCase obj prop
  (Obj.set obj (key.getD prop) value, key)

/-- Lower case for the letters `A` to `Z`, for the examples. -/
def asciiLower (s : Str) : Str := s.map Char.toLower

/-! ### `request`

The function `request` is asynchronous; each `await` is modelled by the result of the awaited
call, a rejection by an error.  The calls of one `request` follow one another, so the model is
sequential.  A run that follows redirects for ever has no result: `request` takes the number
`fuel` of calls of `exports.request` that may start, and `none` says that they are used up. -/

/-- The errors that leave `request`: the error with the field `statusCode`, a `TypeError`,
the rejection of `body.json()` on a text that is not JSON, and an error of the transport. -/
inductive RequestError
  | status (statusCode : Nat)
  | typeError
  | syntaxError
  | transport
  deriving DecidableEq

/-- What the transport answers: the status code, the headers as an object (names in lower
case, as `Headers.entries()` and `undici` give them) and the text of the body. -/
structure Response where
  statusCode : Nat
  headers : Obj Str
  body : Str

/-- What `request` returns: the value of `body.json()` or the text of `body.text()`. -/
inductive Body (ν : Type)
  | json (v : JSON ν)
  | text (s : Str)
  deriving DecidableEq

/-- An address argument: a text, or `undefined` (`none`). -/
abbrev Url := Option Str

/-- The object that `rewriteRequest` returns. -/
structure Rewritten (ρ : Type) where
  requestOptions : Option ρ
  url : Url

/-- The argument `options` of `request`, with request options of type `ρ`: the field
`requestOptions`, the hook `rewriteRequest` and the injected transport `fetch` (each `none`
when it is not set, and for the last two when it is no function). -/
structure RequestArgs (ρ : Type) where
  requestOptions : Option ρ
  rewriteRequest : Option (Url → Option ρ → Rewritten ρ)
  fetch : Option (Url → ρ → Except RequestError Response)

/-- What `request` uses of the platform: the field `query` of the request options (`none` when
it is falsy), the address with the query appended (`new URL(url)`, `searchParams.append`,
`toString()`, an error when the address is not valid), the function `request` of `undici`, and
`JSON.parse` for `body.json()`. -/
structure RequestPlatform (ρ κ ν : Type) where
  query : ρ → Option κ
  appendQuery : Url → κ → Except RequestError Url
  undici : Url → Option ρ → Except RequestError Response
  JSON_parse : Str → Option (JSON ν)

/-- The method `s.includes(pat)`. -/
def includes (s pat : Str) : Bool := (indexOf s pat).isSome

/-- The method `s.startsWith(pat)`. -/
def startsWith (s pat : Str) : Bool := pat.isPrefixOf s

/-- The function `useFetch`.  Reading `requestOptions.query` of an undefined `requestOptions`
is a `TypeError`. -/
def useFetch {ρ κ ν : Type} (P : RequestPlatform ρ κ ν)
    (fetch : Url → ρ → Except RequestError Response) (url : Url) (requestOptions : Option ρ) :
    Except RequestError Response :=
  match requestOptions with
  | none => .error .typeError
  | some ro =>
    match P.query ro with
    | some query =>
      match P.appendQuery url query with
      | .error e => .error e
      | .ok url' => fetch url' ro
    | none => fetch url ro

/-- The expression `a || b` on addresses: the empty text and `undefined` are falsy. -/
def Url.orElse (a b : Url) : Url :=
  match a with
  | some u => if u = [] then b else some u
  | none => b

/-- The first part of `request`: the request options and the address after the hook
`rewriteRequest`, if there is one. -/
def rewriteStep {ρ : Type} (options : RequestArgs ρ) (url : Url) : Option ρ × Url :=
  match options.rewriteRequest with
  | some rewriteRequest =>
    let rewritten := rewriteRequest url options.requestOptions
    (match rewritten.requestOptions with
      | some ro => some ro
      | none => options.requestOptions,
     Url.orElse rewritten.url url)
  | none => (options.requestOptions, url)

/-- The second part of `request`: the call of the transport, `useFetch` with the injected
`fetch` or else the `request` of `undici`. -/
def dispatch {ρ κ ν : Type} (P : RequestPlatform ρ κ ν) (options : RequestArgs ρ) (url : Url) :
    Except RequestError Response :=
  let step := rewriteStep options url
  match options.fetch with
  | some fetch => useFetch P fetch step.2 step.1
  | none => P.undici step.2 step.1

/-- The text `code` of a status code: `statusCode.toString()`. -/
def statusText (statusCode : Nat) : Str := radixDigits 10 statusCode

/-- The branch of `request` for a code that starts with `2`: the decoded body.  Reading
`includes` of a missing `content-type` header is a `TypeError`. -/
def decodeBody {ρ κ ν : Type} (P : RequestPlatform ρ κ ν) (req : Response) :
    Except RequestError (Body ν) :=
  match Obj.get req.headers "content-type".toList with
  | .value contentType =>
    if includes contentType "application/json".toList then
      match P.JSON_parse req.body with
      | some v => .ok (.json v)
      | none => .error .syntaxError
    else .ok (.text req.body)
  | _ => .error .typeError

/-- The header `location` as the address of the next call; `undefined` when it is missing. -/
def locationOf (req : Response) : Url :=
  match Obj.get req.headers "location".toList with
  | .value l => some l
  | _ => none

/-- The function `request`, with at most `fuel` calls of `exports.request`. -/
def request {ρ κ ν : Type} (P : RequestPlatform ρ κ ν) (options : RequestArgs ρ) :
    Nat → Url → Option (Except RequestError (Body ν))
  | 0, _ => none
  | fuel + 1, url =>
    match dispatch P options url with
    | .error e => some (.error e)
    | .ok req =>
      let code := statusText req.statusCode
      if startsWith code ['2'] then some (decodeBody P req)
      else if startsWith code ['3'] then request P options fuel (locationOf req)
      else some (.error (.status req.statusCode))

/-- A chain of redirects, as `request` meets it with the argument `options`: the call for the
address `url` is answered by the first response of `hops`, which has a status 3xx and a
header `location`; the call for that address is answered by the next response, and so on; the
call for the last address is answered by `final`, which has a status 2xx.  Each call is the
call `dispatch P options` of `request`: the same `options`, the hook applied to the address. -/
inductive RedirectChain {ρ κ ν : Type} (P : RequestPlatform ρ κ ν) (options : RequestArgs ρ) :
    Str → List Response → Response → Prop
  | last {url : Str} {final : Response} :
      dispatch P options (some url) = .ok final →
      200 ≤ final.statusCode → final.statusCode ≤ 299 →
      RedirectChain P options url [] final
  | hop {url next : Str} {req : Response} {rest : List Response} {final : Response} :
      dispatch P options (some url) = .ok req →
      300 ≤ req.statusCode → req.statusCode ≤ 399 →
      Obj.get req.headers "location".toList = .value next →
      RedirectChain P options next rest final →
      RedirectChain P options url (req :: rest) final

/-- The relation `Hops P options n url next`: `n` calls of `request` one after the other, the
first for `url`, each answered by a response with a code that starts with `3`, lead to the
call for `next`. -/
inductive Hops {ρ κ ν : Type} (P : RequestPlatform ρ κ ν) (options : RequestArgs ρ) :
    Nat → Url → Url → Prop
  | zero (url : Url) : Hops P options 0 url url
  | succ {n : Nat} {url next : Url} {req : Response} :
      dispatch P options url = .ok req →
      startsWith (statusText req.statusCode) ['3'] = true →
      Hops P options n (locationOf req) next →
      Hops P options (n + 1) url next

/-- The outcome of the call of `request` for `url` when the response is no redirect; `none`
when it is one. -/
def settles {ρ κ ν : Type} (P : RequestPlatform ρ κ ν) (options : RequestArgs ρ) (url : Url) :
    Option (Except RequestError (Body ν)) :=
  request P options 1 url

/-- A platform for the examples: request options without content, no query, a `request` of
`undici` that fails, and `JSON.parse` over the integers. -/
def examplePlatform : RequestPlatform Unit Unit Int where
  query := fun _ => none
  appendQuery := fun url _ => .ok url
  undici := fun _ _ => .error .transport
  JSON_parse := JSONparse intNumberOps

/-- A transport for the examples, given by a table from addresses to responses; an address
that is not in the table is an error of the transport. -/
def tableFetch (table : List (Str × Response)) : Url → Unit → Except RequestError Response :=
  fun url _ =>
    match url with
    | none => .error .typeError
    | some u =>
      match Obj.get table u with
      | .value r => .ok r
      | _ => .error .transport

/-- Options for the examples: the transport `tableFetch table`, and a hook that appends `?s` to
the address. -/
def tableOptions (table : List (Str × Response)) : RequestArgs Unit where
  requestOptions := some ()
  rewriteRequest := some (fun url ro => ⟨ro, url.map (fun u => u ++ "?s".toList)⟩)
  fetch := some (tableFetch table)

/-- The chain 301, 302, 200 of the example. -/
def chainTable : List (Str × Response) :=
  [("http://a/?s".toList, ⟨301, [("location".toList, "http://b/".toList)], []⟩),
   ("http://b/?s".toList, ⟨302, [("location".toList, "http://c/".toList)], []⟩),
   ("http://c/?s".toList,
      ⟨200, [("content-type".toList, "application/json; charset=utf-8".toList)],
        "[1,2]".toList⟩)]

/-- An address that redirects to itself. -/
def selfTable : List (Str × Response) :=
  [("http://a/?s".toList, ⟨301, [("location".toList, "http://a/".toList)], []⟩)]

/-- Two addresses that redirect to each other. -/
def pairTable : List (Str × Response) :=
  [("http://a/?s".toList, ⟨302, [("location".toList, "http://b/".toList)], []⟩),
   ("http://b/?s".toList, ⟨307, [("location".toList, "http://a/".toList)], []⟩)]

/-- A response 200 without headers. -/
def bareTable : List (Str × Response) :=
  [("http://a/?s".toList, ⟨200, [], "hello".toList⟩)]

/-! ### `normalizeIP`: the written groups and the addresses of `IPV6_REGEX` -/

/-- A written group of an address: hexadecimal digits, at least one and at most 13, so that
the value is below `2 ^ 53` and `parseInt` gives it exactly. -/
def HexGroup (g : Str) : Prop := g ≠ [] ∧ g.length ≤ 13 ∧ ∀ c ∈ g, isHexDigit c = true

/-- The value of a group of hexadecimal digits, the first digit the highest. -/
def hexValue (g : Str) : Nat := g.foldl (fun acc c => acc * 16 + (hexVal c).getD 0) 0

/-- The expansion of an address as the specification words it: the values of the groups
before `::`, then a zero for each of the 8 groups that is not written, then the values of the
groups after `::`. -/
def expandElision (before after : List Str) : List JSNum :=
  before.map (fun g => some (hexValue g : Int)) ++
    List.replicate (8 - (before.length + after.length)) (some 0) ++
    after.map (fun g => some (hexValue g : Int))

/-- The texts that a pattern matches as a whole. -/
def Re.Lang : Re → Str → Prop
  | .eps, m => m = []
  | .chr c, m => m = [c]
  | .cls p, m => ∃ c, m = [c] ∧ p c = true
  | .seq a b, m => ∃ x y, m = x ++ y ∧ a.Lang x ∧ b.Lang y
  | .alt a b, m => a.Lang m ∨ b.Lang m
  | .rep r lo hi, m => ∃ ms : List Str, lo ≤ ms.length ∧ ms.length ≤ hi ∧
      (∀ x ∈ ms, r.Lang x) ∧ m = ms.flatten
  | .atLeast r lo, m => ∃ ms : List Str, lo ≤ ms.length ∧ (∀ x ∈ ms, r.Lang x) ∧ m = ms.flatten

/-- An address text in plain hexadecimal form: without a dotted quad, without a zone and
without a prefix length. -/
def PlainHex (addr : Str) : Prop := '.' ∉ addr ∧ '%' ∉ addr ∧ '/' ∉ addr

/-- The address text `addr` is written with the groups `before` and `after`: the groups
`before`, `::` and the groups `after`; or the groups `before` alone; or, the form that the
second alternative of `IPV6_REGEX` admits, one group and a colon. -/
def Written (addr : Str) (before after : List Str) : Prop :=
  addr = joinColon before ++ ':' :: ':' :: joinColon after ∨
  (after = [] ∧ addr = joinColon before) ∨
  (after = [] ∧ ∃ g, before = [g] ∧ addr = g ++ [':'])

/-- A redirect 301 to a response 200 without headers. -/
def bareChainTable : List (Str × Response) :=
  [("http://a/?s".toList, ⟨301, [("location".toList, "http://b/".toList)], []⟩),
   ("http://b/?s".toList, ⟨200, [], "hello".toList⟩)]

/-! ## Theorems -/

/-! ### `cutAfterJS`: one pass of the loop -/

theorem getElem?_split (pre : Str) (c : Char) (rest : Str) :
    (pre ++ c :: rest)[pre.length]? = some c := by
  rw [List.getElem?_append_right (Nat.le_refl _)]
  simp

theorem substring_zero_split (pre : Str) (c : Char) (rest : Str) :
    substring (pre ++ c :: rest) 0 ((pre.length : Int) + 1) = pre ++ [c] := by
  have h : ((pre.length : Int) + 1).toNat = pre.length + 1 := by omega
  simp [substring, h]
  rw [List.take_append_eq_append_take]
  simp

theorem scanFrom_nil (op cl : Char) (pre : Str) (st : ScanState) :
    scanFrom op cl pre [] st = .error .unbalanced := by
  simp [scanFrom, cutLoop]

theorem scanFrom_cons (op cl : Char) (pre : Str) (c : Char) (rest : Str) (st : ScanState) :
    scanFrom op cl pre (c :: rest) st =
      match iter (pre ++ c :: rest) op cl pre.length st with
      | .ret r => .ok r
      | .next st' => scanFrom op cl (pre ++ [c]) rest st' := by
  simp [scanFrom, cutLoop]

theorem cutAfterJS_eq_scanFrom (s : Str) (op cl : Char) (h : bracketPair s = some (op, cl)) :
    cutAfterJS s = scanFrom op cl [] s ⟨none, false, 0⟩ := by
  simp [cutAfterJS, h, scanFrom]

theorem findEscape_none (s : Str) (i : Nat) (c : Char) (h : isLiteralStart c = false) :
    findEscape s i (some c) ESCAPING_SEQUENZES = none := by
  simp [isLiteralStart] at h
  simp [findEscape, ESCAPING_SEQUENZES, h]

theorem findEscape_dquote (s : Str) (i : Nat) :
    findEscape s i (some '"') ESCAPING_SEQUENZES = some dquoteSeq := by
  simp [findEscape, ESCAPING_SEQUENZES, dquoteSeq]

/-- Outside a literal, a character that opens no literal and is no backslash and no bracket of
the counted kind leaves the loop variables as they are. -/
theorem iter_plain (op cl : Char) (pre : Str) (c : Char) (rest : Str) (k : Int)
    (hk : k ≠ 0) (hl : isLiteralStart c = false) (hb : c ≠ '\\') (hop : c ≠ op)
    (hcl : c ≠ cl) :
    iter (pre ++ c :: rest) op cl pre.length ⟨none, false, k⟩ = .next ⟨none, false, k⟩ := by
  unfold iter
  rw [getElem?_split]
  simp [findEscape_none _ _ c hl, countStep, hb, hop, hcl, hk]

/-- Outside a literal, the opening bracket increments the counter. -/
theorem iter_open (op cl : Char) (pre : Str) (rest : Str) (k : Int)
    (hk : k + 1 ≠ 0) (hl : isLiteralStart op = false) (hb : op ≠ '\\') :
    iter (pre ++ op :: rest) op cl pre.length ⟨none, false, k⟩ = .next ⟨none, false, k + 1⟩ := by
  unfold iter
  rw [getElem?_split]
  simp [findEscape_none _ _ op hl, countStep, hb, hk]

/-- Outside a literal, the closing bracket decrements the counter and the loop goes on when
the counter stays non-zero. -/
theorem iter_close (op cl : Char) (pre : Str) (rest : Str) (k : Int)
    (hk : k - 1 ≠ 0) (hl : isLiteralStart cl = false) (hb : cl ≠ '\\') (hne : cl ≠ op) :
    iter (pre ++ cl :: rest) op cl pre.length ⟨none, false, k⟩ = .next ⟨none, false, k - 1⟩ := by
  unfold iter
  rw [getElem?_split]
  simp [findEscape_none _ _ cl hl, countStep, hb, hk, hne]

/-- Outside a literal, the closing bracket that brings the counter to zero returns the input
up to and including that bracket. -/
theorem iter_close_ret (op cl : Char) (pre : Str) (rest : Str)
    (hl : isLiteralStart cl = false) (hne : cl ≠ op) :
    iter (pre ++ cl :: rest) op cl pre.length ⟨none, false, 1⟩ = .ret (pre ++ [cl]) := by
  unfold iter
  rw [getElem?_split]
  simp [findEscape_none _ _ cl hl, countStep, hne, substring_zero_split]

/-- Outside a literal, a double quote opens a string literal. -/
theorem iter_dquote_open (op cl : Char) (pre : Str) (rest : Str) (k : Int) :
    iter (pre ++ '"' :: rest) op cl pre.length ⟨none, false, k⟩ =
      .next ⟨some dquoteSeq, false, k⟩ := by
  unfold iter
  rw [getElem?_split]
  simp [findEscape_dquote]

/-- Inside a string literal, an unescaped double quote closes the literal. -/
theorem iter_dquote_close (op cl : Char) (pre : Str) (rest : Str) (k : Int) :
    iter (pre ++ '"' :: rest) op cl pre.length ⟨some dquoteSeq, false, k⟩ =
      .next ⟨none, false, k⟩ := by
  unfold iter
  rw [getElem?_split]
  simp [dquoteSeq]

/-- Inside a string literal, a character other than the quote and the backslash is skipped. -/
theorem iter_in_string (op cl : Char) (pre : Str) (c : Char) (rest : Str) (k : Int)
    (hq : c ≠ '"') (hb : c ≠ '\\') :
    iter (pre ++ c :: rest) op cl pre.length ⟨some dquoteSeq, false, k⟩ =
      .next ⟨some dquoteSeq, false, k⟩ := by
  unfold iter
  rw [getElem?_split]
  simp [dquoteSeq, countStep, hq, hb]

/-- Inside a string literal, a backslash sets the escape flag. -/
theorem iter_backslash (op cl : Char) (pre : Str) (rest : Str) (k : Int) :
    iter (pre ++ '\\' :: rest) op cl pre.length ⟨some dquoteSeq, false, k⟩ =
      .next ⟨some dquoteSeq, true, k⟩ := by
  unfold iter
  rw [getElem?_split]
  simp [dquoteSeq, countStep]

/-- Inside a string literal, the character after a backslash is skipped, whatever it is, and
the escape flag is cleared. -/
theorem iter_escaped (op cl : Char) (pre : Str) (c : Char) (rest : Str) (k : Int) :
    iter (pre ++ c :: rest) op cl pre.length ⟨some dquoteSeq, true, k⟩ =
      .next ⟨some dquoteSeq, false, k⟩ := by
  unfold iter
  rw [getElem?_split]
  simp [dquoteSeq, countStep]

/-! ### Segments that the scanner passes over -/

theorem countedPair_brace : CountedPair '{' '}' := by
  constructor <;> decide

theorem countedPair_bracket : CountedPair '[' ']' := by
  constructor <;> decide

theorem neutral_nil (op cl : Char) : Neutral op cl [] := by
  intro pre post k _
  simp

theorem neutral_append {op cl : Char} {a b : Str} (ha : Neutral op cl a)
    (hb : Neutral op cl b) : Neutral op cl (a ++ b) := by
  intro pre post k hk
  rw [List.append_assoc, ha pre (b ++ post) k hk, hb (pre ++ a) post k hk, List.append_assoc]

theorem neutral_plain {op cl : Char} {c : Char} (hc : PlainFor op cl c) :
    Neutral op cl [c] := by
  intro pre post k hk
  obtain ⟨hl, hb, hop, hcl⟩ := hc
  have hk0 : k ≠ 0 := by omega
  simp only [List.singleton_append, scanFrom_cons, iter_plain op cl pre c post k hk0 hl hb hop hcl]

theorem neutral_cons {op cl : Char} {c : Char} {t : Str} (hc : PlainFor op cl c)
    (ht : Neutral op cl t) : Neutral op cl (c :: t) :=
  neutral_append (neutral_plain hc) ht

theorem neutral_of_all_plain {op cl : Char} {s : Str} (h : ∀ c ∈ s, PlainFor op cl c) :
    Neutral op cl s := by
  induction s with
  | nil => exact neutral_nil op cl
  | cons c t ih =>
    exact neutral_cons (h c (List.mem_cons_self c t))
      (ih (fun d hd => h d (List.mem_cons_of_mem c hd)))

/-- The scanner inside a string literal reaches the closing quote of a JSON string body and
leaves the literal there. -/
theorem scan_string_body (op cl : Char) {b : Str} (hb : JStrBody b) :
    ∀ (pre post : Str) (k : Int),
      scanFrom op cl pre (b ++ '"' :: post) ⟨some dquoteSeq, false, k⟩ =
        scanFrom op cl (pre ++ b ++ ['"']) post ⟨none, false, k⟩ := by
  induction hb with
  | nil =>
    intro pre post k
    simp only [List.nil_append, List.append_nil, scanFrom_cons, iter_dquote_close]
  | plain c hq hbs _ _ ih =>
    intro pre post k
    simp only [List.cons_append, scanFrom_cons, iter_in_string op cl pre c _ k hq hbs, ih]
    simp
  | esc c _ _ ih =>
    intro pre post k
    simp only [List.cons_append, scanFrom_cons, iter_backslash, iter_escaped, ih]
    simp
  | uni a b c d _ _ _ _ _ ih =>
    intro pre post k
    have h1 : ∀ x : Char, isHexDigit x = true → x ≠ '"' ∧ x ≠ '\\' := by
      intro x hx
      constructor <;> (intro h; subst h; revert hx; decide)
    simp only [List.cons_append, scanFrom_cons, iter_backslash, iter_escaped,
      iter_in_string op cl _ a _ k (h1 a ‹_›).1 (h1 a ‹_›).2,
      iter_in_string op cl _ b _ k (h1 b ‹_›).1 (h1 b ‹_›).2,
      iter_in_string op cl _ c _ k (h1 c ‹_›).1 (h1 c ‹_›).2,
      iter_in_string op cl _ d _ k (h1 d ‹_›).1 (h1 d ‹_›).2, ih]
    simp

/-- A JSON string literal, quotes included, is passed over. -/
theorem neutral_string (op cl : Char) {b : Str} (hb : JStrBody b) :
    Neutral op cl ('"' :: (b ++ ['"'])) := by
  intro pre post k _
  simp only [List.cons_append, List.append_assoc, List.singleton_append, scanFrom_cons,
    iter_dquote_open, scan_string_body op cl hb]
  simp

/-- A passed-over segment between the counted brackets is passed over as a whole. -/
theorem neutral_wrap {op cl : Char} (hp : CountedPair op cl) {t : Str}
    (ht : Neutral op cl t) : Neutral op cl (op :: (t ++ [cl])) := by
  intro pre post k hk
  have h1 : k + 1 ≠ 0 := by omega
  have h2 : k + 1 - 1 ≠ 0 := by omega
  have h3 : (1 : Int) ≤ k + 1 := by omega
  have e : (op :: (t ++ [cl])) ++ post = op :: (t ++ (cl :: post)) := by simp
  rw [e, scanFrom_cons, iter_open op cl pre _ k h1 hp.op_lit hp.op_bs]
  dsimp only
  rw [ht (pre ++ [op]) (cl :: post) (k + 1) h3, scanFrom_cons,
    iter_close op cl _ _ (k + 1) h2 hp.cl_lit hp.cl_bs hp.ne]
  dsimp only
  have e2 : pre ++ [op] ++ t ++ [cl] = pre ++ op :: (t ++ [cl]) := by simp
  have e3 : k + 1 - 1 = k := by omega
  rw [e2, e3]

/-- The scanner on a text that opens with the counted bracket, continues with a passed-over
segment and then the closing bracket returns the text up to that closing bracket. -/
theorem scan_wrapped {op cl : Char} (hp : CountedPair op cl) {t : Str}
    (ht : Neutral op cl t) (post : Str) :
    scanFrom op cl [] (op :: (t ++ [cl]) ++ post) ⟨none, false, 0⟩ = .ok (op :: (t ++ [cl])) := by
  have h1 : (0 : Int) + 1 ≠ 0 := by omega
  have h3 : (1 : Int) ≤ 0 + 1 := by omega
  have e : (op :: (t ++ [cl])) ++ post = op :: (t ++ (cl :: post)) := by simp
  rw [e, scanFrom_cons, iter_open op cl [] _ 0 h1 hp.op_lit hp.op_bs]
  dsimp only
  rw [ht ([] ++ [op]) (cl :: post) (0 + 1) h3, scanFrom_cons]
  have e4 : ((0 : Int) + 1) = 1 := by omega
  rw [e4, iter_close_ret op cl _ _ hp.cl_lit hp.ne]
  simp

/-! ### The scanner on JSON text -/

theorem jsonPair_counted {op cl : Char} (hp : JsonPair op cl) : CountedPair op cl := by
  rcases hp with ⟨rfl, rfl⟩ | ⟨rfl, rfl⟩
  · exact countedPair_brace
  · exact countedPair_bracket

theorem ne_of_pred (p : Char → Bool) {c : Char} (d : Char) (hc : p c = true)
    (hd : p d = false) : c ≠ d := by
  intro h
  subst h
  rw [hc] at hd
  exact Bool.noConfusion hd

/-- A character that is none of the four literal openers, the backslash or the four brackets
is plain for both bracket pairs. -/
theorem plainFor_of_ne {op cl : Char} (hp : JsonPair op cl) {c : Char}
    (h1 : c ≠ '"') (h2 : c ≠ '\'') (h3 : c ≠ '`') (h4 : c ≠ '/') (h5 : c ≠ '\\')
    (h6 : c ≠ '{') (h7 : c ≠ '}') (h8 : c ≠ '[') (h9 : c ≠ ']') : PlainFor op cl c := by
  rcases hp with ⟨rfl, rfl⟩ | ⟨rfl, rfl⟩ <;>
    exact ⟨by simp [isLiteralStart, h1, h2, h3, h4], h5, by assumption, by assumption⟩

theorem plainFor_token {op cl : Char} (hp : JsonPair op cl) {c : Char}
    (h : isJsonToken c = true) : PlainFor op cl c :=
  plainFor_of_ne hp (ne_of_pred isJsonToken _ h (by decide)) (ne_of_pred isJsonToken _ h (by decide))
    (ne_of_pred isJsonToken _ h (by decide)) (ne_of_pred isJsonToken _ h (by decide))
    (ne_of_pred isJsonToken _ h (by decide)) (ne_of_pred isJsonToken _ h (by decide))
    (ne_of_pred isJsonToken _ h (by decide)) (ne_of_pred isJsonToken _ h (by decide))
    (ne_of_pred isJsonToken _ h (by decide))

theorem neutral_tokens {op cl : Char} (hp : JsonPair op cl) {s : Str}
    (h : ∀ c ∈ s, isJsonToken c = true) : Neutral op cl s :=
  neutral_of_all_plain (fun c hc => plainFor_token hp (h c hc))

theorem neutral_ws {op cl : Char} (hp : JsonPair op cl) {w : Str} (hw : JWs w) :
    Neutral op cl w :=
  neutral_tokens hp (fun c hc => by simp [isJsonToken, hw c hc])

theorem jdigits_tokens {s : Str} (h : JDigits s) : ∀ c ∈ s, isJsonToken c = true :=
  fun c hc => by simp [isJsonToken, h.2 c hc]

theorem jnumber_tokens {s : Str} (h : JNumber s) : ∀ c ∈ s, isJsonToken c = true := by
  obtain ⟨sg, i, f, e, rfl, hsg, hi, hf, he⟩ := h
  intro c hc
  simp only [List.mem_append] at hc
  rcases hc with ((hc | hc) | hc) | hc
  · rcases hsg with rfl | rfl
    · simp at hc
    · simp at hc; subst hc; decide
  · rcases hi with rfl | ⟨hd, _⟩
    · simp at hc; subst hc; decide
    · exact jdigits_tokens hd c hc
  · rcases hf with rfl | ⟨d, rfl, hd⟩
    · simp at hc
    · rcases List.mem_cons.1 hc with rfl | hc
      · decide
      · exact jdigits_tokens hd c hc
  · rcases he with rfl | ⟨x, sg2, d, rfl, hx, hsg2, hd⟩
    · simp at hc
    · rcases List.mem_cons.1 hc with rfl | hc
      · rcases hx with rfl | rfl <;> decide
      · rcases List.mem_append.1 hc with hc | hc
        · rcases hsg2 with rfl | rfl | rfl
          · simp at hc
          · simp at hc; subst hc; decide
          · simp at hc; subst hc; decide
        · exact jdigits_tokens hd c hc

/-- A passed-over segment between brackets of either kind is passed over, whichever pair is
the counted one. -/
theorem neutral_bracketed {op cl : Char} (hp : JsonPair op cl) {o c : Char}
    (ho : JsonPair o c) {t : Str} (ht : Neutral op cl t) : Neutral op cl (o :: (t ++ [c])) := by
  rcases hp with ⟨rfl, rfl⟩ | ⟨rfl, rfl⟩ <;> rcases ho with ⟨rfl, rfl⟩ | ⟨rfl, rfl⟩
  · exact neutral_wrap countedPair_brace ht
  · exact neutral_cons (by simp [PlainFor, isLiteralStart])
      (neutral_append ht (neutral_plain (by simp [PlainFor, isLiteralStart])))
  · exact neutral_cons (by simp [PlainFor, isLiteralStart])
      (neutral_append ht (neutral_plain (by simp [PlainFor, isLiteralStart])))
  · exact neutral_wrap countedPair_bracket ht

/-- Every text of the JSON grammar is passed over by the scanner, for both bracket pairs. -/
theorem jsyn_neutral {op cl : Char} (hp : JsonPair op cl) {kd : JKind} {s : Str}
    (h : JSyn kd s) : Neutral op cl s := by
  have comma : Neutral op cl [','] := neutral_tokens hp (by simp [isJsonToken])
  have colon : Neutral op cl [':'] := neutral_tokens hp (by simp [isJsonToken])
  induction h with
  | str hb => exact neutral_string op cl hb
  | num hn => exact neutral_tokens hp (jnumber_tokens hn)
  | litTrue => exact neutral_tokens hp (by decide)
  | litFalse => exact neutral_tokens hp (by decide)
  | litNull => exact neutral_tokens hp (by decide)
  | arrEmpty hw => exact neutral_bracketed hp (Or.inr ⟨rfl, rfl⟩) (neutral_ws hp hw)
  | arr _ ih => exact neutral_bracketed hp (Or.inr ⟨rfl, rfl⟩) ih
  | objEmpty hw => exact neutral_bracketed hp (Or.inl ⟨rfl, rfl⟩) (neutral_ws hp hw)
  | obj _ ih => exact neutral_bracketed hp (Or.inl ⟨rfl, rfl⟩) ih
  | elemOne h1 _ h2 ih =>
    exact neutral_append (neutral_append (neutral_ws hp h1) ih) (neutral_ws hp h2)
  | elemCons h1 _ h2 _ ihv ihe =>
    exact neutral_append (neutral_append (neutral_append (neutral_ws hp h1) ihv)
      (neutral_ws hp h2)) (neutral_append comma ihe)
  | memOne h1 hk h2 h3 _ h4 ih =>
    have hs := neutral_string op cl hk
    have := neutral_append (neutral_ws hp h1) (neutral_append hs (neutral_append
      (neutral_ws hp h2) (neutral_append colon (neutral_append (neutral_append
      (neutral_ws hp h3) ih) (neutral_ws hp h4)))))
    simpa using this
  | memCons h1 hk h2 h3 _ h4 _ ihv ihm =>
    have hs := neutral_string op cl hk
    have := neutral_append (neutral_ws hp h1) (neutral_append hs (neutral_append
      (neutral_ws hp h2) (neutral_append colon (neutral_append (neutral_append (neutral_append
      (neutral_ws hp h3) ihv) (neutral_ws hp h4)) (neutral_append comma ihm)))))
    simpa using this

theorem bracketPair_brace (t : Str) : bracketPair ('{' :: t) = some ('{', '}') := by
  simp [bracketPair]

theorem bracketPair_bracket (t : Str) : bracketPair ('[' :: t) = some ('[', ']') := by
  simp [bracketPair]

/-- On a text that opens with `{` or `[`, continues with a passed-over segment and the matching
closing bracket, `cutAfterJS` returns the text up to that closing bracket. -/
theorem cutAfterJS_wrapped {op cl : Char} (hp : JsonPair op cl) {t : Str}
    (ht : Neutral op cl t) (post : Str) :
    cutAfterJS (op :: (t ++ [cl]) ++ post) = .ok (op :: (t ++ [cl])) := by
  have hb : bracketPair (op :: (t ++ [cl]) ++ post) = some (op, cl) := by
    rcases hp with ⟨rfl, rfl⟩ | ⟨rfl, rfl⟩
    · exact bracketPair_brace _
    · exact bracketPair_bracket _
  rw [cutAfterJS_eq_scanFrom _ op cl hb]
  exact scan_wrapped (jsonPair_counted hp) ht post

/-- The scanner cuts a JSON object or array out of any text that starts with it. -/
theorem cutAfterJS_container {V : Str} (hV : JContainer V) (S : Str) :
    cutAfterJS (V ++ S) = .ok V := by
  obtain ⟨hv, hh⟩ := hV
  cases hv with
  | str hb => simp at hh
  | num hn =>
    cases V with
    | nil => simp at hh
    | cons c t =>
      have ht := jnumber_tokens hn c (List.mem_cons_self c t)
      rcases hh with hh | hh <;>
        (simp at hh; subst hh; exact absurd ht (by decide))
  | litTrue => simp at hh
  | litFalse => simp at hh
  | litNull => simp at hh
  | arrEmpty hw =>
    exact cutAfterJS_wrapped (Or.inr ⟨rfl, rfl⟩) (neutral_ws (Or.inr ⟨rfl, rfl⟩) hw) S
  | arr he => exact cutAfterJS_wrapped (Or.inr ⟨rfl, rfl⟩) (jsyn_neutral (Or.inr ⟨rfl, rfl⟩) he) S
  | objEmpty hw =>
    exact cutAfterJS_wrapped (Or.inl ⟨rfl, rfl⟩) (neutral_ws (Or.inl ⟨rfl, rfl⟩) hw) S
  | obj hm => exact cutAfterJS_wrapped (Or.inl ⟨rfl, rfl⟩) (jsyn_neutral (Or.inl ⟨rfl, rfl⟩) hm) S

theorem jws_nil : JWs [] := by
  intro c hc
  simp at hc

/-- The text `{"a":"}","b":[1,2]}` is a JSON object. -/
theorem example_object_container :
    JContainer ['{', '"', 'a', '"', ':', '"', '}', '"', ',', '"', 'b', '"', ':', '[', '1', ',',
      '2', ']', '}'] := by
  have one : JSyn .value ['1'] :=
    JSyn.num ⟨[], ['1'], [], [], rfl, Or.inl rfl, Or.inr ⟨⟨by decide, by decide⟩, by decide⟩,
      Or.inl rfl, Or.inl rfl⟩
  have two : JSyn .value ['2'] :=
    JSyn.num ⟨[], ['2'], [], [], rfl, Or.inl rfl, Or.inr ⟨⟨by decide, by decide⟩, by decide⟩,
      Or.inl rfl, Or.inl rfl⟩
  have arr : JSyn .value ['[', '1', ',', '2', ']'] :=
    @JSyn.arr ['1', ',', '2']
      (@JSyn.elemCons [] ['1'] [] ['2'] jws_nil one jws_nil
        (@JSyn.elemOne [] ['2'] [] jws_nil two jws_nil))
  have brace : JSyn .value ['"', '}', '"'] :=
    @JSyn.str ['}'] (JStrBody.plain '}' (by decide) (by decide) (by decide) JStrBody.nil)
  have ka : JStrBody ['a'] := JStrBody.plain 'a' (by decide) (by decide) (by decide) JStrBody.nil
  have kb : JStrBody ['b'] := JStrBody.plain 'b' (by decide) (by decide) (by decide) JStrBody.nil
  refine ⟨?_, Or.inl rfl⟩
  exact @JSyn.obj ['"', 'a', '"', ':', '"', '}', '"', ',', '"', 'b', '"', ':', '[', '1',
      ',', '2', ']']
    (@JSyn.memCons [] ['a'] [] [] ['"', '}', '"'] [] ['"', 'b', '"', ':', '[', '1', ',', '2', ']']
      jws_nil ka jws_nil jws_nil brace jws_nil
      (@JSyn.memOne [] ['b'] [] [] ['[', '1', ',', '2', ']'] [] jws_nil kb jws_nil jws_nil arr
        jws_nil))

/-- C1: for every text `V` that is a JSON object or array and every text `S`,
`cutAfterJS (V ++ S)` returns exactly `V`, whatever the string literals of `V` contain. -/
theorem cutAfterJS_returns_json_value (V S : Str) (hV : JContainer V) :
    cutAfterJS (V ++ S) = .ok V :=
  cutAfterJS_container hV S

/-- The instance of C1 at `{"a":"}","b":[1,2]}; bar();`. -/
theorem cutAfterJS_returns_json_value_witness :
    JContainer "\x7b\"a\":\"\x7d\",\"b\":[1,2]\x7d".toList ∧
    cutAfterJS ("\x7b\"a\":\"\x7d\",\"b\":[1,2]\x7d".toList ++ "; bar();".toList) =
      .ok "\x7b\"a\":\"\x7d\",\"b\":[1,2]\x7d".toList :=
  ⟨example_object_container,
    cutAfterJS_returns_json_value _ _ example_object_container⟩

/-! ### The two errors of `cutAfterJS` -/

theorem cutLoop_ne_unsupported (s : Str) (op cl : Char) :
    ∀ (n i : Nat) (st : ScanState), cutLoop s op cl n i st ≠ .error .unsupported := by
  intro n
  induction n with
  | zero =>
    intro i st
    simp [cutLoop]
  | succ n ih =>
    intro i st
    rw [cutLoop]
    cases h : iter s op cl i st with
    | next st' => exact ih (i + 1) st'
    | ret r => simp

theorem bracketPair_none {s : Str} (h1 : s.head? ≠ some '{') (h2 : s.head? ≠ some '[') :
    bracketPair s = none := by
  cases s with
  | nil => simp [bracketPair]
  | cons c t =>
    simp at h1 h2
    simp [bracketPair, h1, h2]

theorem bracketPair_some {s : Str} (h : s.head? = some '{' ∨ s.head? = some '[') :
    ∃ op cl, bracketPair s = some (op, cl) := by
  cases s with
  | nil => simp at h
  | cons c t =>
    simp at h
    rcases h with rfl | rfl
    · exact ⟨_, _, bracketPair_brace t⟩
    · exact ⟨_, _, bracketPair_bracket t⟩

theorem countStep_not_close (s : Str) (op cl : Char) (i : Nat) (c : Char) (st : ScanState)
    (hc : c ≠ cl) (hk : 1 ≤ st.counter) :
    ∃ st', countStep s op cl i (some c) st = .next st' ∧ 1 ≤ st'.counter := by
  unfold countStep
  by_cases h1 : st.isEscapedObject.isSome = true
  · simp only [h1, if_true]
    exact ⟨_, rfl, hk⟩
  · by_cases h2 : c = op
    · have h3 : st.counter + 1 ≠ 0 := by omega
      simp only [h1, h2, if_true, h3, if_false]
      exact ⟨_, rfl, by show 1 ≤ st.counter + 1; omega⟩
    · have h3 : st.counter ≠ 0 := by omega
      simp only [h1, Option.some.injEq, h2, hc, if_false, h3]
      exact ⟨_, rfl, hk⟩

/-- A pass over a character other than the closing bracket does not return, and it leaves the
counter positive. -/
theorem iter_not_close (op cl : Char) (pre : Str) (c : Char) (rest : Str) (st : ScanState)
    (hc : c ≠ cl) (hk : 1 ≤ st.counter) :
    ∃ st', iter (pre ++ c :: rest) op cl pre.length st = .next st' ∧ 1 ≤ st'.counter := by
  unfold iter
  rw [getElem?_split]
  dsimp only
  split
  · exact ⟨_, rfl, hk⟩
  · split
    · split
      · exact ⟨_, rfl, hk⟩
      · exact countStep_not_close _ op cl _ c st hc hk
    · exact countStep_not_close _ op cl _ c st hc hk

/-- The loop over a text without the closing bracket, started with a positive counter, runs to
the end of the input and throws. -/
theorem scanFrom_no_close (op cl : Char) :
    ∀ (rest pre : Str) (st : ScanState), cl ∉ rest → 1 ≤ st.counter →
      scanFrom op cl pre rest st = .error .unbalanced := by
  intro rest
  induction rest with
  | nil =>
    intro pre st _ _
    exact scanFrom_nil op cl pre st
  | cons c t ih =>
    intro pre st hcl hk
    have hc : c ≠ cl := fun h => hcl (h ▸ List.mem_cons_self c t)
    obtain ⟨st', h1, h2⟩ := iter_not_close op cl pre c t st hc hk
    rw [scanFrom_cons, h1]
    exact ih (pre ++ [c]) st' (fun h => hcl (List.mem_cons_of_mem c h)) h2

/-- On an input that opens with the counted bracket and has no closing bracket after it,
`cutAfterJS` throws the closing-bracket error. -/
theorem cutAfterJS_no_close {op cl : Char} (hp : JsonPair op cl) (t : Str) (h : cl ∉ t) :
    cutAfterJS (op :: t) = .error .unbalanced := by
  have hb : bracketPair (op :: t) = some (op, cl) := by
    rcases hp with ⟨rfl, rfl⟩ | ⟨rfl, rfl⟩
    · exact bracketPair_brace _
    · exact bracketPair_bracket _
  have h1 : (0 : Int) + 1 ≠ 0 := by omega
  rw [cutAfterJS_eq_scanFrom _ op cl hb, scanFrom_cons,
    iter_open op cl [] t 0 h1 (jsonPair_counted hp).op_lit (jsonPair_counted hp).op_bs]
  exact scanFrom_no_close op cl t _ _ h (by simp)

/-- When no pass brings the counter to zero, the loop runs to the end and throws. -/
theorem cutLoop_never_zero (s : Str) (op cl : Char)
    (h : ∀ i st, i < s.length → stateAt s op cl i = some st → counterAfter s op cl i st ≠ 0) :
    ∀ (n i : Nat) (st : ScanState), i + n = s.length → stateAt s op cl i = some st →
      cutLoop s op cl n i st = .error .unbalanced := by
  intro n
  induction n with
  | zero =>
    intro i st _ _
    simp [cutLoop]
  | succ n ih =>
    intro i st hi hst
    have h0 := h i st (by omega) hst
    rw [cutLoop]
    cases hit : iter s op cl i st with
    | ret r => simp [counterAfter, hit] at h0
    | next st' =>
      have hst' : stateAt s op cl (i + 1) = some st' := by
        simp [stateAt, hst, hit]
      exact ih (i + 1) st' (by omega) hst'

/-- C3: `cutAfterJS` returns no partial result.  On an input that begins with `{` or `[` and on
which no pass of the loop brings the bracket counter to zero, it throws the closing-bracket
error; in particular so on `{` followed by a text without `}` and on `[` followed by a text
without `]`. -/
theorem cutAfterJS_unbalanced_error :
    (∀ (s : Str) (op cl : Char), bracketPair s = some (op, cl) →
      (∀ i st, i < s.length → stateAt s op cl i = some st → counterAfter s op cl i st ≠ 0) →
      cutAfterJS s = .error .unbalanced) ∧
    (∀ t : Str, '}' ∉ t → cutAfterJS ('{' :: t) = .error .unbalanced) ∧
    (∀ t : Str, ']' ∉ t → cutAfterJS ('[' :: t) = .error .unbalanced) := by
  refine ⟨?_, ?_, ?_⟩
  · intro s op cl hb h
    simp only [cutAfterJS, hb]
    exact cutLoop_never_zero s op cl h s.length 0 _ (by simp) rfl
  · intro t ht
    exact cutAfterJS_no_close (Or.inl ⟨rfl, rfl⟩) t ht
  · intro t ht
    exact cutAfterJS_no_close (Or.inr ⟨rfl, rfl⟩) t ht

/-- The instance of C3 at `{bad`, through the counter and through the missing `}`. -/
theorem cutAfterJS_unbalanced_error_witness :
    (bracketPair "\x7bbad".toList = some ('{', '}') ∧
      (∀ i st, i < "\x7bbad".toList.length → stateAt "\x7bbad".toList '{' '}' i = some st →
        counterAfter "\x7bbad".toList '{' '}' i st ≠ 0) ∧
      cutAfterJS "\x7bbad".toList = .error .unbalanced) ∧
    ('}' ∉ "bad".toList ∧ cutAfterJS ('{' :: "bad".toList) = .error .unbalanced) ∧
    (']' ∉ "1,2".toList ∧ cutAfterJS ('[' :: "1,2".toList) = .error .unbalanced) := by
  have hc : ∀ i st, i < "\x7bbad".toList.length → stateAt "\x7bbad".toList '{' '}' i = some st →
      counterAfter "\x7bbad".toList '{' '}' i st ≠ 0 := by
    intro i st hi hst
    have hi' : i < 4 := hi
    interval_cases i <;>
      (simp [stateAt, iter, countStep, findEscape, ESCAPING_SEQUENZES] at hst
       subst hst
       simp [counterAfter, iter, countStep, findEscape, ESCAPING_SEQUENZES])
  exact ⟨⟨rfl, hc, cutAfterJS_unbalanced_error.1 _ _ _ rfl hc⟩,
    ⟨by decide, cutAfterJS_unbalanced_error.2.1 _ (by decide)⟩,
    ⟨by decide, cutAfterJS_unbalanced_error.2.2 _ (by decide)⟩⟩

/-- C4: on every input whose first character is neither `{` nor `[`, the empty input included,
`cutAfterJS` throws the unsupported-input error; on every input whose first character is `{` or
`[` it does not throw that error. -/
theorem cutAfterJS_unsupported_error :
    (∀ s : Str, s.head? ≠ some '{' → s.head? ≠ some '[' →
      cutAfterJS s = .error .unsupported) ∧
    (∀ s : Str, (s.head? = some '{' ∨ s.head? = some '[') →
      cutAfterJS s ≠ .error .unsupported) := by
  constructor
  · intro s h1 h2
    simp [cutAfterJS, bracketPair_none h1 h2]
  · intro s h
    obtain ⟨op, cl, hb⟩ := bracketPair_some h
    simp only [cutAfterJS, hb]
    exact cutLoop_ne_unsupported s op cl _ _ _

/-- The instances of C4 at the empty text, at `foo` and at `{bad`. -/
theorem cutAfterJS_unsupported_error_witness :
    cutAfterJS [] = .error .unsupported ∧
    cutAfterJS "foo".toList = .error .unsupported ∧
    cutAfterJS "\x7bbad".toList ≠ .error .unsupported :=
  ⟨cutAfterJS_unsupported_error.1 [] (by decide) (by decide),
    cutAfterJS_unsupported_error.1 "foo".toList (by decide) (by decide),
    cutAfterJS_unsupported_error.2 "\x7bbad".toList (Or.inl rfl)⟩

/-! ### `indexOf` and `between` -/

theorem isPrefixOf_iff_split (pat s : Str) :
    pat.isPrefixOf s = true ↔ ∃ r, s = pat ++ r := by
  rw [List.isPrefixOf_iff_prefix]
  constructor
  · rintro ⟨r, hr⟩
    exact ⟨r, hr.symm⟩
  · rintro ⟨r, hr⟩
    exact ⟨r, hr.symm⟩

/-- When `pat` occurs in `s`, `indexOfFrom` finds its first occurrence. -/
theorem indexOfFrom_first (pat : Str) :
    ∀ (s : Str) (k : Nat), Occurs pat s →
      ∃ p r, FirstOccurrence pat s p r ∧ indexOfFrom pat s k = some (k + p.length) := by
  intro s
  induction s with
  | nil =>
    intro k ⟨p, r, h⟩
    have hp : p = [] := by
      cases p with
      | nil => rfl
      | cons a b => simp at h
    subst hp
    have hpat : pat = [] := by
      cases pat with
      | nil => rfl
      | cons a b => simp at h
    subst hpat
    exact ⟨[], [], ⟨by simp, fun _ _ _ => Nat.zero_le _⟩, by simp [indexOfFrom]⟩
  | cons c t ih =>
    intro k hocc
    by_cases hpre : pat.isPrefixOf (c :: t) = true
    · obtain ⟨r, hr⟩ := (isPrefixOf_iff_split pat (c :: t)).1 hpre
      exact ⟨[], r, ⟨by simpa using hr, fun _ _ _ => Nat.zero_le _⟩,
        by simp [indexOfFrom, hpre]⟩
    · have hsplit : ∀ p' r', c :: t = p' ++ pat ++ r' →
          ∃ p'', p' = c :: p'' ∧ t = p'' ++ pat ++ r' := by
        intro p' r' h
        cases p' with
        | nil =>
          exact absurd ((isPrefixOf_iff_split pat (c :: t)).2 ⟨r', by simpa using h⟩) hpre
        | cons a p'' =>
          simp only [List.cons_append, List.cons.injEq] at h
          exact ⟨p'', by rw [h.1], h.2⟩
      obtain ⟨p, r, h⟩ := hocc
      obtain ⟨p0, _, ht⟩ := hsplit p r h
      obtain ⟨p1, r1, ⟨h1, hmin⟩, hidx⟩ := ih (k + 1) ⟨p0, r, ht⟩
      refine ⟨c :: p1, r1, ⟨by simp [h1], ?_⟩, ?_⟩
      · intro p' r' h'
        obtain ⟨p'', rfl, ht'⟩ := hsplit p' r' h'
        have := hmin p'' r' ht'
        simp only [List.length_cons]
        omega
      · simp only [indexOfFrom, hpre, hidx, List.length_cons]
        simp only [Bool.false_eq_true, if_false, Option.some.injEq]
        omega

/-- What `indexOfFrom` finds is an occurrence. -/
theorem indexOfFrom_some (pat : Str) :
    ∀ (s : Str) (k n : Nat), indexOfFrom pat s k = some n → Occurs pat s := by
  intro s
  induction s with
  | nil =>
    intro k n h
    by_cases hp : pat = []
    · exact ⟨[], [], by simp [hp]⟩
    · simp [indexOfFrom, hp] at h
  | cons c t ih =>
    intro k n h
    by_cases hpre : pat.isPrefixOf (c :: t) = true
    · obtain ⟨r, hr⟩ := (isPrefixOf_iff_split pat (c :: t)).1 hpre
      exact ⟨[], r, by simpa using hr⟩
    · simp only [indexOfFrom, hpre, Bool.false_eq_true, if_false] at h
      obtain ⟨p, r, hr⟩ := ih (k + 1) n h
      exact ⟨c :: p, r, by simp [hr]⟩

theorem indexOf_first {pat s : Str} (h : Occurs pat s) :
    ∃ p r, FirstOccurrence pat s p r ∧ indexOf s pat = some p.length := by
  obtain ⟨p, r, h1, h2⟩ := indexOfFrom_first pat s 0 h
  exact ⟨p, r, h1, by simpa [indexOf] using h2⟩

theorem indexOf_none {pat s : Str} (h : ¬ Occurs pat s) : indexOf s pat = none := by
  cases hi : indexOf s pat with
  | none => rfl
  | some n => exact absurd (indexOfFrom_some pat s 0 n hi) h

/-- The first occurrence is unique: two splits that both show it are the same split. -/
theorem firstOccurrence_unique {pat s p r p' r' : Str} (h : FirstOccurrence pat s p r)
    (h' : FirstOccurrence pat s p' r') : p = p' ∧ r = r' := by
  have h1 := h.2 p' r' h'.1
  have h2 := h'.2 p r h.1
  have hlen : p.length = p'.length := Nat.le_antisymm h1 h2
  have heq : p ++ (pat ++ r) = p' ++ (pat ++ r') := by
    rw [← List.append_assoc, ← List.append_assoc, ← h.1, ← h'.1]
  have hp := List.append_inj heq hlen
  exact ⟨hp.1, List.append_cancel_left hp.2⟩

/-- The first occurrences of the two delimiters determine `between`. -/
theorem between_of_first_occurrences (H L R pre rest s post : Str)
    (hL : FirstOccurrence L H pre rest) (hR : FirstOccurrence R rest s post) :
    between H (.literal L) R = s := by
  obtain ⟨p1, r1, hf1, hidx⟩ := indexOf_first ⟨pre, rest, hL.1⟩
  obtain ⟨hp, hr⟩ := firstOccurrence_unique hf1 hL
  subst hp
  subst hr
  obtain ⟨p2, r2, hf2, hidxR⟩ := indexOf_first ⟨s, post, hR.1⟩
  obtain ⟨hp2, hr2⟩ := firstOccurrence_unique hf2 hR
  subst hp2
  subst hr2
  have hdrop : sliceFrom H (p1.length + L.length) = r1 := by
    rw [hf1.1, sliceFrom, ← List.length_append]
    simp
  simp only [between, leftEnd, hidx, hdrop, hidxR]
  rw [hf2.1, sliceTo]
  simp

/-- C5: for literal delimiters `L` and `R`.  When `L` occurs in `H`, the first occurrence of
`L` splits `H` as `pre ++ L ++ rest`, and when `R` occurs in `rest`, the first occurrence of `R`
in `rest` splits it as `s ++ R ++ post`, and `between H L R` is exactly that `s`: both
delimiters are excluded and the search for `R` is in the text after the end of `L`.  And
whenever `H = pre ++ L ++ s ++ R ++ post` shows the first occurrence of `L` in `H` and the
first occurrence of `R` in the text after it, `between H L R` is `s`. -/
theorem between_literal_first_occurrences (H L R : Str) :
    (Occurs L H → ∃ pre rest, FirstOccurrence L H pre rest ∧
      (Occurs R rest → ∃ s post, FirstOccurrence R rest s post ∧
        H = pre ++ L ++ s ++ R ++ post ∧ between H (.literal L) R = s)) ∧
    (∀ pre s post : Str, FirstOccurrence L H pre (s ++ R ++ post) →
      FirstOccurrence R (s ++ R ++ post) s post → between H (.literal L) R = s) := by
  constructor
  · intro hL
    obtain ⟨pre, rest, hfirst, _⟩ := indexOf_first hL
    refine ⟨pre, rest, hfirst, ?_⟩
    intro hR
    obtain ⟨s, post, hfirstR, _⟩ := indexOf_first hR
    refine ⟨s, post, hfirstR, ?_, between_of_first_occurrences H L R pre rest s post hfirst
      hfirstR⟩
    rw [hfirst.1, hfirstR.1]
    simp
  · intro pre s post hL hR
    exact between_of_first_occurrences H L R pre (s ++ R ++ post) s post hL hR

/-- The instance of C5 at `between("a=[1];b=[2];", "=[", "]")`, which is `1`. -/
theorem between_literal_first_occurrences_witness :
    (Occurs "=[".toList "a=[1];b=[2];".toList ∧
      ∃ pre rest, FirstOccurrence "=[".toList "a=[1];b=[2];".toList pre rest ∧
        (Occurs "]".toList rest → ∃ s post, FirstOccurrence "]".toList rest s post ∧
          "a=[1];b=[2];".toList = pre ++ "=[".toList ++ s ++ "]".toList ++ post ∧
          between "a=[1];b=[2];".toList (.literal "=[".toList) "]".toList = s)) ∧
    (FirstOccurrence "=[".toList "a=[1];b=[2];".toList "a".toList
        ("1".toList ++ "]".toList ++ ";b=[2];".toList) ∧
      FirstOccurrence "]".toList ("1".toList ++ "]".toList ++ ";b=[2];".toList) "1".toList
        ";b=[2];".toList ∧
      between "a=[1];b=[2];".toList (.literal "=[".toList) "]".toList = "1".toList) := by
  have hL : FirstOccurrence "=[".toList "a=[1];b=[2];".toList "a".toList
      ("1".toList ++ "]".toList ++ ";b=[2];".toList) := by
    refine ⟨rfl, ?_⟩
    intro p' r' h
    cases p' with
    | nil => simp at h
    | cons c t => simp
  have hR : FirstOccurrence "]".toList ("1".toList ++ "]".toList ++ ";b=[2];".toList)
      "1".toList ";b=[2];".toList := by
    refine ⟨rfl, ?_⟩
    intro p' r' h
    cases p' with
    | nil => simp at h
    | cons c t => simp
  exact ⟨⟨⟨"a".toList, "1];b=[2];".toList, rfl⟩,
      (between_literal_first_occurrences _ _ _).1 ⟨"a".toList, "1];b=[2];".toList, rfl⟩⟩,
    ⟨hL, hR, (between_literal_first_occurrences _ _ _).2 _ _ _ hL hR⟩⟩

/-- C6: `between` is a total function, and it returns the empty string whenever a delimiter is
missing: when the literal left delimiter does not occur in `H`, when the left pattern has no
match in `H`, and when the right delimiter does not occur in the text after the first left
match (the text from offset `pos`, the end of that match, on). -/
theorem between_missing_delimiter :
    (∀ (H L R : Str), ¬ Occurs L H → between H (.literal L) R = []) ∧
    (∀ (H R : Str) (exec : Str → Option RegExpMatch), exec H = none →
      between H (.pattern exec) R = []) ∧
    (∀ (H R : Str) (left : LeftDelim) (pos : Nat), leftEnd H left = some pos →
      ¬ Occurs R (sliceFrom H pos) → between H left R = []) := by
  refine ⟨?_, ?_, ?_⟩
  · intro H L R h
    simp [between, leftEnd, indexOf_none h]
  · intro H R exec h
    simp [between, leftEnd, h]
  · intro H R left pos hpos h
    simp [between, hpos, indexOf_none h]

/-- The instances of C6: a missing literal left delimiter, a pattern without a match, and a
missing right delimiter after a literal and after a pattern match. -/
theorem between_missing_delimiter_witness :
    between "abc".toList (.literal "x".toList) "c".toList = [] ∧
    between "abc".toList (.pattern (fun _ => none)) "c".toList = [] ∧
    between "abc".toList (.literal "b".toList) "a".toList = [] ∧
    between "abc".toList (.pattern (fun _ => some ⟨1, "b".toList⟩)) "a".toList = [] := by
  have h1 : ¬ Occurs "x".toList "abc".toList := by
    intro h
    have := indexOf_first h
    simp [indexOf, indexOfFrom] at this
  have h2 : ¬ Occurs "a".toList (sliceFrom "abc".toList 2) := by
    intro h
    have := indexOf_first h
    simp [indexOf, indexOfFrom, sliceFrom] at this
  exact ⟨between_missing_delimiter.1 _ _ _ h1,
    between_missing_delimiter.2.1 _ _ _ rfl,
    between_missing_delimiter.2.2 _ _ (.literal "b".toList) 2 rfl h2,
    between_missing_delimiter.2.2 _ _ (.pattern (fun _ => some ⟨1, "b".toList⟩)) 2 rfl h2⟩

/-! ### `tryParseBetween` -/

theorem tryParseBetween_empty {ν : Type} (JSON_parse : Str → Option (JSON ν)) (body : Str)
    (left : LeftDelim) (right prepend append : Str) (h : between body left right = []) :
    tryParseBetween JSON_parse body left right prepend append = .null := by
  simp [tryParseBetween, h]

theorem tryParseBetween_nonempty {ν : Type} (JSON_parse : Str → Option (JSON ν)) (body : Str)
    (left : LeftDelim) (right prepend append : Str) (h : between body left right ≠ []) :
    tryParseBetween JSON_parse body left right prepend append =
      (JSON_parse (prepend ++ between body left right ++ append)).getD .null := by
  simp only [tryParseBetween, h, if_false]
  cases JSON_parse (prepend ++ between body left right ++ append) <;> rfl

/-- C7: `tryParseBetween` is fail-soft.  It is a total function (no error leaves it), whatever
`JSON.parse` does; it returns `null` when the extraction `between body left right` is empty,
`null` when `JSON.parse` rejects the text `prepend ++ data ++ append`, and the parsed value
otherwise. -/
theorem tryParseBetween_fail_soft {ν : Type} (JSON_parse : Str → Option (JSON ν)) (body : Str)
    (left : LeftDelim) (right prepend append : Str) :
    (between body left right = [] →
      tryParseBetween JSON_parse body left right prepend append = .null) ∧
    (JSON_parse (prepend ++ between body left right ++ append) = none →
      tryParseBetween JSON_parse body left right prepend append = .null) ∧
    (∀ v, between body left right ≠ [] →
      JSON_parse (prepend ++ between body left right ++ append) = some v →
      tryParseBetween JSON_parse body left right prepend append = v) := by
  refine ⟨tryParseBetween_empty JSON_parse body left right prepend append, ?_, ?_⟩
  · intro h
    by_cases hd : between body left right = []
    · exact tryParseBetween_empty JSON_parse body left right prepend append hd
    · rw [tryParseBetween_nonempty JSON_parse body left right prepend append hd, h]
      rfl
  · intro v hd h
    rw [tryParseBetween_nonempty JSON_parse body left right prepend append hd, h]
    rfl

/-- The instances of C7: an empty extraction, an extraction that is not JSON, and an extraction
that is JSON once wrapped in `prepend` and `append`. -/
theorem tryParseBetween_fail_soft_witness :
    (between "x=;".toList (.literal "x=".toList) ";".toList = [] ∧
      tryParseBetween (JSONparse intNumberOps) "x=;".toList (.literal "x=".toList) ";".toList
        [] [] = .null) ∧
    (JSONparse intNumberOps ([] ++ between "x=\x7bbad;".toList (.literal "x=".toList) ";".toList
        ++ []) = none ∧
      tryParseBetween (JSONparse intNumberOps) "x=\x7bbad;".toList (.literal "x=".toList)
        ";".toList [] [] = .null) ∧
    (between "x=1,2;".toList (.literal "x=".toList) ";".toList ≠ [] ∧
      JSONparse intNumberOps (['['] ++ between "x=1,2;".toList (.literal "x=".toList)
        ";".toList ++ [']']) = some (.arr (.cons (.num 1) (.cons (.num 2) .nil))) ∧
      tryParseBetween (JSONparse intNumberOps) "x=1,2;".toList (.literal "x=".toList)
        ";".toList ['['] [']'] = .arr (.cons (.num 1) (.cons (.num 2) .nil))) :=
  ⟨⟨by decide, (tryParseBetween_fail_soft _ _ _ _ _ _).1 (by decide)⟩,
    ⟨by decide, (tryParseBetween_fail_soft _ _ _ _ _ _).2.1 (by decide)⟩,
    ⟨by decide, by decide, (tryParseBetween_fail_soft _ _ _ _ _ _).2.2 _ (by decide) (by decide)⟩⟩

/-- C8, as stated, fails: on the body `var x = {"a":1}; foo();</script>` the extraction
between `var x = ` and `</script>` is `{"a":1}; foo();`, `cutAfterJS` cuts it to `{"a":1}`,
which parses to an object, and `tryParseBetween` returns `null`. -/
theorem tryParseBetween_scanner_counterexample :
    between "var x = \x7b\"a\":1\x7d; foo();</script>".toList (.literal "var x = ".toList)
        "</script>".toList = "\x7b\"a\":1\x7d; foo();".toList ∧
    cutAfterJS ([] ++ "\x7b\"a\":1\x7d; foo();".toList ++ []) = .ok "\x7b\"a\":1\x7d".toList ∧
    JSONparse intNumberOps "\x7b\"a\":1\x7d".toList = some (.obj (.cons ['a'] (.num 1) .nil)) ∧
    tryParseBetween (JSONparse intNumberOps) "var x = \x7b\"a\":1\x7d; foo();</script>".toList
        (.literal "var x = ".toList) "</script>".toList [] [] = .null := by
  refine ⟨by decide, rfl, by decide, by decide⟩

/-- C8, amended: `tryParseBetween` does not run the scanner.  When the extraction
`d = between body left right` is not empty, the result is the JSON parse of the whole text
`prepend ++ d ++ append`, `null` if that text is not valid JSON; it is the JSON parse of
`c = cutAfterJS (prepend ++ d ++ append)` when `c` is that whole text. -/
theorem tryParseBetween_parses_whole_text {ν : Type} (JSON_parse : Str → Option (JSON ν))
    (body : Str) (left : LeftDelim) (right prepend append : Str)
    (hd : between body left right ≠ []) :
    tryParseBetween JSON_parse body left right prepend append =
      (JSON_parse (prepend ++ between body left right ++ append)).getD .null ∧
    ∀ c, cutAfterJS (prepend ++ between body left right ++ append) = .ok c →
      c = prepend ++ between body left right ++ append →
      tryParseBetween JSON_parse body left right prepend append = (JSON_parse c).getD .null := by
  refine ⟨tryParseBetween_nonempty JSON_parse body left right prepend append hd, ?_⟩
  intro c _ hc
  rw [hc]
  exact tryParseBetween_nonempty JSON_parse body left right prepend append hd

/-- The instance of amended C8 at the body `x={"a":1};`, where the scanner returns the whole
extraction. -/
theorem tryParseBetween_parses_whole_text_witness :
    between "x=\x7b\"a\":1\x7d;".toList (.literal "x=".toList) ";".toList ≠ [] ∧
    cutAfterJS ([] ++ between "x=\x7b\"a\":1\x7d;".toList (.literal "x=".toList) ";".toList ++ []) =
      .ok "\x7b\"a\":1\x7d".toList ∧
    tryParseBetween (JSONparse intNumberOps) "x=\x7b\"a\":1\x7d;".toList (.literal "x=".toList)
      ";".toList [] [] = (JSONparse intNumberOps "\x7b\"a\":1\x7d".toList).getD .null :=
  ⟨by decide, rfl,
    (tryParseBetween_parses_whole_text (JSONparse intNumberOps) "x=\x7b\"a\":1\x7d;".toList
      (.literal "x=".toList) ";".toList [] [] (by decide)).2 "\x7b\"a\":1\x7d".toList rfl
      (by decide)⟩

/-! ### `getRandomIPv6` -/

/-- C9 fails on the code: `isIPv6` rejects `2001:db8::/32` (no alternative of `IPV6_REGEX`
matches an address that ends with `::`), so `getRandomIPv6` throws the invalid-format error
for every outcome of the random source. -/
theorem getRandomIPv6_documentation_block_rejected (rnd : Nat → RandomOutcome) :
    isIPv6 "2001:db8::/32".toList = false ∧
    getRandomIPv6 rnd "2001:db8::/32".toList = .error .invalidFormat := by
  have h : isIPv6 "2001:db8::/32".toList = false := by decide
  refine ⟨h, ?_⟩
  unfold getRandomIPv6
  rw [h]
  rfl

theorem floorMul_nonneg (x : RandomOutcome) (n : Nat) : 0 ≤ x.floorMul (n : Int) := by
  unfold RandomOutcome.floorMul
  positivity

theorem floorMul_lt (x : RandomOutcome) (n : Nat) (hn : 0 < n) : x.floorMul (n : Int) < n := by
  unfold RandomOutcome.floorMul
  have hd : (0 : Int) < (x.den : Int) := by
    have := x.lt
    omega
  rw [Int.ediv_lt_iff_lt_mul hd]
  have h1 : (x.num : Int) < x.den := by exact_mod_cast x.lt
  have h2 : (0 : Int) < n := by exact_mod_cast hn
  nlinarith

/-- The operator `|` on a multiple of 256 and a number below 256 adds the two. -/
theorem jsOr_low (a : Nat) (r : Int) (h0 : 0 ≤ r) (h1 : r < 256)
    (ha : 256 * a + 256 < 2147483648) :
    jsOr (some ((256 * a : Nat) : Int)) (some r) = (256 * a : Nat) + r := by
  obtain ⟨n, rfl⟩ := Int.eq_ofNat_of_zero_le h0
  have hn : n < 256 := by omega
  have e1 : toUint32 (some ((256 * a : Nat) : Int)) = 256 * a := by
    simp only [toUint32]
    omega
  have e2 : toUint32 (some (n : Int)) = n := by
    simp only [toUint32]
    omega
  have e3 : 256 * a ||| n = 256 * a + n := by
    have := @Nat.mul_add_lt_is_or 8 n (by simpa using hn) a
    simpa using this.symm
  rw [jsOr, e1, e2, e3, asInt32]
  have : ¬ (2147483648 ≤ 256 * a + n) := by omega
  simp only [this, if_false]
  push_cast
  ring

/-- C10 fails on the code: `getRandomIPv6` accepts `1234567:/8`, whose first group
`0x1234567` has more than 16 bits, and for every outcome of the random source the first group
of the result is `0x234500 + r` with `r` below 256: it is no 16-bit group, and it does not
agree with the group of the base address above the low eight bits. -/
theorem getRandomIPv6_wide_group (rnd : Nat → RandomOutcome) :
    normalizeIP "1234567:".toList =
      .ok [some 19088743, some 0, some 0, some 0, some 0, some 0, some 0, some 0] ∧
    ∃ r : Int, 0 ≤ r ∧ r < 256 ∧
      getRandomIPv6 rnd "1234567:/8".toList =
        .ok (formatGroups [some (2311424 + r), some ((rnd 1).floorMul 65536),
          some ((rnd 2).floorMul 65536), some ((rnd 3).floorMul 65536),
          some ((rnd 4).floorMul 65536), some ((rnd 5).floorMul 65536),
          some ((rnd 6).floorMul 65536), some ((rnd 7).floorMul 65536)]) ∧
      65536 ≤ 2311424 + r ∧ (2311424 + r) / 256 ≠ (19088743 : Int) / 256 := by
  have h1 : isIPv6 "1234567:/8".toList = true := by decide
  have h2 : split "1234567:/8".toList ['/'] = ["1234567:".toList, "8".toList] := by decide
  have h3 : parseInt "8".toList 10 = some 8 := by decide
  have h4 : normalizeIP "1234567:".toList =
      .ok [some 19088743, some 0, some 0, some 0, some 0, some 0, some 0, some 0] := rfl
  have h5 : jsShl (some 1) 8 = 256 := by decide
  have h6 : jsAnd (some 19088743) (some (jsShl (some 65535) 8)) = ((256 * 9029 : Nat) : Int) := by
    decide
  have r0 : 0 ≤ (rnd 0).floorMul 256 := floorMul_nonneg (rnd 0) 256
  have r1 : (rnd 0).floorMul 256 < 256 := floorMul_lt (rnd 0) 256 (by decide)
  refine ⟨h4, (rnd 0).floorMul 256, r0, r1, ?_, by omega, by omega⟩
  unfold getRandomIPv6
  rw [h1, h2]
  simp only [Bool.not_true, Bool.false_eq_true, if_false, List.getElem?_cons_zero,
    List.getElem?_cons_succ, Option.getD_some, h3, h4]
  have h7 : jsOr (some 2311424) (some ((rnd 0).floorMul 256)) = 2311424 + (rnd 0).floorMul 256 := by
    have := jsOr_low 9029 _ r0 r1 (by decide)
    simpa using this
  simp [fillGroups, h5, h6, h7]

/-! ### `JSON.parse` after `JSON.stringify` -/

theorem hex4_hexDigit (n : Nat) (h : n < 32) :
    hex4 '0' '0' (hexDigit (n / 16)) (hexDigit (n % 16)) = some (Char.ofNat n) := by
  interval_cases n <;> decide

theorem parseStrBody_quote (s : Str) : parseStrBody ('"' :: s) = some ([], s) := by
  rw [parseStrBody.eq_def]
  simp

theorem parseStrBody_plain (c : Char) (s : Str) (h1 : c ≠ '"') (h2 : c ≠ '\\')
    (h3 : ¬ c.toNat < 32) :
    parseStrBody (c :: s) =
      match parseStrBody s with
      | some (t, r) => some (c :: t, r)
      | none => none := by
  rw [parseStrBody.eq_def]
  simp only [h1, h2, h3, if_false]

theorem parseStrBody_escape (e : Char) (s : Str) (h : e ≠ 'u') :
    parseStrBody ('\\' :: e :: s) =
      match unescape e, parseStrBody s with
      | some ch, some (t, r) => some (ch :: t, r)
      | _, _ => none := by
  rw [parseStrBody.eq_def]
  simp [h]

theorem parseStrBody_unicode (a b c d : Char) (s : Str) :
    parseStrBody ('\\' :: 'u' :: a :: b :: c :: d :: s) =
      match hex4 a b c d, parseStrBody s with
      | some ch, some (t, r) => some (ch :: t, r)
      | _, _ => none := by
  rw [parseStrBody.eq_def]
  simp

/-- Reading back one escaped character. -/
theorem parseStrBody_escapeChar (c : Char) (s : Str) :
    parseStrBody (escapeChar c ++ s) =
      match parseStrBody s with
      | some (t, r) => some (c :: t, r)
      | none => none := by
  unfold escapeChar
  by_cases h1 : c = '"'
  · subst h1
    simp only [if_true, List.cons_append, List.nil_append]
    rw [parseStrBody_escape _ _ (by decide)]
    cases parseStrBody s <;> simp [unescape]
  by_cases h2 : c = '\\'
  · subst h2
    simp only [h1, if_true, if_false, List.cons_append, List.nil_append]
    rw [parseStrBody_escape _ _ (by decide)]
    cases parseStrBody s <;> simp [unescape]
  by_cases h3 : c = Char.ofNat 8
  · subst h3
    simp only [h1, h2, if_true, if_false, List.cons_append, List.nil_append]
    rw [parseStrBody_escape _ _ (by decide)]
    cases parseStrBody s <;> simp [unescape]
  by_cases h4 : c = Char.ofNat 12
  · subst h4
    simp only [h1, h2, h3, if_true, if_false, List.cons_append, List.nil_append]
    rw [parseStrBody_escape _ _ (by decide)]
    cases parseStrBody s <;> simp [unescape]
  by_cases h5 : c = Char.ofNat 10
  · subst h5
    simp only [h1, h2, h3, h4, if_true, if_false, List.cons_append, List.nil_append]
    rw [parseStrBody_escape _ _ (by decide)]
    cases parseStrBody s <;> simp [unescape]
  by_cases h6 : c = Char.ofNat 13
  · subst h6
    simp only [h1, h2, h3, h4, h5, if_true, if_false, List.cons_append, List.nil_append]
    rw [parseStrBody_escape _ _ (by decide)]
    cases parseStrBody s <;> simp [unescape]
  by_cases h7 : c = Char.ofNat 9
  · subst h7
    simp only [h1, h2, h3, h4, h5, h6, if_true, if_false, List.cons_append, List.nil_append]
    rw [parseStrBody_escape _ _ (by decide)]
    cases parseStrBody s <;> simp [unescape]
  by_cases h8 : c.toNat < 32
  · simp only [h1, h2, h3, h4, h5, h6, h7, h8, if_false, if_true, List.cons_append,
      List.nil_append]
    have hh := hex4_hexDigit c.toNat h8
    rw [Char.ofNat_toNat] at hh
    rw [parseStrBody_unicode, hh]
    cases parseStrBody s <;> rfl
  · simp only [h1, h2, h3, h4, h5, h6, h7, h8, if_false, List.cons_append, List.nil_append]
    exact parseStrBody_plain c s h1 h2 h8

/-- Reading back a quoted string: `parseStrBody` inverts `escapeStr`. -/
theorem parseStrBody_escapeStr (s rest : Str) :
    parseStrBody (escapeStr s ++ '"' :: rest) = some (s, rest) := by
  induction s with
  | nil => simp [escapeStr, parseStrBody_quote]
  | cons c t ih =>
    rw [escapeStr, List.append_assoc, parseStrBody_escapeChar, ih]

/-- The digits in front of a text that does not start with a digit are split off. -/
theorem takeDigits_append (ds rest : Str) (hds : ∀ c ∈ ds, isDigit c = true)
    (hr : ∀ c t, rest = c :: t → isDigit c = false) :
    takeDigits (ds ++ rest) = (ds, rest) := by
  induction ds with
  | nil =>
    cases rest with
    | nil => rfl
    | cons c t => simp [takeDigits, hr c t rfl]
  | cons d ds ih =>
    have hd := hds d (List.mem_cons_self d ds)
    have ih' := ih (fun c hc => hds c (List.mem_cons_of_mem d hc))
    simp [takeDigits, hd, ih']

theorem lexDigitsAfter_append (intro ds rest : Str) (hds : JDigits ds)
    (hr : ∀ c t, rest = c :: t → isDigit c = false) :
    lexDigitsAfter intro (ds ++ rest) = some (intro ++ ds, rest) := by
  unfold lexDigitsAfter
  rw [takeDigits_append ds rest hds.2 hr]
  cases ds with
  | nil => exact absurd rfl hds.1
  | cons d t => rfl

theorem lexExp_append (e rest : Str) (he : JExp e) (hr : NumberEnd rest) :
    lexExp (e ++ rest) = some (e, rest) := by
  have hrd : ∀ c t, rest = c :: t → isDigit c = false := fun c t h => (hr c t h).1
  rcases he with rfl | ⟨x, sg, d, rfl, hx, hsg, hd⟩
  · cases rest with
    | nil => rfl
    | cons c t =>
      obtain ⟨_, _, h3, h4⟩ := hr c t rfl
      simp [lexExp, h3, h4]
  · have hx' : (x = 'e' ∨ x = 'E') := hx
    rcases hsg with rfl | rfl | rfl
    · cases d with
      | nil => exact absurd rfl hd.1
      | cons g u =>
        have hg : isDigit g = true := hd.2 g (List.mem_cons_self g u)
        have h1 : g ≠ '+' := ne_of_pred isDigit _ hg (by decide)
        have h2 : g ≠ '-' := ne_of_pred isDigit _ hg (by decide)
        have := lexDigitsAfter_append [x] (g :: u) rest hd hrd
        simp only [List.nil_append, List.cons_append, lexExp, hx', if_true, h1, h2, or_self,
          if_false]
        simpa using this
    · have := lexDigitsAfter_append [x, '+'] d rest hd hrd
      simp only [List.cons_append, List.nil_append, lexExp, hx', if_true, true_or]
      simpa using this
    · have := lexDigitsAfter_append [x, '-'] d rest hd hrd
      simp only [List.cons_append, List.nil_append, lexExp, hx', if_true, or_true]
      simpa using this

/-- The text after the fraction of a number: an exponent and then the end of the number. -/
theorem numberEnd_exp (e rest : Str) (he : JExp e) (hr : NumberEnd rest) :
    ∀ c t, e ++ rest = c :: t → isDigit c = false ∧ c ≠ '.' := by
  intro c t h
  rcases he with rfl | ⟨x, sg, d, rfl, hx, _, _⟩
  · obtain ⟨h1, h2, _, _⟩ := hr c t h
    exact ⟨h1, h2⟩
  · simp only [List.cons_append, List.cons.injEq] at h
    obtain ⟨rfl, _⟩ := h
    rcases hx with rfl | rfl <;> exact ⟨by decide, by decide⟩

theorem lexFrac_append (f rest : Str) (hf : JFrac f)
    (hr : ∀ c t, rest = c :: t → isDigit c = false ∧ c ≠ '.') :
    lexFrac (f ++ rest) = some (f, rest) := by
  rcases hf with rfl | ⟨d, rfl, hd⟩
  · cases rest with
    | nil => rfl
    | cons c t => simp [lexFrac, (hr c t rfl).2]
  · have := lexDigitsAfter_append ['.'] d rest hd (fun c t h => (hr c t h).1)
    simp only [List.cons_append, lexFrac, if_true]
    simpa using this

theorem lexInt_append (i rest : Str) (hi : JInt i)
    (hr : ∀ c t, rest = c :: t → isDigit c = false) :
    lexInt (i ++ rest) = some (i, rest) := by
  rcases hi with rfl | ⟨hd, h0⟩
  · simp [lexInt]
  · cases i with
    | nil => exact absurd rfl hd.1
    | cons c t =>
      have hc : isDigit c = true := hd.2 c (List.mem_cons_self c t)
      have hc0 : c ≠ '0' := by simpa using h0
      have ht := takeDigits_append t rest (fun x hx => hd.2 x (List.mem_cons_of_mem c hx)) hr
      simp [lexInt, hc0, hc, ht]

/-- The lexer of numbers reads back a number literal that is followed by the end of a
number. -/
theorem lexNumber_append (lit rest : Str) (hl : JNumber lit) (hr : NumberEnd rest) :
    lexNumber (lit ++ rest) = some (lit, rest) := by
  obtain ⟨sg, i, f, e, rfl, hsg, hi, hf, he⟩ := hl
  have h3 := lexExp_append e rest he hr
  have h2 := lexFrac_append f (e ++ rest) hf (numberEnd_exp e rest he hr)
  have hfe : ∀ c t, f ++ (e ++ rest) = c :: t → isDigit c = false := by
    intro c t h
    rcases hf with rfl | ⟨d, rfl, _⟩
    · exact (numberEnd_exp e rest he hr c t h).1
    · simp only [List.cons_append, List.cons.injEq] at h
      obtain ⟨rfl, _⟩ := h
      decide
  have h1 := lexInt_append i (f ++ (e ++ rest)) hi hfe
  have hi0 : ∃ c t, i = c :: t ∧ isDigit c = true := by
    rcases hi with rfl | ⟨hd, _⟩
    · exact ⟨'0', [], rfl, by decide⟩
    · cases i with
      | nil => exact absurd rfl hd.1
      | cons c t => exact ⟨c, t, rfl, hd.2 c (List.mem_cons_self c t)⟩
  obtain ⟨c, t, rfl, hc⟩ := hi0
  have hcm : c ≠ '-' := ne_of_pred isDigit _ hc (by decide)
  rcases hsg with rfl | rfl
  · simp only [List.nil_append, List.append_assoc, List.cons_append] at h1 ⊢
    simp only [lexNumber, hcm, if_false, h1, h2, h3]
    simp
  · simp only [List.append_assoc, List.cons_append, List.nil_append] at h1 ⊢
    simp only [lexNumber, if_true, h1, h2, h3]
    simp

theorem skipWs_of_head (c : Char) (t : Str) (h : isJsonWs c = false) :
    skipWs (c :: t) = c :: t := by
  simp [skipWs, h]

theorem jnumber_head {lit : Str} (h : JNumber lit) :
    ∃ c t, lit = c :: t ∧ (isDigit c = true ∨ c = '-') := by
  obtain ⟨sg, i, f, e, rfl, hsg, hi, _, _⟩ := h
  rcases hsg with rfl | rfl
  · rcases hi with rfl | ⟨hd, _⟩
    · exact ⟨'0', _, rfl, Or.inl (by decide)⟩
    · cases i with
      | nil => exact absurd rfl hd.1
      | cons c t => exact ⟨c, _, rfl, Or.inl (hd.2 c (List.mem_cons_self c t))⟩
  · exact ⟨'-', _, rfl, Or.inr rfl⟩

/-- The first character of a number literal: not white space, no bracket, no quote and not the
first letter of `true`, `false` or `null`. -/
theorem jnumber_head_facts {c : Char} (h : isDigit c = true ∨ c = '-') :
    isJsonWs c = false ∧ c ≠ '{' ∧ c ≠ '}' ∧ c ≠ '[' ∧ c ≠ ']' ∧ c ≠ '"' ∧ c ≠ 't' ∧ c ≠ 'f' ∧
      c ≠ 'n' := by
  rcases h with h | rfl
  · refine ⟨?_, ne_of_pred isDigit _ h (by decide), ne_of_pred isDigit _ h (by decide),
      ne_of_pred isDigit _ h (by decide), ne_of_pred isDigit _ h (by decide),
      ne_of_pred isDigit _ h (by decide), ne_of_pred isDigit _ h (by decide),
      ne_of_pred isDigit _ h (by decide), ne_of_pred isDigit _ h (by decide)⟩
    cases hw : isJsonWs c with
    | false => rfl
    | true =>
      simp only [isJsonWs, Bool.or_eq_true, decide_eq_true_eq] at hw
      rcases hw with ((rfl | rfl) | rfl) | rfl <;> exact absurd h (by decide)
  · decide

/-- The output of `JSON.stringify` starts with a character that is no white space and no
closing bracket. -/
theorem stringify_head {ν : Type} (N : NumberOps ν) (X : JSON ν) (h : JSON.NumbersOk N X) :
    ∃ c t, JSONstringify N X = c :: t ∧ isJsonWs c = false ∧ c ≠ ']' ∧ c ≠ '}' := by
  cases X with
  | null => exact ⟨'n', _, rfl, by decide, by decide, by decide⟩
  | bool b =>
    cases b
    · exact ⟨'f', _, rfl, by decide, by decide, by decide⟩
    · exact ⟨'t', _, rfl, by decide, by decide, by decide⟩
  | num n =>
    simp only [JSON.NumbersOk, NumberOps.Faithful] at h
    obtain ⟨c, t, hc, hd⟩ := jnumber_head h.1
    obtain ⟨h1, _, h3, _, h5, _⟩ := jnumber_head_facts hd
    exact ⟨c, t, by simp [JSONstringify, hc], h1, h5, h3⟩
  | str s => exact ⟨'"', _, rfl, by decide, by decide,
      by decide⟩
  | arr xs => exact ⟨'[', _, rfl, by decide, by decide, by decide⟩
  | obj ms => exact ⟨'{', _, rfl, by decide, by decide, by decide⟩

theorem delimited_numberEnd {rest : Str} (h : Delimited rest) : NumberEnd rest := by
  intro c t hc
  rcases h with rfl | ⟨d, u, rfl, hd⟩
  · simp at hc
  · simp only [List.cons.injEq] at hc
    obtain ⟨rfl, _⟩ := hc
    rcases hd with rfl | rfl | rfl <;> exact ⟨by decide, by decide, by decide, by decide⟩

theorem json_size_pos {ν : Type} (X : JSON ν) : 1 ≤ X.size := by
  cases X <;> simp [JSON.size]

theorem parseValue_null {ν : Type} (N : NumberOps ν) (f : Nat) (rest : Str) :
    parseValue N (f + 1) ('n' :: 'u' :: 'l' :: 'l' :: rest) = some (.null, rest) := by
  simp [parseValue]

theorem parseValue_true {ν : Type} (N : NumberOps ν) (f : Nat) (rest : Str) :
    parseValue N (f + 1) ('t' :: 'r' :: 'u' :: 'e' :: rest) = some (.bool true, rest) := by
  simp [parseValue]

theorem parseValue_false {ν : Type} (N : NumberOps ν) (f : Nat) (rest : Str) :
    parseValue N (f + 1) ('f' :: 'a' :: 'l' :: 's' :: 'e' :: rest) = some (.bool false, rest) := by
  simp [parseValue]

theorem parseValue_string {ν : Type} (N : NumberOps ν) (f : Nat) (s rest : Str) :
    parseValue N (f + 1) (quoteJSONString s ++ rest) = some (.str s, rest) := by
  have h := parseStrBody_escapeStr s rest
  simp only [quoteJSONString, List.cons_append, List.append_assoc, List.singleton_append]
  simp [parseValue, h]

theorem parseValue_number {ν : Type} (N : NumberOps ν) (f : Nat) (n : ν) (rest : Str)
    (hn : N.Faithful n) (hr : Delimited rest) :
    parseValue N (f + 1) (N.toString n ++ rest) = some (.num n, rest) := by
  have hl := lexNumber_append _ rest hn.1 (delimited_numberEnd hr)
  obtain ⟨c, t, hc, hd⟩ := jnumber_head hn.1
  obtain ⟨_, h2, _, h4, _, h6, h7, h8, h9⟩ := jnumber_head_facts hd
  rw [hc] at hl
  rw [hc]
  simp only [List.cons_append] at hl ⊢
  simp [parseValue, h2, h4, h6, h7.symm, h8.symm, h9.symm, hl, ← hc, hn.2]

mutual
theorem parseValue_stringify {ν : Type} (N : NumberOps ν) :
    ∀ (X : JSON ν), JSON.NumbersOk N X → ∀ fuel, X.size ≤ fuel → ∀ rest, Delimited rest →
      parseValue N fuel (JSONstringify N X ++ rest) = some (X, rest)
  | .null, _, fuel, hf, rest, _ => by
    cases fuel with
    | zero => simp [JSON.size] at hf
    | succ f => exact parseValue_null N f rest
  | .bool b, _, fuel, hf, rest, _ => by
    cases fuel with
    | zero => simp [JSON.size] at hf
    | succ f =>
      cases b
      · exact parseValue_false N f rest
      · exact parseValue_true N f rest
  | .num n, hN, fuel, hf, rest, hr => by
    cases fuel with
    | zero => simp [JSON.size] at hf
    | succ f => exact parseValue_number N f n rest hN hr
  | .str s, _, fuel, hf, rest, _ => by
    cases fuel with
    | zero => simp [JSON.size] at hf
    | succ f => exact parseValue_string N f s rest
  | .arr xs, hN, fuel, hf, rest, _ => by
    have IH := parseElements_stringify N xs
    cases fuel with
    | zero => simp [JSON.size] at hf
    | succ f =>
      cases xs with
      | nil => simp [JSONstringify, stringifyElements, parseValue, skipWs_of_head ']' rest (by decide)]
      | cons x xs' =>
        have hsz : (JArr.cons x xs').size ≤ f := by
          simp only [JSON.size] at hf
          omega
        have hN' : JArr.NumbersOk N (.cons x xs') := hN
        have he := IH (by simp) hN' f f hsz hsz rest
        obtain ⟨c, t, hc, hw, h1, _⟩ := stringify_head N x hN'.1
        have hs : ∃ u, stringifyElements N (.cons x xs') ++ ']' :: rest = c :: u := by
          simp [stringifyElements, hc]
        obtain ⟨u, hs⟩ := hs
        have e1 : JSONstringify N (.arr (.cons x xs')) ++ rest =
            '[' :: (stringifyElements N (.cons x xs') ++ ']' :: rest) := by
          simp [JSONstringify]
        rw [e1]
        rw [hs] at he ⊢
        simp only [parseValue]
        simp [skipWs_of_head c _ hw, h1, he]
  | .obj ms, hN, fuel, hf, rest, _ => by
    have IH := parseMembers_stringify N ms
    cases fuel with
    | zero => simp [JSON.size] at hf
    | succ f =>
      cases ms with
      | nil => simp [JSONstringify, stringifyMembers, parseValue, skipWs_of_head '}' rest (by decide)]
      | cons k v ms' =>
        have hsz : (JObj.cons k v ms').size ≤ f := by
          simp only [JSON.size] at hf
          omega
        have hN' : JObj.NumbersOk N (.cons k v ms') := hN
        have he := IH (by simp) hN' f f hsz hsz rest
        have hs : ∃ u, stringifyMembers N (.cons k v ms') ++ '}' :: rest = '"' :: u := by
          simp [stringifyMembers, quoteJSONString]
        obtain ⟨u, hs⟩ := hs
        have e1 : JSONstringify N (.obj (.cons k v ms')) ++ rest =
            '{' :: (stringifyMembers N (.cons k v ms') ++ '}' :: rest) := by
          simp [JSONstringify]
        rw [e1]
        rw [hs] at he ⊢
        simp only [parseValue]
        simp [skipWs_of_head '"' _ (by decide), he]
theorem parseElements_stringify {ν : Type} (N : NumberOps ν) :
    ∀ (xs : JArr ν), xs ≠ .nil → JArr.NumbersOk N xs →
      ∀ fv fe, xs.size ≤ fv → xs.size ≤ fe → ∀ rest,
      parseElements (parseValue N fv) fe (stringifyElements N xs ++ ']' :: rest) =
        some (xs, rest)
  | .nil, hne, _, _, _, _, _, _ => absurd rfl hne
  | .cons x xs', _, hN, fv, fe, hv, he, rest => by
    have IHx := parseValue_stringify N x hN.1 fv
    have IH := parseElements_stringify N xs'
    have hx := json_size_pos x
    obtain ⟨c, t, hc, hw, _, _⟩ := stringify_head N x hN.1
    cases xs' with
    | nil =>
      simp only [JArr.size] at hv he
      cases fe with
      | zero => omega
      | succ f =>
        have hp := IHx (by omega) (']' :: rest) (Or.inr ⟨_, _, rfl, Or.inr (Or.inl rfl)⟩)
        have hs : stringifyElements N (.cons x .nil) ++ ']' :: rest =
            JSONstringify N x ++ ']' :: rest := by
          simp [stringifyElements]
        rw [hs]
        simp only [parseElements]
        rw [hc] at hp ⊢
        simp only [List.cons_append] at hp ⊢
        simp [skipWs_of_head c _ hw, hp, skipWs_of_head ']' rest (by decide)]
    | cons y ys =>
      have hy := json_size_pos y
      simp only [JArr.size] at hv he
      cases fe with
      | zero => omega
      | succ f =>
        have hp := IHx (by omega)
          (',' :: (stringifyElements N (.cons y ys) ++ ']' :: rest))
          (Or.inr ⟨_, _, rfl, Or.inl rfl⟩)
        have ih := IH (by simp) hN.2 fv f
          (by simp only [JArr.size]; omega) (by simp only [JArr.size]; omega) rest
        have hs : stringifyElements N (.cons x (.cons y ys)) ++ ']' :: rest =
            JSONstringify N x ++ ',' :: (stringifyElements N (.cons y ys) ++ ']' :: rest) := by
          simp [stringifyElements]
        rw [hs]
        simp only [parseElements]
        rw [hc] at hp ⊢
        simp only [List.cons_append] at hp ⊢
        simp [skipWs_of_head c _ hw, hp, skipWs_of_head ',' _ (by decide), ih]
theorem parseMembers_stringify {ν : Type} (N : NumberOps ν) :
    ∀ (ms : JObj ν), ms ≠ .nil → JObj.NumbersOk N ms →
      ∀ fv fe, ms.size ≤ fv → ms.size ≤ fe → ∀ rest,
      parseMembers (parseValue N fv) fe (stringifyMembers N ms ++ '}' :: rest) =
        some (ms, rest)
  | .nil, hne, _, _, _, _, _, _ => absurd rfl hne
  | .cons k v ms', _, hN, fv, fe, hv, he, rest => by
    have IHv := parseValue_stringify N v hN.1 fv
    have IH := parseMembers_stringify N ms'
    have hx := json_size_pos v
    obtain ⟨c, t, hc, hw, _, _⟩ := stringify_head N v hN.1
    cases ms' with
    | nil =>
      simp only [JObj.size] at hv he
      cases fe with
      | zero => omega
      | succ f =>
        have hp := IHv (by omega) ('}' :: rest) (Or.inr ⟨_, _, rfl, Or.inr (Or.inr rfl)⟩)
        have hk := parseStrBody_escapeStr k (':' :: (JSONstringify N v ++ '}' :: rest))
        have hs : stringifyMembers N (.cons k v .nil) ++ '}' :: rest =
            '"' :: (escapeStr k ++ '"' :: ':' :: (JSONstringify N v ++ '}' :: rest)) := by
          simp [stringifyMembers, quoteJSONString]
        rw [hs]
        simp only [parseMembers]
        rw [hc] at hp hk ⊢
        simp only [List.cons_append] at hp hk ⊢
        simp [skipWs_of_head '"' _ (by decide), hk, skipWs_of_head ':' _ (by decide),
          skipWs_of_head c _ hw, hp, skipWs_of_head '}' rest (by decide)]
    | cons k2 v2 ms =>
      have hy := json_size_pos v2
      simp only [JObj.size] at hv he
      cases fe with
      | zero => omega
      | succ f =>
        have hp := IHv (by omega)
          (',' :: (stringifyMembers N (.cons k2 v2 ms) ++ '}' :: rest))
          (Or.inr ⟨_, _, rfl, Or.inl rfl⟩)
        have ih := IH (by simp) hN.2 fv f
          (by simp only [JObj.size]; omega) (by simp only [JObj.size]; omega) rest
        have hk := parseStrBody_escapeStr k (':' :: (JSONstringify N v ++
          ',' :: (stringifyMembers N (.cons k2 v2 ms) ++ '}' :: rest)))
        have hs : stringifyMembers N (.cons k v (.cons k2 v2 ms)) ++ '}' :: rest =
            '"' :: (escapeStr k ++ '"' :: ':' :: (JSONstringify N v ++
              ',' :: (stringifyMembers N (.cons k2 v2 ms) ++ '}' :: rest))) := by
          simp [stringifyMembers, quoteJSONString]
        rw [hs]
        simp only [parseMembers]
        rw [hc] at hp hk ⊢
        simp only [List.cons_append] at hp hk ⊢
        simp [skipWs_of_head '"' _ (by decide), hk, skipWs_of_head ':' _ (by decide),
          skipWs_of_head c _ hw, hp, skipWs_of_head ',' _ (by decide), ih]
end

/-! ### The output of `JSON.stringify` is JSON text -/

theorem jstrBody_append {a b : Str} (ha : JStrBody a) (hb : JStrBody b) : JStrBody (a ++ b) := by
  induction ha with
  | nil => exact hb
  | plain c hq hbs hc _ ih => exact JStrBody.plain c hq hbs hc ih
  | esc c he _ ih => exact JStrBody.esc c he ih
  | uni a b c d ha hb hc hd _ ih => exact JStrBody.uni a b c d ha hb hc hd ih

theorem isHexDigit_hexDigit (n : Nat) (h : n < 16) : isHexDigit (hexDigit n) = true := by
  interval_cases n <;> decide

theorem jstrBody_escapeChar (c : Char) : JStrBody (escapeChar c) := by
  unfold escapeChar
  by_cases h1 : c = '"'
  · simp only [h1, if_true]
    exact JStrBody.esc _ (by decide) JStrBody.nil
  by_cases h2 : c = '\\'
  · simp only [h1, h2, if_true, if_false]
    exact JStrBody.esc _ (by decide) JStrBody.nil
  by_cases h3 : c = Char.ofNat 8
  · simp only [h1, h2, h3, if_true, if_false]
    exact JStrBody.esc _ (by decide) JStrBody.nil
  by_cases h4 : c = Char.ofNat 12
  · simp only [h1, h2, h3, h4, if_true, if_false]
    exact JStrBody.esc _ (by decide) JStrBody.nil
  by_cases h5 : c = Char.ofNat 10
  · simp only [h1, h2, h3, h4, h5, if_true, if_false]
    exact JStrBody.esc _ (by decide) JStrBody.nil
  by_cases h6 : c = Char.ofNat 13
  · simp only [h1, h2, h3, h4, h5, h6, if_true, if_false]
    exact JStrBody.esc _ (by decide) JStrBody.nil
  by_cases h7 : c = Char.ofNat 9
  · simp only [h1, h2, h3, h4, h5, h6, h7, if_true, if_false]
    exact JStrBody.esc _ (by decide) JStrBody.nil
  by_cases h8 : c.toNat < 32
  · simp only [h1, h2, h3, h4, h5, h6, h7, h8, if_true, if_false]
    exact JStrBody.uni _ _ _ _ (by decide) (by decide)
      (isHexDigit_hexDigit _ (by omega)) (isHexDigit_hexDigit _ (Nat.mod_lt _ (by decide)))
      JStrBody.nil
  · simp only [h1, h2, h3, h4, h5, h6, h7, h8, if_false]
    exact JStrBody.plain c h1 h2 (by omega) JStrBody.nil

theorem jstrBody_escapeStr (s : Str) : JStrBody (escapeStr s) := by
  induction s with
  | nil => exact JStrBody.nil
  | cons c t ih => exact jstrBody_append (jstrBody_escapeChar c) ih

mutual
/-- The output of `JSON.stringify` is a JSON value of the grammar. -/
theorem jsyn_stringify {ν : Type} (N : NumberOps ν) :
    ∀ (X : JSON ν), JSON.NumbersOk N X → JSyn .value (JSONstringify N X)
  | .null, _ => JSyn.litNull
  | .bool b, _ => by
    cases b
    · exact JSyn.litFalse
    · exact JSyn.litTrue
  | .num n, hN => JSyn.num hN.1
  | .str s, _ => JSyn.str (jstrBody_escapeStr s)
  | .arr xs, hN => by
    have IH := jsyn_stringifyElements N xs
    cases xs with
    | nil => exact JSyn.arrEmpty jws_nil
    | cons x xs' => exact JSyn.arr (IH (by simp) hN)
  | .obj ms, hN => by
    have IH := jsyn_stringifyMembers N ms
    cases ms with
    | nil => exact JSyn.objEmpty jws_nil
    | cons k v ms' => exact JSyn.obj (IH (by simp) hN)
theorem jsyn_stringifyElements {ν : Type} (N : NumberOps ν) :
    ∀ (xs : JArr ν), xs ≠ .nil → JArr.NumbersOk N xs →
      JSyn .elements (stringifyElements N xs)
  | .nil, hne, _ => absurd rfl hne
  | .cons x xs', _, hN => by
    have hx := jsyn_stringify N x hN.1
    have IH := jsyn_stringifyElements N xs'
    cases xs' with
    | nil =>
      have := @JSyn.elemOne [] _ [] jws_nil hx jws_nil
      simpa [stringifyElements] using this
    | cons y ys =>
      have := @JSyn.elemCons [] _ [] _ jws_nil hx jws_nil (IH (by simp) hN.2)
      simpa [stringifyElements] using this
theorem jsyn_stringifyMembers {ν : Type} (N : NumberOps ν) :
    ∀ (ms : JObj ν), ms ≠ .nil → JObj.NumbersOk N ms →
      JSyn .members (stringifyMembers N ms)
  | .nil, hne, _ => absurd rfl hne
  | .cons k v ms', _, hN => by
    have hv := jsyn_stringify N v hN.1
    have hk := jstrBody_escapeStr k
    have IH := jsyn_stringifyMembers N ms'
    cases ms' with
    | nil =>
      have := @JSyn.memOne [] _ [] [] _ [] jws_nil hk jws_nil jws_nil hv jws_nil
      simpa [stringifyMembers, quoteJSONString] using this
    | cons k2 v2 ms =>
      have := @JSyn.memCons [] _ [] [] _ [] _ jws_nil hk jws_nil jws_nil hv jws_nil
        (IH (by simp) hN.2)
      simpa [stringifyMembers, quoteJSONString] using this
end

mutual
/-- Every value writes at least one character: the size of a value is at most the length of
its serialisation. -/
theorem size_le_length_stringify {ν : Type} (N : NumberOps ν) :
    ∀ (X : JSON ν), JSON.NumbersOk N X → X.size ≤ (JSONstringify N X).length
  | .null, _ => by simp [JSON.size, JSONstringify]
  | .bool b, _ => by cases b <;> simp [JSON.size, JSONstringify]
  | .num n, hN => by
    obtain ⟨c, t, hc, _⟩ := jnumber_head hN.1
    simp [JSON.size, JSONstringify, hc]
  | .str s, _ => by simp [JSON.size, JSONstringify, quoteJSONString]
  | .arr xs, hN => by
    have := size_le_length_elements N xs hN
    simp only [JSON.size, JSONstringify, List.length_cons, List.length_append, List.length_nil]
    omega
  | .obj ms, hN => by
    have := size_le_length_members N ms hN
    simp only [JSON.size, JSONstringify, List.length_cons, List.length_append, List.length_nil]
    omega
theorem size_le_length_elements {ν : Type} (N : NumberOps ν) :
    ∀ (xs : JArr ν), JArr.NumbersOk N xs → xs.size ≤ (stringifyElements N xs).length
  | .nil, _ => by simp [JArr.size]
  | .cons x xs', hN => by
    have h1 := size_le_length_stringify N x hN.1
    have h2 := size_le_length_elements N xs' hN.2
    cases xs' with
    | nil =>
      simp only [JArr.size, stringifyElements, List.length_append, List.length_nil]
      omega
    | cons y ys =>
      simp only [JArr.size, List.length_append, List.length_cons] at h2 ⊢
      rw [stringifyElements]
      simp only [List.length_append, List.length_cons]
      omega
theorem size_le_length_members {ν : Type} (N : NumberOps ν) :
    ∀ (ms : JObj ν), JObj.NumbersOk N ms → ms.size ≤ (stringifyMembers N ms).length
  | .nil, _ => by simp [JObj.size]
  | .cons k v ms', hN => by
    have h1 := size_le_length_stringify N v hN.1
    have h2 := size_le_length_members N ms' hN.2
    cases ms' with
    | nil =>
      simp only [JObj.size, stringifyMembers, List.length_append, List.length_nil,
        List.length_cons]
      omega
    | cons k2 v2 ms =>
      simp only [JObj.size, List.length_append, List.length_cons] at h2 ⊢
      rw [stringifyMembers]
      simp only [List.length_append, List.length_cons]
      omega
end

/-- `JSON.parse` inverts `JSON.stringify`. -/
theorem JSONparse_stringify {ν : Type} (N : NumberOps ν) (X : JSON ν)
    (hN : JSON.NumbersOk N X) : JSONparse N (JSONstringify N X) = some X := by
  obtain ⟨c, t, hc, hw, _, _⟩ := stringify_head N X hN
  have hsz := size_le_length_stringify N X hN
  have hp := parseValue_stringify N X hN ((JSONstringify N X).length + 1) (by omega) []
    (Or.inl rfl)
  rw [List.append_nil] at hp
  unfold JSONparse
  have hs : skipWs (JSONstringify N X) = JSONstringify N X := by
    rw [hc]
    exact skipWs_of_head c t hw
  rw [hs, hp]
  simp [skipWs]

/-- The serialisation of an object or an array is a JSON object or array text. -/
theorem jcontainer_stringify {ν : Type} (N : NumberOps ν) (X : JSON ν) (hX : X.IsContainer)
    (hN : JSON.NumbersOk N X) : JContainer (JSONstringify N X) := by
  refine ⟨jsyn_stringify N X hN, ?_⟩
  cases X with
  | arr xs => exact Or.inr rfl
  | obj ms => exact Or.inl rfl
  | null => exact absurd hX (by simp [JSON.IsContainer])
  | bool b => exact absurd hX (by simp [JSON.IsContainer])
  | num n => exact absurd hX (by simp [JSON.IsContainer])
  | str s => exact absurd hX (by simp [JSON.IsContainer])

/-- C2, as stated, fails: the number 5 and the string `a` are JSON values that `JSON.parse`
reads back from their serialisations `5` and `"a"`, and `cutAfterJS` throws the
unsupported-input error on both serialisations. -/
theorem roundtrip_primitive_counterexample :
    JSONparse intNumberOps (JSONstringify intNumberOps (.num 5)) = some (.num 5) ∧
    cutAfterJS (JSONstringify intNumberOps (.num 5)) = .error .unsupported ∧
    JSONparse intNumberOps (JSONstringify intNumberOps (.str ['a'])) = some (.str ['a']) ∧
    cutAfterJS (JSONstringify intNumberOps (.str ['a'])) = .error .unsupported :=
  ⟨by decide, rfl, by decide, rfl⟩

theorem stringify_primitive_head {ν : Type} (N : NumberOps ν) (X : JSON ν)
    (hN : JSON.NumbersOk N X) (hX : ¬ X.IsContainer) :
    (JSONstringify N X).head? ≠ some '{' ∧ (JSONstringify N X).head? ≠ some '[' := by
  cases X with
  | null => exact ⟨by simp [JSONstringify], by simp [JSONstringify]⟩
  | bool b =>
    cases b
    · exact ⟨by simp [JSONstringify], by simp [JSONstringify]⟩
    · exact ⟨by simp [JSONstringify], by simp [JSONstringify]⟩
  | num n =>
    simp only [JSON.NumbersOk, NumberOps.Faithful] at hN
    obtain ⟨c, t, hc, hd⟩ := jnumber_head hN.1
    obtain ⟨_, h2, _, h4, _⟩ := jnumber_head_facts hd
    simp only [JSONstringify, hc, List.head?_cons, ne_eq, Option.some.injEq]
    exact ⟨h2, h4⟩
  | str s =>
    exact ⟨by simp [JSONstringify, quoteJSONString], by simp [JSONstringify, quoteJSONString]⟩
  | arr xs => exact absurd trivial hX
  | obj ms => exact absurd trivial hX

/-- C2, amended: for every JSON value `X` that is an object or an array, `cutAfterJS` returns
the serialisation of `X` itself and `JSON.parse` reads `X` back from it, whatever the strings
of `X` contain; for every value `X` that is no object and no array (a number, a string, `true`,
`false`, `null`), `cutAfterJS` throws the unsupported-input error on the serialisation of `X`.
The numbers of `X` are those on which the platform's number conversions agree. -/
theorem roundtrip_container {ν : Type} (N : NumberOps ν) (X : JSON ν)
    (hN : JSON.NumbersOk N X) :
    (X.IsContainer →
      cutAfterJS (JSONstringify N X) = .ok (JSONstringify N X) ∧
      JSONparse N (JSONstringify N X) = some X) ∧
    (¬ X.IsContainer → cutAfterJS (JSONstringify N X) = .error .unsupported) := by
  refine ⟨fun hX => ⟨?_, JSONparse_stringify N X hN⟩, fun hX => ?_⟩
  · have h := cutAfterJS_container (jcontainer_stringify N X hX hN) []
    rwa [List.append_nil] at h
  · obtain ⟨h1, h2⟩ := stringify_primitive_head N X hN hX
    simp [cutAfterJS, bracketPair_none h1 h2]

/-- The numbers 1 and 2 are written and read back by the integer conversions. -/
theorem intNumberOps_faithful_one_two :
    intNumberOps.Faithful 1 ∧ intNumberOps.Faithful 2 := by
  refine ⟨⟨?_, by decide⟩, ⟨?_, by decide⟩⟩
  · exact ⟨[], ['1'], [], [], rfl, Or.inl rfl, Or.inr ⟨⟨by decide, by decide⟩, by decide⟩,
      Or.inl rfl, Or.inl rfl⟩
  · exact ⟨[], ['2'], [], [], rfl, Or.inl rfl, Or.inr ⟨⟨by decide, by decide⟩, by decide⟩,
      Or.inl rfl, Or.inl rfl⟩

/-- The instance of amended C2 at the object with the property `} "` of value `[{` and the
property `b` of value `[1,2]`, and at the string `]`. -/
theorem roundtrip_container_witness :
    JSONstringify intNumberOps
      (.obj (.cons ['}', ' ', '"'] (.str ['[', '{'])
        (.cons ['b'] (.arr (.cons (.num 1) (.cons (.num 2) .nil))) .nil))) =
      "\x7b\"\x7d \\\"\":\"[\x7b\",\"b\":[1,2]\x7d".toList ∧
    (cutAfterJS "\x7b\"\x7d \\\"\":\"[\x7b\",\"b\":[1,2]\x7d".toList =
        .ok "\x7b\"\x7d \\\"\":\"[\x7b\",\"b\":[1,2]\x7d".toList ∧
      JSONparse intNumberOps "\x7b\"\x7d \\\"\":\"[\x7b\",\"b\":[1,2]\x7d".toList =
        some (.obj (.cons ['}', ' ', '"'] (.str ['[', '{'])
          (.cons ['b'] (.arr (.cons (.num 1) (.cons (.num 2) .nil))) .nil)))) ∧
    JSONstringify intNumberOps (.str [']']) = "\"]\"".toList ∧
    cutAfterJS "\"]\"".toList = .error .unsupported :=
  ⟨by decide,
    (roundtrip_container intNumberOps
      (.obj (.cons ['}', ' ', '"'] (.str ['[', '{'])
        (.cons ['b'] (.arr (.cons (.num 1) (.cons (.num 2) .nil))) .nil)))
      ⟨trivial, ⟨intNumberOps_faithful_one_two.1, intNumberOps_faithful_one_two.2, trivial⟩,
        trivial⟩).1 trivial,
    by decide,
    (roundtrip_container intNumberOps (.str [']']) trivial).2 (fun h => h)⟩

/-! ### `getRandomIPv6`: the prefix of an address of 16-bit groups -/

theorem and_group_mask (b k : Nat) (hb : b < 65536) :
    b &&& (65535 * 2 ^ k) = b / 2 ^ k * 2 ^ k := by
  apply Nat.eq_of_testBit_eq
  intro i
  have e1 : 65535 * 2 ^ k = (2 ^ 16 - 1) <<< k := by
    rw [Nat.shiftLeft_eq]
    norm_num
  have e2 : b / 2 ^ k * 2 ^ k = (b >>> k) <<< k := by
    rw [Nat.shiftLeft_eq, Nat.shiftRight_eq_div_pow]
  rw [Nat.testBit_and, e1, e2, Nat.testBit_shiftLeft, Nat.testBit_shiftLeft,
    Nat.testBit_two_pow_sub_one, Nat.testBit_shiftRight]
  by_cases hik : i ≥ k
  · have e3 : k + (i - k) = i := by omega
    simp only [hik, decide_True, Bool.true_and, e3]
    by_cases h16 : i - k < 16
    · simp [h16]
    · have hi : 16 ≤ i := by omega
      have : b.testBit i = false :=
        Nat.testBit_lt_two_pow (Nat.lt_of_lt_of_le hb (by
          have := Nat.pow_le_pow_right (by decide : 1 ≤ 2) hi
          simpa using this))
      simp [this]
  · simp [hik]

theorem two_pow_le_of_le_15 (k : Nat) (hk : k ≤ 15) : 2 ^ k ≤ 32768 := by
  have := Nat.pow_le_pow_right (by decide : 1 ≤ 2) hk
  simpa using this

theorem jsShl_group_mask (k : Nat) (hk : k ≤ 15) :
    jsShl (some 65535) k = ((65535 * 2 ^ k : Nat) : Int) := by
  have h2 := two_pow_le_of_le_15 k hk
  have hk32 : k % 32 = k := by omega
  have e1 : toUint32 (some 65535) = 65535 := by decide
  have h3 : 65535 * 2 ^ k < 2147483648 := by nlinarith
  rw [jsShl, e1, hk32, Nat.mod_eq_of_lt (by omega), asInt32]
  simp only [show ¬ (2147483648 ≤ 65535 * 2 ^ k) by omega, if_false]

theorem jsShl_one (k : Nat) (hk : k ≤ 15) : jsShl (some 1) k = ((2 ^ k : Nat) : Int) := by
  have h2 := two_pow_le_of_le_15 k hk
  have hk32 : k % 32 = k := by omega
  have e1 : toUint32 (some 1) = 1 := by decide
  rw [jsShl, e1, hk32, Nat.one_mul, Nat.mod_eq_of_lt (by omega), asInt32]
  simp only [show ¬ (2147483648 ≤ 2 ^ k) by omega, if_false]

theorem toUint32_natCast (n : Nat) (h : n < 4294967296) : toUint32 (some (n : Int)) = n := by
  simp only [toUint32]
  omega

/-- The masking of the boundary group: for a 16-bit group `b`, `k` low bits to randomise and a
random part `r` below `2 ^ k`, `(b & (0xffff << k)) | r` keeps the bits of `b` above the low
`k` and has `r` in the low `k` bits. -/
theorem boundary_group (b k r : Nat) (hk : k ≤ 15) (hb : b < 65536) (hr : r < 2 ^ k) :
    jsOr (some (jsAnd (some (b : Int)) (some (jsShl (some 65535) k)))) (some (r : Int)) =
      ((b / 2 ^ k * 2 ^ k + r : Nat) : Int) := by
  have h2 := two_pow_le_of_le_15 k hk
  have h3 : 65535 * 2 ^ k < 2147483648 := by nlinarith
  have hdiv : b / 2 ^ k * 2 ^ k ≤ b := Nat.div_mul_le_self b (2 ^ k)
  have e1 : jsAnd (some (b : Int)) (some (jsShl (some 65535) k)) =
      ((b / 2 ^ k * 2 ^ k : Nat) : Int) := by
    rw [jsShl_group_mask k hk, jsAnd, toUint32_natCast b (by omega),
      toUint32_natCast _ (by omega), and_group_mask b k hb, asInt32]
    simp only [show ¬ (2147483648 ≤ b / 2 ^ k * 2 ^ k) by omega, if_false]
  have e2 : b / 2 ^ k * 2 ^ k ||| r = b / 2 ^ k * 2 ^ k + r := by
    have := @Nat.mul_add_lt_is_or k r hr (b / 2 ^ k)
    rw [Nat.mul_comm] at this
    exact this.symm
  rw [e1, jsOr, toUint32_natCast _ (by omega), toUint32_natCast r (by omega), e2, asInt32]
  simp only [show ¬ (2147483648 ≤ b / 2 ^ k * 2 ^ k + r) by omega, if_false]

/-- The groups below the prefix boundary are copied from the base address. -/
theorem fillGroups_copy (rnd : Nat → RandomOutcome) (base : List JSNum) (fmg rb : Nat) :
    ∀ (n i calls j : Nat), j < n → i + j < fmg →
      (fillGroups rnd base fmg rb n i calls)[j]? = some ((base[i + j]?).join) := by
  intro n
  induction n with
  | zero =>
    intro i calls j hj _
    omega
  | succ n ih =>
    intro i calls j hj hlt
    have hi : i < fmg := by omega
    rw [fillGroups]
    simp only [hi, if_true]
    cases j with
    | zero => simp
    | succ j =>
      have := ih (i + 1) calls j (by omega) (by omega)
      simpa [Nat.add_assoc, Nat.add_comm 1 j] using this

/-- The group at the prefix boundary, when some bits remain: the masked base group, or-ed with
the outcome of the first call of the random source. -/
theorem fillGroups_boundary (rnd : Nat → RandomOutcome) (base : List JSNum) (fmg rb : Nat)
    (hrb : 0 < rb) :
    ∀ (n i calls : Nat), i ≤ fmg → fmg - i < n →
      (fillGroups rnd base fmg rb n i calls)[fmg - i]? =
        some (some (jsOr (some (jsAnd ((base[fmg]?).join) (some (jsShl (some 65535) (16 - rb)))))
          (some ((rnd calls).floorMul (jsShl (some 1) (16 - rb)))))) := by
  intro n
  induction n with
  | zero =>
    intro i calls _ h
    omega
  | succ n ih =>
    intro i calls hi hn
    rw [fillGroups]
    by_cases hlt : i < fmg
    · simp only [hlt, if_true]
      have e : fmg - i = (fmg - (i + 1)) + 1 := by omega
      rw [e, List.getElem?_cons_succ]
      exact ih (i + 1) calls (by omega) (by omega)
    · have heq : i = fmg := by omega
      subst heq
      simp [hrb]

/-- Prefix preservation on the groups: with `fmg` full groups and `rb` remaining bits, the
groups of the result below `fmg` are those of the base address; and when `rb > 0` and the base
group at `fmg` is a 16-bit value `b`, the group of the result at `fmg` has the bits of `b` above
the low `16 - rb` and the outcome `r` of the first random call in the low `16 - rb` bits. -/
theorem fillGroups_prefix_preserved (rnd : Nat → RandomOutcome) (base : List JSNum)
    (fmg rb : Nat) (hrb : rb < 16) :
    (∀ i, i < fmg → i < 8 →
      (fillGroups rnd base fmg rb 8 0 0)[i]? = some ((base[i]?).join)) ∧
    (0 < rb → fmg < 8 → ∀ b : Nat, base[fmg]? = some (some (b : Int)) → b < 65536 →
      ∃ r : Nat, r < 2 ^ (16 - rb) ∧
        (r : Int) = (rnd 0).floorMul ((2 ^ (16 - rb) : Nat) : Int) ∧
        (fillGroups rnd base fmg rb 8 0 0)[fmg]? =
          some (some ((b / 2 ^ (16 - rb) * 2 ^ (16 - rb) + r : Nat) : Int))) := by
  constructor
  · intro i hi h8
    have := fillGroups_copy rnd base fmg rb 8 0 0 i h8 (by omega)
    simpa using this
  · intro hrb0 hf b hb hb16
    have hk : 16 - rb ≤ 15 := by omega
    have hpos : 0 < 2 ^ (16 - rb) := Nat.two_pow_pos _
    have r0 := floorMul_nonneg (rnd 0) (2 ^ (16 - rb))
    have r1 := floorMul_lt (rnd 0) (2 ^ (16 - rb)) hpos
    obtain ⟨r, hr⟩ := Int.eq_ofNat_of_zero_le r0
    refine ⟨r, ?_, hr.symm, ?_⟩
    · rw [hr] at r1
      exact_mod_cast r1
    · have h := fillGroups_boundary rnd base fmg rb hrb0 8 0 0 (Nat.zero_le _) (by omega)
      rw [Nat.sub_zero, hb, jsShl_one _ hk, hr] at h
      have e : (some (some (b : Int)) : Option JSNum).join = some (b : Int) := rfl
      rw [h, e, boundary_group b (16 - rb) r hk hb16 (by rw [hr] at r1; exact_mod_cast r1)]

/-! ### `cutAfterJS`: the result and what follows it -/

theorem substring_window_split (pre rest : Str) :
    substring (pre ++ rest) ((pre.length : Int) - 10) pre.length =
      pre.drop (pre.length - 10) := by
  have h1 : ((pre.length : Int) - 10).toNat = pre.length - 10 := by omega
  have h2 : ((pre.length : Int)).toNat = pre.length := by omega
  simp only [substring, h1, h2, List.length_append]
  have e1 : min (pre.length - 10) (pre.length + rest.length) = pre.length - 10 := by omega
  have e2 : min pre.length (pre.length + rest.length) = pre.length := by omega
  rw [e1, e2]
  have e3 : max (pre.length - 10) pre.length = pre.length := by omega
  have e4 : min (pre.length - 10) pre.length = pre.length - 10 := by omega
  rw [e3, e4, List.take_left']
  rfl

theorem findEscape_split (pre : Str) (c : Char) (rest rest' : Str) (ci : Option Char) :
    ∀ l : List EscSeq, findEscape (pre ++ c :: rest) pre.length ci l =
      findEscape (pre ++ c :: rest') pre.length ci l := by
  intro l
  induction l with
  | nil => rfl
  | cons e more ih =>
    simp only [findEscape, substring_window_split, ih]

/-- A pass of the loop looks at the input up to its own index only. -/
theorem iter_split (op cl : Char) (pre : Str) (c : Char) (rest rest' : Str) (st : ScanState) :
    iter (pre ++ c :: rest) op cl pre.length st =
      iter (pre ++ c :: rest') op cl pre.length st := by
  unfold iter
  rw [getElem?_split, getElem?_split]
  dsimp only
  rw [findEscape_split pre c rest rest']
  simp only [countStep, substring_zero_split]

theorem countStep_ret (s : Str) (op cl : Char) (i : Nat) (ci : Option Char) (st : ScanState)
    (r : Str) (h : countStep s op cl i ci st = .ret r) : r = substring s 0 ((i : Int) + 1) := by
  unfold countStep at h
  by_cases h1 : st.isEscapedObject.isSome = true
  · simp [h1] at h
  · simp only [h1] at h
    by_cases h2 : (if ci = some op then st.counter + 1
        else if ci = some cl then st.counter - 1 else st.counter) = 0
    · simp only [h2, if_true, Bool.false_eq_true, if_false] at h
      injection h with h
      exact h.symm
    · simp [h2] at h

/-- A pass that returns gives back the input up to and including its own character. -/
theorem iter_ret (op cl : Char) (pre : Str) (c : Char) (rest : Str) (st : ScanState) (r : Str)
    (h : iter (pre ++ c :: rest) op cl pre.length st = .ret r) : r = pre ++ [c] := by
  unfold iter at h
  dsimp only at h
  rw [← substring_zero_split pre c rest]
  split at h
  · exact IterResult.noConfusion h
  · split at h
    · split at h
      · exact IterResult.noConfusion h
      · exact countStep_ret _ _ _ _ _ _ _ h
    · exact countStep_ret _ _ _ _ _ _ _ h

/-- A successful scan returns the consumed input and a non-empty part of the rest, and it gives
the same result whatever follows that part. -/
theorem scanFrom_ok_split (op cl : Char) :
    ∀ (rest pre : Str) (st : ScanState) (r : Str), scanFrom op cl pre rest st = .ok r →
      ∃ a b, rest = a ++ b ∧ a ≠ [] ∧ r = pre ++ a ∧
        ∀ rest', scanFrom op cl pre (a ++ rest') st = .ok r := by
  intro rest
  induction rest with
  | nil =>
    intro pre st r h
    rw [scanFrom_nil] at h
    exact Except.noConfusion h
  | cons c t ih =>
    intro pre st r h
    rw [scanFrom_cons] at h
    cases hit : iter (pre ++ c :: t) op cl pre.length st with
    | ret r' =>
      rw [hit] at h
      have hr : r' = r := by
        injection h
      subst hr
      have hr' := iter_ret op cl pre c t st r' hit
      refine ⟨[c], t, rfl, by simp, hr', ?_⟩
      intro rest'
      rw [List.singleton_append, scanFrom_cons, iter_split op cl pre c rest' t, hit]
    | next st' =>
      rw [hit] at h
      obtain ⟨a, b, hab, _, hr, hext⟩ := ih (pre ++ [c]) st' r h
      refine ⟨c :: a, b, by simp [hab], by simp, by simp [hr], ?_⟩
      intro rest'
      rw [List.cons_append, scanFrom_cons, iter_split op cl pre c (a ++ rest') t, hit]
      exact hext rest'

theorem bracketPair_append {x : Str} {op cl : Char} (h : bracketPair x = some (op, cl))
    {a : Str} (ha : a ≠ []) (b b' : Str) (hx : x = a ++ b) :
    bracketPair (a ++ b') = some (op, cl) := by
  cases a with
  | nil => exact absurd rfl ha
  | cons c t =>
    subst hx
    simpa [bracketPair] using h

/-- A result of `cutAfterJS` is a non-empty start of the input, and the scan of that start
followed by any text gives the same result. -/
theorem cutAfterJS_ok_extend {x r : Str} (h : cutAfterJS x = .ok r) :
    (∃ b, x = r ++ b) ∧ r ≠ [] ∧ ∀ s, cutAfterJS (r ++ s) = .ok r := by
  cases hb : bracketPair x with
  | none => simp [cutAfterJS, hb] at h
  | some oc =>
    obtain ⟨op, cl⟩ := oc
    rw [cutAfterJS_eq_scanFrom x op cl hb] at h
    obtain ⟨a, b, hab, hne, hr, hext⟩ := scanFrom_ok_split op cl x [] _ r h
    simp only [List.nil_append] at hr
    subst hr
    refine ⟨⟨b, hab⟩, hne, ?_⟩
    intro s
    rw [cutAfterJS_eq_scanFrom _ op cl (bracketPair_append hb hne b s hab)]
    exact hext s

/-- C19: the scan result does not depend on what follows it.  When `cutAfterJS x` returns `r`,
`cutAfterJS (r ++ s)` returns `r` for every text `s`; and `cutAfterJS` is idempotent: applying it
to its own result changes nothing (an error of the first call is the error of the whole). -/
theorem cutAfterJS_suffix_independent :
    (∀ x r : Str, cutAfterJS x = .ok r → ∀ s, cutAfterJS (r ++ s) = .ok r) ∧
    (∀ x : Str, (cutAfterJS x >>= cutAfterJS) = cutAfterJS x) := by
  constructor
  · intro x r h s
    exact (cutAfterJS_ok_extend h).2.2 s
  · intro x
    cases h : cutAfterJS x with
    | error e => rfl
    | ok r =>
      have := (cutAfterJS_ok_extend h).2.2 []
      rw [List.append_nil] at this
      exact this

/-- The instance of C19 at `[1,[2]] tail`: the result `[1,[2]]` is also the result on
`[1,[2]]` followed by `]]`, and on `[1,[2]]` itself. -/
theorem cutAfterJS_suffix_independent_witness :
    cutAfterJS "[1,[2]] tail".toList = .ok "[1,[2]]".toList ∧
    cutAfterJS ("[1,[2]]".toList ++ "]]".toList) = .ok "[1,[2]]".toList ∧
    (cutAfterJS "[1,[2]] tail".toList >>= cutAfterJS) = cutAfterJS "[1,[2]] tail".toList :=
  ⟨rfl, cutAfterJS_suffix_independent.1 "[1,[2]] tail".toList _ rfl _,
    cutAfterJS_suffix_independent.2 _⟩

/-! ### `cutAfterJS`: the shape of the result -/

theorem tallyPass_split (op cl : Char) (pre : Str) (c : Char) (rest rest' : Str) (t : Tally) :
    tallyPass (pre ++ c :: rest) op cl pre.length t =
      tallyPass (pre ++ c :: rest') op cl pre.length t := by
  unfold tallyPass
  rw [getElem?_split, getElem?_split]
  dsimp only
  rw [findEscape_split pre c rest rest']

/-- The tally of the first passes depends on the characters passed only. -/
theorem tallyAfter_append (op cl : Char) (p q : Str) :
    ∀ k, k ≤ p.length → tallyAfter (p ++ q) op cl k = tallyAfter p op cl k := by
  intro k
  induction k with
  | zero => intro _; rfl
  | succ k ih =>
    intro hk
    have hk' : k < p.length := hk
    rw [tallyAfter, tallyAfter, ih (by omega)]
    have hsplit : p = p.take k ++ p[k] :: p.drop (k + 1) := by
      rw [← List.drop_eq_getElem_cons hk', List.take_append_drop]
    have hlen : (p.take k).length = k := by
      rw [List.length_take]
      omega
    have e1 : p ++ q = p.take k ++ p[k] :: (p.drop (k + 1) ++ q) := by
      have h2 : (p.take k ++ p[k] :: p.drop (k + 1)) ++ q =
          p.take k ++ p[k] :: (p.drop (k + 1) ++ q) := by
        rw [List.append_assoc, List.cons_append]
      rw [← hsplit] at h2
      exact h2
    have h1 := tallyPass_split op cl (p.take k) p[k] (p.drop (k + 1) ++ q) (p.drop (k + 1))
      (tallyAfter p op cl k)
    rw [hlen, ← e1, ← hsplit] at h1
    exact h1

theorem bracketTally_snoc (op cl : Char) (pre : Str) (c : Char) :
    bracketTally op cl (pre ++ [c]) =
      tallyPass (pre ++ [c]) op cl pre.length (bracketTally op cl pre) := by
  unfold bracketTally
  rw [List.length_append, List.length_singleton, tallyAfter,
    tallyAfter_append op cl pre [c] pre.length (Nat.le_refl _)]

/-- The counting part of a pass and the tally agree; a return happens on the closing bracket
only, and then the tally is even. -/
theorem countStep_tally (s : Str) (op cl : Char) (i : Nat) (c : Char) (st : ScanState)
    (t : Tally) (hm : TallyMatches st t) (hk : 1 ≤ st.counter) :
    (∀ st', countStep s op cl i (some c) st = .next st' →
      TallyMatches st' (tallyCount op cl (some c) t) ∧ 1 ≤ st'.counter) ∧
    (∀ r, countStep s op cl i (some c) st = .ret r →
      c = cl ∧ (tallyCount op cl (some c) t).opens = (tallyCount op cl (some c) t).closes) := by
  obtain ⟨h1, h2, h3⟩ := hm
  unfold countStep tallyCount
  rw [← h1, ← h2]
  by_cases he : st.isEscapedObject.isSome = true
  · simp only [he, if_true]
    constructor
    · intro st' h
      injection h with h
      subst h
      exact ⟨⟨rfl, rfl, h3⟩, hk⟩
    · intro r h
      exact IterResult.noConfusion h
  · simp only [he, Bool.false_eq_true, if_false, Option.some.injEq]
    by_cases hop : c = op
    · have hz : st.counter + 1 ≠ 0 := by omega
      simp only [hop, if_true, hz, if_false]
      constructor
      · intro st' h
        injection h with h
        subst h
        refine ⟨⟨rfl, rfl, ?_⟩, by show 1 ≤ st.counter + 1; omega⟩
        show st.counter + 1 = ((t.opens + 1 : Nat) : Int) - (t.closes : Int)
        omega
      · intro r h
        exact IterResult.noConfusion h
    · by_cases hcl : c = cl
      · simp only [hop, hcl, if_false, if_true]
        have hop' : ¬ cl = op := fun h => hop (hcl.trans h)
        simp only [hop', if_false]
        by_cases hz : st.counter - 1 = 0
        · simp only [hz, if_true]
          constructor
          · intro st' h
            exact IterResult.noConfusion h
          · intro r _
            refine ⟨trivial, ?_⟩
            show t.opens = t.closes + 1
            omega
        · simp only [hz, if_false]
          constructor
          · intro st' h
            injection h with h
            subst h
            refine ⟨⟨rfl, rfl, ?_⟩, by show 1 ≤ st.counter - 1; omega⟩
            show st.counter - 1 = (t.opens : Int) - ((t.closes + 1 : Nat) : Int)
            omega
          · intro r h
            exact IterResult.noConfusion h
      · have hz : st.counter ≠ 0 := by omega
        simp only [hop, hcl, if_false, hz]
        constructor
        · intro st' h
          injection h with h
          subst h
          exact ⟨⟨rfl, rfl, h3⟩, hk⟩
        · intro r h
          exact IterResult.noConfusion h

/-- A pass of the loop and the tally agree; a pass returns on the closing bracket only, and
then the tally is even. -/
theorem iter_tally (op cl : Char) (pre : Str) (c : Char) (rest : Str) (st : ScanState)
    (t : Tally) (hm : TallyMatches st t) (hk : 1 ≤ st.counter) :
    (∀ st', iter (pre ++ c :: rest) op cl pre.length st = .next st' →
      TallyMatches st' (tallyPass (pre ++ c :: rest) op cl pre.length t) ∧ 1 ≤ st'.counter) ∧
    (∀ r, iter (pre ++ c :: rest) op cl pre.length st = .ret r →
      c = cl ∧ (tallyPass (pre ++ c :: rest) op cl pre.length t).opens =
        (tallyPass (pre ++ c :: rest) op cl pre.length t).closes) := by
  have hc := countStep_tally (pre ++ c :: rest) op cl pre.length c st t hm hk
  obtain ⟨h1, h2, h3⟩ := hm
  unfold iter tallyPass
  rw [getElem?_split]
  dsimp only
  rw [← h1, ← h2]
  by_cases c1 : (!st.isEscaped && st.isEscapedObject.isSome &&
      decide (some c = st.isEscapedObject.map EscSeq.stop)) = true
  · simp only [c1, if_true]
    constructor
    · intro st' h
      injection h with h
      subst h
      exact ⟨⟨rfl, rfl, h3⟩, hk⟩
    · intro r h
      exact IterResult.noConfusion h
  · simp only [c1, Bool.false_eq_true, if_false]
    by_cases c2 : (!st.isEscaped && st.isEscapedObject.isNone) = true
    · simp only [c2, if_true]
      cases hf : findEscape (pre ++ c :: rest) pre.length (some c) ESCAPING_SEQUENZES with
      | some e =>
        dsimp only
        constructor
        · intro st' h
          injection h with h
          subst h
          exact ⟨⟨rfl, rfl, h3⟩, hk⟩
        · intro r h
          exact IterResult.noConfusion h
      | none => exact hc
    · simp only [c2, Bool.false_eq_true, if_false]
      exact hc

/-- The scan from a state with a positive counter that agrees with the tally of the consumed
input: the result ends with the closing bracket, its tally is even, and before its end the
closing brackets stay behind the opening brackets. -/
theorem scanFrom_tally (op cl : Char) :
    ∀ (rest pre : Str) (st : ScanState) (r : Str), scanFrom op cl pre rest st = .ok r →
      TallyMatches st (bracketTally op cl pre) → 1 ≤ st.counter →
      ∃ a, a ≠ [] ∧ r = pre ++ a ∧ r.getLast? = some cl ∧
        (bracketTally op cl r).opens = (bracketTally op cl r).closes ∧
        ∀ a', a' <+: a → a' ≠ a →
          (bracketTally op cl (pre ++ a')).closes < (bracketTally op cl (pre ++ a')).opens := by
  intro rest
  induction rest with
  | nil =>
    intro pre st r h
    rw [scanFrom_nil] at h
    exact Except.noConfusion h
  | cons c t ih =>
    intro pre st r h hm hk
    have hsim := iter_tally op cl pre c t st (bracketTally op cl pre) hm hk
    rw [tallyPass_split op cl pre c t [], ← bracketTally_snoc] at hsim
    have hpre : (bracketTally op cl pre).closes < (bracketTally op cl pre).opens := by
      have := hm.2.2
      omega
    rw [scanFrom_cons] at h
    cases hit : iter (pre ++ c :: t) op cl pre.length st with
    | ret r' =>
      rw [hit] at h
      have hr : r' = r := by
        injection h
      subst hr
      have hr' := iter_ret op cl pre c t st r' hit
      obtain ⟨hc, heven⟩ := hsim.2 r' hit
      subst hr'
      refine ⟨[c], by simp, rfl, by simp [hc], heven, ?_⟩
      intro a' ha' hne
      have : a' = [] := by
        cases a' with
        | nil => rfl
        | cons d u =>
          obtain ⟨v, hv⟩ := ha'
          simp only [List.cons_append, List.cons.injEq] at hv
          have hu : u = [] := by
            cases u with
            | nil => rfl
            | cons e w => simp at hv
          subst hu
          exact absurd (by rw [hv.1]) hne
      subst this
      simpa using hpre
    | next st' =>
      rw [hit] at h
      obtain ⟨hm', hk'⟩ := hsim.1 st' hit
      obtain ⟨a, hne, hr, hlast, heven, hpref⟩ := ih (pre ++ [c]) st' r h hm' hk'
      refine ⟨c :: a, by simp, by simp [hr], hlast, heven, ?_⟩
      intro a' ha' hne'
      cases a' with
      | nil => simpa using hpre
      | cons d u =>
        obtain ⟨v, hv⟩ := ha'
        simp only [List.cons_append, List.cons.injEq] at hv
        obtain ⟨hd, hu⟩ := hv
        subst hd
        have hu' : u <+: a := ⟨v, hu⟩
        have hne'' : u ≠ a := fun h => hne' (by rw [h])
        have := hpref u hu' hne''
        simpa using this

theorem bracketPair_jsonPair {x : Str} {op cl : Char} (h : bracketPair x = some (op, cl)) :
    JsonPair op cl ∧ ∃ t, x = op :: t := by
  cases x with
  | nil => simp [bracketPair] at h
  | cons c t =>
    simp only [bracketPair, List.getElem?_cons_zero, Option.some.injEq] at h
    by_cases h1 : c = '['
    · simp only [h1, if_true, Option.some.injEq, Prod.mk.injEq] at h
      obtain ⟨rfl, rfl⟩ := h
      exact ⟨Or.inr ⟨rfl, rfl⟩, t, by rw [h1]⟩
    · by_cases h2 : c = '{'
      · simp only [h1, h2, if_true, if_false, Option.some.injEq, Prod.mk.injEq] at h
        obtain ⟨rfl, rfl⟩ := h
        exact ⟨Or.inl ⟨rfl, rfl⟩, t, by rw [h2]⟩
      · simp [h1, h2] at h

theorem tallyMatches_first {op cl : Char} (hp : JsonPair op cl) :
    TallyMatches ⟨none, false, 0 + 1⟩ (bracketTally op cl ([] ++ [op])) := by
  rcases hp with ⟨rfl, rfl⟩ | ⟨rfl, rfl⟩ <;> exact ⟨rfl, rfl, rfl⟩

/-- A pass over a character that is neither counted bracket leaves the tally of brackets as
it is. -/
theorem tallyPass_other (s : Str) (op cl : Char) (i : Nat) (t : Tally)
    (h1 : s[i]? ≠ some op) (h2 : s[i]? ≠ some cl) :
    (tallyPass s op cl i t).opens = t.opens ∧ (tallyPass s op cl i t).closes = t.closes := by
  have hc : (tallyCount op cl s[i]? t).opens = t.opens ∧
      (tallyCount op cl s[i]? t).closes = t.closes := by
    unfold tallyCount
    simp only [h1, h2, if_false]
    split <;> exact ⟨rfl, rfl⟩
  unfold tallyPass
  dsimp only
  split
  · exact ⟨rfl, rfl⟩
  · split
    · split
      · exact ⟨rfl, rfl⟩
      · exact hc
    · exact hc

/-- C17: the shape of every scan result.  When `cutAfterJS x` returns `r`, `r` is a non-empty
start of `x`, its first character is the leading bracket of `x` and its last character the
matching closing bracket; among the brackets of that kind outside literals, `r` has as many
closing as opening ones, and every shorter non-empty start of `r` has fewer closing than
opening ones; a character that is no bracket of that kind (a bracket of the other kind
included) changes no count. -/
theorem cutAfterJS_result_shape (x r : Str) (h : cutAfterJS x = .ok r) :
    ∃ op cl, bracketPair x = some (op, cl) ∧ JsonPair op cl ∧
      r <+: x ∧ r ≠ [] ∧ r.head? = some op ∧ r.getLast? = some cl ∧
      (bracketTally op cl r).opens = (bracketTally op cl r).closes ∧
      (∀ p, p <+: r → p ≠ [] → p ≠ r →
        (bracketTally op cl p).closes < (bracketTally op cl p).opens) ∧
      (∀ (s : Str) (i : Nat) (t : Tally), s[i]? ≠ some op → s[i]? ≠ some cl →
        (tallyPass s op cl i t).opens = t.opens ∧ (tallyPass s op cl i t).closes = t.closes) := by
  obtain ⟨⟨b, hb⟩, hne, _⟩ := cutAfterJS_ok_extend h
  cases hbp : bracketPair x with
  | none => simp [cutAfterJS, hbp] at h
  | some oc =>
    obtain ⟨op, cl⟩ := oc
    obtain ⟨hp, t, hx⟩ := bracketPair_jsonPair hbp
    refine ⟨op, cl, rfl, hp, ⟨b, hb.symm⟩, hne, ?_⟩
    rw [cutAfterJS_eq_scanFrom x op cl hbp, hx, scanFrom_cons] at h
    have h1 : (0 : Int) + 1 ≠ 0 := by omega
    rw [iter_open op cl [] t 0 h1 (jsonPair_counted hp).op_lit (jsonPair_counted hp).op_bs] at h
    obtain ⟨a, _, hr, hlast, heven, hpref⟩ :=
      scanFrom_tally op cl t ([] ++ [op]) _ r h (tallyMatches_first hp)
        (by show (1 : Int) ≤ 0 + 1; omega)
    simp only [List.nil_append, List.singleton_append] at hr hpref
    refine ⟨by rw [hr]; rfl, hlast, heven, ?_, fun s i t => tallyPass_other s op cl i t⟩
    intro p hpp hpne hpr
    cases p with
    | nil => exact absurd rfl hpne
    | cons d u =>
      rw [hr] at hpp hpr
      obtain ⟨v, hv⟩ := hpp
      simp only [List.cons_append, List.cons.injEq] at hv
      obtain ⟨hd, hu⟩ := hv
      subst hd
      exact hpref u ⟨v, hu⟩ (fun h => hpr (by rw [h]))

/-- The instance of C17 at `[1,"]",{"a":[2]}] tail`, whose result is `[1,"]",{"a":[2]}]`. -/
theorem cutAfterJS_result_shape_witness :
    cutAfterJS "[1,\"]\",\x7b\"a\":[2]\x7d] tail".toList = .ok "[1,\"]\",\x7b\"a\":[2]\x7d]".toList ∧
    ∃ op cl, bracketPair "[1,\"]\",\x7b\"a\":[2]\x7d] tail".toList = some (op, cl) ∧ JsonPair op cl ∧
      "[1,\"]\",\x7b\"a\":[2]\x7d]".toList <+: "[1,\"]\",\x7b\"a\":[2]\x7d] tail".toList ∧
      "[1,\"]\",\x7b\"a\":[2]\x7d]".toList ≠ [] ∧
      "[1,\"]\",\x7b\"a\":[2]\x7d]".toList.head? = some op ∧
      "[1,\"]\",\x7b\"a\":[2]\x7d]".toList.getLast? = some cl ∧
      (bracketTally op cl "[1,\"]\",\x7b\"a\":[2]\x7d]".toList).opens =
        (bracketTally op cl "[1,\"]\",\x7b\"a\":[2]\x7d]".toList).closes ∧
      (∀ p, p <+: "[1,\"]\",\x7b\"a\":[2]\x7d]".toList → p ≠ [] →
        p ≠ "[1,\"]\",\x7b\"a\":[2]\x7d]".toList →
        (bracketTally op cl p).closes < (bracketTally op cl p).opens) ∧
      (∀ (s : Str) (i : Nat) (t : Tally), s[i]? ≠ some op → s[i]? ≠ some cl →
        (tallyPass s op cl i t).opens = t.opens ∧ (tallyPass s op cl i t).closes = t.closes) :=
  ⟨rfl, cutAfterJS_result_shape _ _ rfl⟩

/-! ### `getRandomIPv6`: the prefix length 128, the written groups and the two errors -/

/-- The result of `normalizeIP` has eight groups. -/
theorem normalizeIP_length (ip : Str) (base : List JSNum) (h : normalizeIP ip = .ok base) :
    base.length = 8 := by
  unfold normalizeIP at h
  dsimp only at h
  split at h
  · exact Except.noConfusion h
  · rename_i hmiss
    injection h with h
    subst h
    simp only [List.length_map, List.length_append, List.length_replicate]
    omega

/-- When every index of the loop lies below the prefix boundary, the loop copies the base
address and calls the random source for no group. -/
theorem fillGroups_all_copied (rnd : Nat → RandomOutcome) (base : List JSNum) (fmg rb : Nat) :
    ∀ (n i calls : Nat), i + n ≤ fmg → i + n = base.length →
      fillGroups rnd base fmg rb n i calls = base.drop i := by
  intro n
  induction n with
  | zero =>
    intro i calls _ h
    rw [fillGroups, List.drop_eq_nil_of_le (by omega)]
  | succ n ih =>
    intro i calls h1 h2
    have hi : i < fmg := by omega
    have hl : i < base.length := by omega
    rw [fillGroups]
    simp only [hi, if_true]
    rw [ih (i + 1) calls (by omega) (by omega), List.drop_eq_getElem_cons hl,
      List.getElem?_eq_getElem hl]
    rfl

/-- The part of C11 that holds for every input: for every CIDR string with the prefix length
128 on which `getRandomIPv6` returns, the result is the eight numbers that `normalizeIP` reads
from the address part, written out in full, and it is the same for every outcome of the random
source. -/
theorem getRandomIPv6_prefix_128 (rnd : Nat → RandomOutcome) (ip out rawMask : Str)
    (h : getRandomIPv6 rnd ip = .ok out) (hs : (split ip ['/'])[1]? = some rawMask)
    (hm : parseInt rawMask 10 = some 128) :
    ∃ base, normalizeIP ((split ip ['/'])[0]?.getD []) = .ok base ∧ base.length = 8 ∧
      out = formatGroups base ∧ ∀ rnd', getRandomIPv6 rnd' ip = .ok out := by
  unfold getRandomIPv6 at h
  by_cases hv : isIPv6 ip = true
  · simp only [hv, Bool.not_true, Bool.false_eq_true, if_false, hs, hm] at h
    cases hn : normalizeIP ((split ip ['/'])[0]?.getD []) with
    | error e =>
      rw [hn] at h
      simp at h
    | ok base =>
      have hlen := normalizeIP_length _ base hn
      have hfill : ∀ r : Nat → RandomOutcome, fillGroups r base 8 0 8 0 0 = base := by
        intro r
        have := fillGroups_all_copied r base 8 0 8 0 0 (by omega) (by omega)
        simpa using this
      rw [hn] at h
      simp only [show ¬ ((128 : Int) > 128 ∨ (128 : Int) < 1) by omega, if_false] at h
      have h8 : (128 : Int).toNat / 16 = 8 := by decide
      have h0 : (128 : Int).toNat % 16 = 0 := by decide
      rw [h8, h0, hfill] at h
      injection h with h
      refine ⟨base, rfl, hlen, h.symm, ?_⟩
      intro rnd'
      unfold getRandomIPv6
      simp only [hv, Bool.not_true, Bool.false_eq_true, if_false, hs, hm, hn]
      simp only [show ¬ ((128 : Int) > 128 ∨ (128 : Int) < 1) by omega, if_false]
      rw [h8, h0, hfill, h]
  · simp [hv] at h

/-- The instance of the theorem above at `::1/128`. -/
theorem getRandomIPv6_prefix_128_witness :
    getRandomIPv6 halfRandom "::1/128".toList =
      .ok "0000:0000:0000:0000:0000:0000:0000:0001".toList ∧
    ∃ base, normalizeIP ((split "::1/128".toList ['/'])[0]?.getD []) = .ok base ∧
      base.length = 8 ∧ "0000:0000:0000:0000:0000:0000:0000:0001".toList = formatGroups base ∧
      ∀ rnd', getRandomIPv6 rnd' "::1/128".toList =
        .ok "0000:0000:0000:0000:0000:0000:0000:0001".toList :=
  ⟨rfl, getRandomIPv6_prefix_128 halfRandom "::1/128".toList _ "128".toList rfl (by decide)
    (by decide)⟩

theorem formatGroups_cons (x y : JSNum) (l : List JSNum) :
    formatGroups (x :: y :: l) = padStart (toStringHex x) 4 ++ ':' :: formatGroups (y :: l) :=
  rfl

/-- C12 fails on the code: `getRandomIPv6` returns on `1234567:/16` and on `fe80:%eth0/64`, and
for every outcome of the random source the first result starts with the group `1234567` of
seven digits and the second has the group `0NaN`. -/
theorem getRandomIPv6_malformed_groups (rnd : Nat → RandomOutcome) :
    getRandomIPv6 rnd "1234567:/16".toList =
      .ok ("1234567:".toList ++ formatGroups [some ((rnd 0).floorMul 65536),
        some ((rnd 1).floorMul 65536), some ((rnd 2).floorMul 65536),
        some ((rnd 3).floorMul 65536), some ((rnd 4).floorMul 65536),
        some ((rnd 5).floorMul 65536), some ((rnd 6).floorMul 65536)]) ∧
    getRandomIPv6 rnd "fe80:%eth0/64".toList =
      .ok ("fe80:0NaN:".toList ++ formatGroups [some 0, some 0, some ((rnd 0).floorMul 65536),
        some ((rnd 1).floorMul 65536), some ((rnd 2).floorMul 65536),
        some ((rnd 3).floorMul 65536)]) := by
  constructor
  · have h1 : isIPv6 "1234567:/16".toList = true := by decide
    have h2 : split "1234567:/16".toList ['/'] = ["1234567:".toList, "16".toList] := by decide
    have h3 : parseInt "16".toList 10 = some 16 := by decide
    have h4 : normalizeIP "1234567:".toList =
        .ok [some 19088743, some 0, some 0, some 0, some 0, some 0, some 0, some 0] := rfl
    have h5 : padStart (toStringHex (some 19088743)) 4 = "1234567".toList := by decide
    unfold getRandomIPv6
    rw [h1, h2]
    simp only [Bool.not_true, Bool.false_eq_true, if_false, List.getElem?_cons_zero,
      List.getElem?_cons_succ, Option.getD_some, h3, h4]
    simp only [show ¬ ((16 : Int) > 128 ∨ (16 : Int) < 1) by omega, if_false,
      show (16 : Int).toNat / 16 = 1 by decide, show (16 : Int).toNat % 16 = 0 by decide]
    simp only [fillGroups, formatGroups_cons, h5]
    simp
    rfl
  · have h1 : isIPv6 "fe80:%eth0/64".toList = true := by decide
    have h2 : split "fe80:%eth0/64".toList ['/'] = ["fe80:%eth0".toList, "64".toList] := by
      decide
    have h3 : parseInt "64".toList 10 = some 64 := by decide
    have h4 : normalizeIP "fe80:%eth0".toList =
        .ok [some 65152, none, some 0, some 0, some 0, some 0, some 0, some 0] := rfl
    have h5 : padStart (toStringHex (some 65152)) 4 = "fe80".toList := by decide
    unfold getRandomIPv6
    rw [h1, h2]
    simp only [Bool.not_true, Bool.false_eq_true, if_false, List.getElem?_cons_zero,
      List.getElem?_cons_succ, Option.getD_some, h3, h4]
    simp only [show ¬ ((64 : Int) > 128 ∨ (64 : Int) < 1) by omega, if_false,
      show (64 : Int).toNat / 16 = 4 by decide, show (64 : Int).toNat % 16 = 0 by decide]
    simp only [fillGroups, formatGroups_cons, h5]
    simp
    rfl

/-- C13 fails on the code: `::1` is an address that `isIPv6` accepts, and on `::1/0` and on
`::1/129` `getRandomIPv6` throws the invalid-format error, not the mask error; the mask error
is what it throws on `::1`, which has no prefix length. -/
theorem getRandomIPv6_prefix_out_of_range (rnd : Nat → RandomOutcome) :
    isIPv6 "::1".toList = true ∧
    getRandomIPv6 rnd "::1/0".toList = .error .invalidFormat ∧
    getRandomIPv6 rnd "::1/129".toList = .error .invalidFormat ∧
    getRandomIPv6 rnd "::1".toList = .error .invalidMask := by
  have h0 : isIPv6 "::1".toList = true := by decide
  have h1 : isIPv6 "::1/0".toList = false := by decide
  have h2 : isIPv6 "::1/129".toList = false := by decide
  have h3 : split "::1".toList ['/'] = ["::1".toList] := by decide
  refine ⟨h0, ?_, ?_, ?_⟩
  · unfold getRandomIPv6
    rw [h1]
    rfl
  · unfold getRandomIPv6
    rw [h2]
    rfl
  · unfold getRandomIPv6
    rw [h0, h3]
    rfl

/-! ### `setPropInsensitive` and `getPropInsensitive` -/

/-- C20 fails on the code at the empty property name: after `setPropInsensitive(obj, "", v)`
on the empty object the object has the one key `""`, and `getPropInsensitive(obj, "")` is
`null`, whatever `toLowerCase` does and whatever the value is. -/
theorem setProp_getProp_empty_name {α : Type} (toLowerCase : Str → Str) (v : α) :
    setPropInsensitive toLowerCase ([] : Obj α) [] v = ([([], v)], none) ∧
    Obj.keys (setPropInsensitive toLowerCase ([] : Obj α) [] v).1 = [[]] ∧
    getPropInsensitive toLowerCase (setPropInsensitive toLowerCase ([] : Obj α) [] v).1 [] =
      .null := by
  refine ⟨rfl, rfl, ?_⟩
  simp [getPropInsensitive, findPropKeyInsensitive, setPropInsensitive, Obj.set, Obj.keys]

theorem obj_get_set_same {α : Type} (obj : Obj α) (k : Str) (v : α) :
    Obj.get (Obj.set obj k v) k = .value v := by
  induction obj with
  | nil => simp [Obj.set, Obj.get]
  | cons p rest ih =>
    obtain ⟨k', v'⟩ := p
    by_cases h : k' = k
    · simp [Obj.set, Obj.get, h]
    · simp [Obj.set, Obj.get, h, ih]

theorem obj_keys_set_of_mem {α : Type} (obj : Obj α) (k : Str) (v : α)
    (h : k ∈ Obj.keys obj) : Obj.keys (Obj.set obj k v) = Obj.keys obj := by
  induction obj with
  | nil => simp [Obj.keys] at h
  | cons p rest ih =>
    obtain ⟨k', v'⟩ := p
    by_cases hk : k' = k
    · simp [Obj.set, Obj.keys, hk]
    · have hmem : k ∈ Obj.keys rest := by
        simp only [Obj.keys, List.map_cons, List.mem_cons] at h
        rcases h with h | h
        · exact absurd h.symm hk
        · exact h
      have := ih hmem
      simp only [Obj.keys] at this
      simp [Obj.set, Obj.keys, hk, this]

theorem obj_keys_set_of_not_mem {α : Type} (obj : Obj α) (k : Str) (v : α)
    (h : k ∉ Obj.keys obj) : Obj.keys (Obj.set obj k v) = Obj.keys obj ++ [k] := by
  induction obj with
  | nil => simp [Obj.set, Obj.keys]
  | cons p rest ih =>
    obtain ⟨k', v'⟩ := p
    simp only [Obj.keys, List.map_cons, List.mem_cons, not_or] at h
    have hk : ¬ k' = k := fun e => h.1 e.symm
    have := ih h.2
    simp only [Obj.keys] at this
    simp [Obj.set, Obj.keys, hk, this]

/-- The round trip of `setPropInsensitive` and `getPropInsensitive` for a name whose lower case
is not the lower case of the empty name: the value set is the value read under every name equal
to it in lower case, and the keys stay as they are when one of them matches the name. -/
theorem setProp_getProp_nonempty {α : Type} (toLowerCase : Str → Str) (obj : Obj α)
    (prop q : Str) (v : α) (hq : toLowerCase q = toLowerCase prop)
    (hne : toLowerCase prop ≠ toLowerCase []) :
    getPropInsensitive toLowerCase (setPropInsensitive toLowerCase obj prop v).1 q = .value v ∧
    ((∃ k ∈ Obj.keys obj, toLowerCase k = toLowerCase prop) →
      Obj.keys (setPropInsensitive toLowerCase obj prop v).1 = Obj.keys obj) := by
  have hprop : prop ≠ [] := fun h => hne (by rw [h])
  unfold setPropInsensitive getPropInsensitive findPropKeyInsensitive
  simp only [hq]
  cases hf : (Obj.keys obj).find? (fun p => toLowerCase p = toLowerCase prop) with
  | none =>
    have hnone : ∀ k ∈ Obj.keys obj, ¬ toLowerCase k = toLowerCase prop := by
      intro k hk
      have := List.find?_eq_none.1 hf k hk
      simpa using this
    have hmem : prop ∉ Obj.keys obj := fun h => hnone prop h rfl
    have hkeys := obj_keys_set_of_not_mem obj prop v hmem
    simp only [Option.getD_none]
    constructor
    · rw [hkeys, List.find?_append, hf]
      simp [hprop, obj_get_set_same]
    · rintro ⟨k, hk, hlow⟩
      exact absurd hlow (hnone k hk)
  | some k =>
    have hpred : toLowerCase k = toLowerCase prop := by
      have := List.find?_some hf
      simpa using this
    have hk : k ≠ [] := fun h => hne (by rw [← hpred, h])
    have hmem : k ∈ Obj.keys obj := List.mem_of_find?_eq_some hf
    have hkeys := obj_keys_set_of_mem obj k v hmem
    simp only [hk, if_false, Option.getD_some]
    constructor
    · rw [hkeys, hf]
      simp [hk, obj_get_set_same]
    · intro _
      exact hkeys

/-! ### `request`: the outcome of a response, redirects, and the missing limit -/

theorem statusText_three (n : Nat) (h1 : 100 ≤ n) (h2 : n < 1000) :
    statusText n = [hexDigit (n / 100), hexDigit (n / 10 % 10), hexDigit (n % 10)] := by
  obtain ⟨k, rfl⟩ : ∃ k, n = k + 2 := ⟨n - 2, by omega⟩
  unfold statusText radixDigits
  have e : k + 2 + 1 = k + 3 := rfl
  rw [e]
  simp only [radixDigitsRev]
  rw [if_neg (by omega), if_neg (by omega), if_pos (by omega)]
  have e2 : (k + 2) / 10 / 10 = (k + 2) / 100 := by omega
  rw [e2]
  rfl

theorem hexDigit_eq_iff (d : Nat) (hd : d < 10) (e : Nat) (he : e < 10) :
    hexDigit d = hexDigit e ↔ d = e := by
  interval_cases d <;> interval_cases e <;> decide

theorem statusText_startsWith (n : Nat) (h1 : 100 ≤ n) (h2 : n < 1000) (d : Nat) (hd : d < 10) :
    startsWith (statusText n) [hexDigit d] = decide (n / 100 = d) := by
  rw [statusText_three n h1 h2]
  have hq : n / 100 < 10 := by omega
  simp only [startsWith, List.isPrefixOf, Bool.and_true]
  by_cases h : n / 100 = d
  · subst h
    simp
  · have : hexDigit d ≠ hexDigit (n / 100) := fun e =>
      h ((hexDigit_eq_iff d hd _ hq).mp e).symm
    simp [h, this]

theorem status_2xx (n : Nat) (h1 : 200 ≤ n) (h2 : n ≤ 299) :
    startsWith (statusText n) ['2'] = true := by
  have := statusText_startsWith n (by omega) (by omega) 2 (by omega)
  have e : hexDigit 2 = '2' := by decide
  rw [e] at this
  rw [this]
  simp
  omega

theorem status_3xx (n : Nat) (h1 : 300 ≤ n) (h2 : n ≤ 399) :
    startsWith (statusText n) ['3'] = true := by
  have := statusText_startsWith n (by omega) (by omega) 3 (by omega)
  have e : hexDigit 3 = '3' := by decide
  rw [e] at this
  rw [this]
  simp
  omega

theorem status_not_2xx (n : Nat) (h1 : 100 ≤ n) (h2 : n < 1000) (h : ¬ (200 ≤ n ∧ n ≤ 299)) :
    startsWith (statusText n) ['2'] = false := by
  have := statusText_startsWith n (by omega) (by omega) 2 (by omega)
  have e : hexDigit 2 = '2' := by decide
  rw [e] at this
  rw [this]
  simp
  omega

theorem status_not_3xx (n : Nat) (h1 : 100 ≤ n) (h2 : n < 1000) (h : ¬ (300 ≤ n ∧ n ≤ 399)) :
    startsWith (statusText n) ['3'] = false := by
  have := statusText_startsWith n (by omega) (by omega) 3 (by omega)
  have e : hexDigit 3 = '3' := by decide
  rw [e] at this
  rw [this]
  simp
  omega

theorem startsWith_three_not_two (s : Str) (h : startsWith s ['3'] = true) :
    startsWith s ['2'] = false := by
  cases s with
  | nil => rfl
  | cons c t =>
    simp only [startsWith, List.isPrefixOf, Bool.and_true, beq_iff_eq] at h
    subst h
    rfl

theorem request_2xx {ρ κ ν : Type} (P : RequestPlatform ρ κ ν) (options : RequestArgs ρ)
    (url : Url) (req : Response) (fuel : Nat) (hd : dispatch P options url = .ok req)
    (hs : startsWith (statusText req.statusCode) ['2'] = true) :
    request P options (fuel + 1) url = some (decodeBody P req) := by
  simp only [request, hd, hs, if_true]

theorem request_3xx {ρ κ ν : Type} (P : RequestPlatform ρ κ ν) (options : RequestArgs ρ)
    (url : Url) (req : Response) (fuel : Nat) (hd : dispatch P options url = .ok req)
    (hs : startsWith (statusText req.statusCode) ['3'] = true) :
    request P options (fuel + 1) url = request P options fuel (locationOf req) := by
  simp only [request, hd, hs, startsWith_three_not_two _ hs, if_true]
  simp

theorem request_other {ρ κ ν : Type} (P : RequestPlatform ρ κ ν) (options : RequestArgs ρ)
    (url : Url) (req : Response) (fuel : Nat) (hd : dispatch P options url = .ok req)
    (h2 : startsWith (statusText req.statusCode) ['2'] = false)
    (h3 : startsWith (statusText req.statusCode) ['3'] = false) :
    request P options (fuel + 1) url = some (.error (.status req.statusCode)) := by
  simp only [request, hd, h2, h3]
  simp

theorem request_transport_error {ρ κ ν : Type} (P : RequestPlatform ρ κ ν)
    (options : RequestArgs ρ) (url : Url) (e : RequestError) (fuel : Nat)
    (hd : dispatch P options url = .error e) :
    request P options (fuel + 1) url = some (.error e) := by
  simp only [request, hd]

/-- C14: what `request` does with a response that is no redirect.  For a response with a status
in 200..299: if it has a header `content-type` whose value contains `application/json`, the
result is the body decoded by `JSON.parse` (the rejection of `body.json()` when the body is no
JSON text); if it has the header with another value, the result is the text of the body; if it
has no header `content-type`, `request` fails with a `TypeError` and returns no text.  For a
response with a status in 100..199 or 400..599, `request` fails with the error that carries the
status code. -/
theorem request_non_redirect_outcome {ρ κ ν : Type} (P : RequestPlatform ρ κ ν)
    (options : RequestArgs ρ) (url : Url) (req : Response) (fuel : Nat)
    (hd : dispatch P options url = .ok req) :
    (200 ≤ req.statusCode ∧ req.statusCode ≤ 299 →
      (∀ ct, Obj.get req.headers "content-type".toList = .value ct →
          includes ct "application/json".toList = true →
          request P options (fuel + 1) url =
            some (match P.JSON_parse req.body with
              | some v => .ok (.json v)
              | none => .error .syntaxError)) ∧
      (∀ ct, Obj.get req.headers "content-type".toList = .value ct →
          includes ct "application/json".toList = false →
          request P options (fuel + 1) url = some (.ok (.text req.body))) ∧
      (Obj.get req.headers "content-type".toList = .undefined →
          request P options (fuel + 1) url = some (.error .typeError))) ∧
    ((100 ≤ req.statusCode ∧ req.statusCode ≤ 199) ∨
        (400 ≤ req.statusCode ∧ req.statusCode ≤ 599) →
      request P options (fuel + 1) url = some (.error (.status req.statusCode))) := by
  refine ⟨fun hs => ?_, fun hs => ?_⟩
  · have h2 := request_2xx P options url req fuel hd (status_2xx _ hs.1 hs.2)
    rw [h2]
    refine ⟨fun ct hct hin => ?_, fun ct hct hin => ?_, fun hct => ?_⟩
    · simp only [decodeBody, hct, hin, if_true]
    · simp only [decodeBody, hct, hin]
      simp
    · simp only [decodeBody, hct]
  · exact request_other P options url req fuel hd
      (status_not_2xx _ (by omega) (by omega) (by omega))
      (status_not_3xx _ (by omega) (by omega) (by omega))

/-- The instance of C14 at a response 200 without headers and with the body `hello`: `request`
fails with a `TypeError`. -/
theorem request_non_redirect_outcome_witness :
    dispatch examplePlatform (tableOptions bareTable) (some "http://a/".toList) =
      .ok ⟨200, [], "hello".toList⟩ ∧
    request examplePlatform (tableOptions bareTable) 1 (some "http://a/".toList) =
      some (.error .typeError) :=
  ⟨rfl, (request_non_redirect_outcome examplePlatform (tableOptions bareTable)
      (some "http://a/".toList) ⟨200, [], "hello".toList⟩ 0 rfl).1 ⟨by decide, by decide⟩
        |>.2.2 rfl⟩

theorem request_hops {ρ κ ν : Type} (P : RequestPlatform ρ κ ν) (options : RequestArgs ρ)
    (n : Nat) (url next : Url) (h : Hops P options n url next) (fuel : Nat) :
    request P options (n + fuel) url = request P options fuel next := by
  induction h with
  | zero url => rw [Nat.zero_add]
  | @succ m u nx req hd hs _ ih =>
    have e : m + 1 + fuel = (m + fuel) + 1 := by omega
    rw [e, request_3xx P options u req (m + fuel) hd hs, ih]

theorem request_fuel_mono {ρ κ ν : Type} (P : RequestPlatform ρ κ ν) (options : RequestArgs ρ)
    (fuel : Nat) : ∀ (url : Url) (r : Except RequestError (Body ν)),
      request P options fuel url = some r → ∀ k, request P options (fuel + k) url = some r := by
  induction fuel with
  | zero => intro url r h; simp [request] at h
  | succ f ih =>
    intro url r h k
    have e : f + 1 + k = (f + k) + 1 := by omega
    rw [e]
    cases hd : dispatch P options url with
    | error err =>
      rw [request_transport_error P options url err f hd] at h
      rw [request_transport_error P options url err (f + k) hd]
      exact h
    | ok req =>
      by_cases h2 : startsWith (statusText req.statusCode) ['2'] = true
      · rw [request_2xx P options url req f hd h2] at h
        rw [request_2xx P options url req (f + k) hd h2]
        exact h
      · by_cases h3 : startsWith (statusText req.statusCode) ['3'] = true
        · rw [request_3xx P options url req f hd h3] at h
          rw [request_3xx P options url req (f + k) hd h3]
          exact ih _ r h k
        · have h2f := Bool.eq_false_iff.mpr h2
          have h3f := Bool.eq_false_iff.mpr h3
          rw [request_other P options url req f hd h2f h3f] at h
          rw [request_other P options url req (f + k) hd h2f h3f]
          exact h

theorem redirectChain_hops {ρ κ ν : Type} (P : RequestPlatform ρ κ ν) (options : RequestArgs ρ)
    (url : Str) (hops : List Response) (final : Response)
    (h : RedirectChain P options url hops final) :
    ∃ lastUrl : Str, Hops P options hops.length (some url) (some lastUrl) ∧
      dispatch P options (some lastUrl) = .ok final ∧
      200 ≤ final.statusCode ∧ final.statusCode ≤ 299 := by
  induction h with
  | @last u fin hd h1 h2 =>
    exact ⟨u, Hops.zero _, hd, h1, h2⟩
  | @hop u nx req rest fin hd h1 h2 hl _ ih =>
    obtain ⟨l, hh, hfin⟩ := ih
    refine ⟨l, ?_, hfin⟩
    have hloc : locationOf req = some nx := by simp only [locationOf, hl]
    exact Hops.succ hd (status_3xx _ h1 h2) (hloc ▸ hh)

/-- C15 on the code: `request` follows a finite chain of redirects, and it returns the decoded
body of the last response only when that response has a header `content-type`.  When the call
for `url` is answered by a chain of `n` responses with a status 3xx, each with a header
`location` that names the address of the next call, and then by a response `final` with a
status 2xx, `request` settles after `n + 1` calls (with any number of calls allowed beyond
that): if `final` has a header `content-type`, with the JSON value of its body when the header
contains `application/json` and with the text of its body otherwise; if `final` has no header
`content-type`, with a `TypeError`, so that no body is returned.  Each call of the chain is the
call `dispatch P options` on the address of the hop: it hands the unchanged `options` on,
applies the hook `rewriteRequest` to the address of the hop and calls the injected transport
with the result. -/
theorem request_follows_redirects {ρ κ ν : Type} (P : RequestPlatform ρ κ ν)
    (options : RequestArgs ρ) (url : Str) (hops : List Response) (final : Response)
    (h : RedirectChain P options url hops final) :
    (∀ ct, Obj.get final.headers "content-type".toList = .value ct →
      ∀ k, request P options (hops.length + 1 + k) (some url) =
        some (if includes ct "application/json".toList = true then
          (match P.JSON_parse final.body with
            | some v => .ok (.json v)
            | none => .error .syntaxError)
        else .ok (.text final.body))) ∧
    (Obj.get final.headers "content-type".toList = .undefined →
      ∀ k, request P options (hops.length + 1 + k) (some url) = some (.error .typeError)) ∧
    (∀ (fetch : Url → ρ → Except RequestError Response) (hop : Url),
      options.fetch = some fetch →
      dispatch P options hop =
        useFetch P fetch (rewriteStep options hop).2 (rewriteStep options hop).1) := by
  have key : ∀ k, request P options (hops.length + 1 + k) (some url) =
      some (decodeBody P final) := by
    intro k
    obtain ⟨l, hh, hd, h1, h2⟩ := redirectChain_hops P options url hops final h
    have e : hops.length + 1 + k = hops.length + (k + 1) := by omega
    rw [e, request_hops P options _ _ _ hh (k + 1)]
    exact request_2xx P options _ final k hd (status_2xx _ h1 h2)
  refine ⟨fun ct hct k => ?_, fun hct k => ?_, fun fetch hop hf => ?_⟩
  · rw [key k]
    simp only [decodeBody, hct]
  · rw [key k]
    simp only [decodeBody, hct]
  · simp only [dispatch, hf]

/-- The instances of C15 at the chain 301, 200 whose last response has no headers, where
`request` fails with a `TypeError`, and at the chain 301, 302, 200 whose last response has the
header `content-type`, where the result is the decoded body `[1,2]`; the hook appends `?s` to
the address of each hop. -/
theorem request_follows_redirects_witness :
    RedirectChain examplePlatform (tableOptions bareChainTable) "http://a/".toList
      [⟨301, [("location".toList, "http://b/".toList)], []⟩] ⟨200, [], "hello".toList⟩ ∧
    request examplePlatform (tableOptions bareChainTable) 2 (some "http://a/".toList) =
      some (.error .typeError) ∧
    RedirectChain examplePlatform (tableOptions chainTable) "http://a/".toList
      [⟨301, [("location".toList, "http://b/".toList)], []⟩,
       ⟨302, [("location".toList, "http://c/".toList)], []⟩]
      ⟨200, [("content-type".toList, "application/json; charset=utf-8".toList)],
        "[1,2]".toList⟩ ∧
    request examplePlatform (tableOptions chainTable) 3 (some "http://a/".toList) =
      some (.ok (.json (.arr (.cons (.num 1) (.cons (.num 2) .nil))))) :=
  have hb : RedirectChain examplePlatform (tableOptions bareChainTable) "http://a/".toList
      [⟨301, [("location".toList, "http://b/".toList)], []⟩] ⟨200, [], "hello".toList⟩ :=
    .hop rfl (by decide) (by decide) rfl (.last rfl (by decide) (by decide))
  have hc : RedirectChain examplePlatform (tableOptions chainTable) "http://a/".toList
      [⟨301, [("location".toList, "http://b/".toList)], []⟩,
       ⟨302, [("location".toList, "http://c/".toList)], []⟩]
      ⟨200, [("content-type".toList, "application/json; charset=utf-8".toList)],
        "[1,2]".toList⟩ :=
    .hop rfl (by decide) (by decide) rfl
      (.hop rfl (by decide) (by decide) rfl (.last rfl (by decide) (by decide)))
  ⟨hb,
    (request_follows_redirects examplePlatform (tableOptions bareChainTable) _ _ _ hb).2.1 rfl 0,
    hc,
    ((request_follows_redirects examplePlatform (tableOptions chainTable) _ _ _ hc).1
      "application/json; charset=utf-8".toList rfl 0).trans rfl⟩

theorem request_loop {ρ κ ν : Type} (P : RequestPlatform ρ κ ν) (options : RequestArgs ρ)
    (Loop : Url → Prop)
    (hloop : ∀ u, Loop u → ∃ req, dispatch P options u = .ok req ∧
      startsWith (statusText req.statusCode) ['3'] = true ∧ Loop (locationOf req))
    (fuel : Nat) : ∀ url, Loop url → request P options fuel url = none := by
  induction fuel with
  | zero => intro url _; rfl
  | succ f ih =>
    intro url hu
    obtain ⟨req, hd, hs, hl⟩ := hloop url hu
    rw [request_3xx P options url req f hd hs]
    exact ih _ hl

theorem request_some_hops {ρ κ ν : Type} (P : RequestPlatform ρ κ ν) (options : RequestArgs ρ)
    (fuel : Nat) : ∀ (url : Url) (r : Except RequestError (Body ν)),
      request P options fuel url = some r →
      ∃ n next, n < fuel ∧ Hops P options n url next ∧ settles P options next = some r := by
  induction fuel with
  | zero => intro url r h; simp [request] at h
  | succ f ih =>
    intro url r h
    cases hd : dispatch P options url with
    | error err =>
      rw [request_transport_error P options url err f hd] at h
      exact ⟨0, url, by omega, Hops.zero _,
        (request_transport_error P options url err 0 hd).trans h⟩
    | ok req =>
      by_cases h2 : startsWith (statusText req.statusCode) ['2'] = true
      · rw [request_2xx P options url req f hd h2] at h
        exact ⟨0, url, by omega, Hops.zero _, (request_2xx P options url req 0 hd h2).trans h⟩
      · by_cases h3 : startsWith (statusText req.statusCode) ['3'] = true
        · rw [request_3xx P options url req f hd h3] at h
          obtain ⟨n, next, hn, hh, hr⟩ := ih _ r h
          exact ⟨n + 1, next, by omega, Hops.succ hd h3 hh, hr⟩
        · have h2f := Bool.eq_false_iff.mpr h2
          have h3f := Bool.eq_false_iff.mpr h3
          rw [request_other P options url req f hd h2f h3f] at h
          exact ⟨0, url, by omega, Hops.zero _,
            (request_other P options url req 0 hd h2f h3f).trans h⟩

/-- C16, as the code has it: an address that redirects to itself.  Each call of `request` for
it is answered by the response 301 with the same address in `location`, and no number of
calls brings a result: neither a value nor an error. -/
theorem request_self_redirect_counterexample :
    dispatch examplePlatform (tableOptions selfTable) (some "http://a/".toList) =
      .ok ⟨301, [("location".toList, "http://a/".toList)], []⟩ ∧
    ¬ ∃ fuel, (request examplePlatform (tableOptions selfTable) fuel
      (some "http://a/".toList)).isSome = true := by
  refine ⟨rfl, ?_⟩
  have hn : ∀ fuel, request examplePlatform (tableOptions selfTable) fuel
      (some "http://a/".toList) = none := by
    intro fuel
    induction fuel with
    | zero => rfl
    | succ f ih =>
      rw [request_3xx examplePlatform (tableOptions selfTable) (some "http://a/".toList)
        ⟨301, [("location".toList, "http://a/".toList)], []⟩ f rfl (by decide)]
      exact ih
  rintro ⟨fuel, h⟩
  rw [hn fuel] at h
  simp at h

/-- C16, amended: `request` has no limit on the number of redirects.  A call of `request`
for `url` gives the result `r` within `fuel` calls exactly when fewer than `fuel` responses
with a code that starts with `3` lead from `url` to an address whose call settles with `r` by
itself (a response that is no redirect, or an error of the transport); and on a chain that
never ends, where every address that is reached is answered by a redirect to an address of
the same kind, no number of calls gives a result or an error. -/
theorem request_settles_iff_chain_ends {ρ κ ν : Type} (P : RequestPlatform ρ κ ν)
    (options : RequestArgs ρ) :
    (∀ (url : Url) (fuel : Nat) (r : Except RequestError (Body ν)),
      request P options fuel url = some r ↔
        ∃ n next, n < fuel ∧ Hops P options n url next ∧ settles P options next = some r) ∧
    (∀ Loop : Url → Prop,
      (∀ u, Loop u → ∃ req, dispatch P options u = .ok req ∧
        startsWith (statusText req.statusCode) ['3'] = true ∧ Loop (locationOf req)) →
      ∀ url, Loop url → ∀ fuel, request P options fuel url = none) := by
  refine ⟨fun url fuel r => ⟨request_some_hops P options fuel url r, ?_⟩,
    fun Loop hloop url hu fuel => request_loop P options Loop hloop fuel url hu⟩
  rintro ⟨n, next, hn, hh, hr⟩
  obtain ⟨k, rfl⟩ : ∃ k, fuel = n + (1 + k) := ⟨fuel - n - 1, by omega⟩
  rw [request_hops P options n url next hh (1 + k)]
  exact request_fuel_mono P options 1 next r hr k

/-- The instance of amended C16 at two addresses that redirect to each other: no number of
calls gives a result; and at the chain 301, 302, 200, which settles in three calls. -/
theorem request_settles_iff_chain_ends_witness :
    (∀ fuel, request examplePlatform (tableOptions pairTable) fuel
      (some "http://a/".toList) = none) ∧
    (∃ n next, n < 3 ∧
      Hops examplePlatform (tableOptions chainTable) n (some "http://a/".toList) next ∧
      settles examplePlatform (tableOptions chainTable) next =
        some (.ok (.json (.arr (.cons (.num 1) (.cons (.num 2) .nil)))))) :=
  ⟨(request_settles_iff_chain_ends examplePlatform (tableOptions pairTable)).2
      (fun u => u = some "http://a/".toList ∨ u = some "http://b/".toList)
      (fun u hu => by
        rcases hu with rfl | rfl
        · exact ⟨⟨302, [("location".toList, "http://b/".toList)], []⟩, rfl, by decide,
            Or.inr rfl⟩
        · exact ⟨⟨307, [("location".toList, "http://a/".toList)], []⟩, rfl, by decide,
            Or.inl rfl⟩)
      _ (Or.inl rfl),
    ((request_settles_iff_chain_ends examplePlatform (tableOptions chainTable)).1
      (some "http://a/".toList) 3 _).mp rfl⟩

/-! ### `normalizeIP`: the expansion of `::` -/

theorem hexDigit_values (c : Char) (h : isHexDigit c = true) :
    ∃ d, d < 16 ∧ hexVal c = some d ∧ digitValue c = some d := by
  simp only [isHexDigit, Bool.or_eq_true, Bool.and_eq_true, decide_eq_true_eq] at h
  unfold hexVal digitValue
  rcases h with (h | h) | h
  · exact ⟨c.toNat - 48, by omega, by rw [if_pos h], by rw [if_pos h]⟩
  · refine ⟨c.toNat - 87, by omega, ?_, ?_⟩
    · rw [if_neg (by omega), if_pos h]
    · rw [if_neg (by omega), if_pos (by omega)]
  · refine ⟨c.toNat - 55, by omega, ?_, ?_⟩
    · rw [if_neg (by omega), if_neg (by omega), if_pos h]
    · rw [if_neg (by omega), if_neg (by omega), if_pos (by omega)]

theorem hexDigit_not_space (c : Char) (h : isHexDigit c = true) : isRegexSpace c = false := by
  simp only [isHexDigit, Bool.or_eq_true, Bool.and_eq_true, decide_eq_true_eq] at h
  simp only [isRegexSpace, Bool.or_eq_false_iff, Bool.and_eq_false_imp, decide_eq_false_iff_not,
    decide_eq_true_eq]
  omega

theorem hexDigit_ne (c d : Char) (h : isHexDigit c = true) (hd : isHexDigit d = false) :
    c ≠ d := by
  intro e
  rw [e, hd] at h
  exact Bool.false_ne_true h

theorem readDigits_hex (g : Str) (hg : ∀ c ∈ g, isHexDigit c = true) (acc : Nat) :
    readDigits 16 g acc true = some (g.foldl (fun a c => a * 16 + (hexVal c).getD 0) acc) := by
  induction g generalizing acc with
  | nil => rfl
  | cons c t ih =>
    obtain ⟨d, hd, hv, hdv⟩ := hexDigit_values c (hg c (List.mem_cons_self _ _))
    simp only [readDigits, hdv, hd, if_true, List.foldl_cons, hv, Option.getD_some]
    exact ih (fun x hx => hg x (List.mem_cons_of_mem _ hx)) _

theorem parseInt_hexGroup (g : Str) (hg : HexGroup g) :
    parseInt g 16 = some (hexValue g : Int) := by
  obtain ⟨hne, _, hall⟩ := hg
  cases g with
  | nil => exact absurd rfl hne
  | cons c t =>
    have hc := hall c (List.mem_cons_self _ _)
    have ht : ∀ x ∈ t, isHexDigit x = true := fun x hx => hall x (List.mem_cons_of_mem _ hx)
    obtain ⟨d, hd, hv, hdv⟩ := hexDigit_values c hc
    have h1 : skipSpace (c :: t) = c :: t := by
      simp only [skipSpace, hexDigit_not_space c hc]
      simp
    have h2 : c ≠ '-' := hexDigit_ne c '-' hc (by decide)
    have h3 : c ≠ '+' := hexDigit_ne c '+' hc (by decide)
    have hr : readDigits 16 (c :: t) 0 false = some (hexValue (c :: t)) := by
      simp only [readDigits, hdv, hd, if_true, hexValue, List.foldl_cons, hv, Option.getD_some]
      exact readDigits_hex t ht _
    unfold parseInt
    simp only [h1, if_neg h2, if_neg h3]
    cases t with
    | nil =>
      simp only [hr]
      simp
    | cons x t' =>
      have hx := ht x (List.mem_cons_self _ _)
      have h4 : x ≠ 'x' := hexDigit_ne x 'x' hx (by decide)
      have h5 : x ≠ 'X' := hexDigit_ne x 'X' hx (by decide)
      simp only [h4, h5, or_self, and_false, if_false, hr]
      simp

theorem hexGroup_no_colon (g : Str) (hg : HexGroup g) : ∀ c ∈ g, c ≠ ':' :=
  fun c hc => hexDigit_ne c ':' (hg.2.2 c hc) (by decide)

theorem splitAux_skip_group (sep : Str) (g : Str) (hg : ∀ c ∈ g, c ≠ ':') (rest cur : Str) :
    splitAux (':' :: sep) (g ++ rest) cur 0 = splitAux (':' :: sep) rest (g.reverse ++ cur) 0 := by
  induction g generalizing cur with
  | nil => rfl
  | cons c t ih =>
    have hc : (':' == c) = false := by
      have := hg c (List.mem_cons_self _ _)
      simp only [beq_eq_false_iff_ne, ne_eq]
      exact fun e => this e.symm
    rw [List.cons_append, splitAux, List.isPrefixOf, hc, Bool.false_and]
    simp only [Bool.false_eq_true, if_false]
    rw [ih (fun x hx => hg x (List.mem_cons_of_mem _ hx))]
    simp

theorem joinColon_cons_cons (g h : Str) (rest : List Str) :
    joinColon (g :: h :: rest) = g ++ ':' :: joinColon (h :: rest) := rfl

theorem split_colon_joinColon (gs : List Str) :
    ∀ (g : Str), (∀ x ∈ g :: gs, HexGroup x) → ∀ cur : Str,
      splitAux [':'] (joinColon (g :: gs)) cur 0 = (cur.reverse ++ g) :: gs := by
  induction gs with
  | nil =>
    intro g hg cur
    have := splitAux_skip_group [] g (hexGroup_no_colon g (hg g (List.mem_cons_self _ _))) [] cur
    rw [List.append_nil] at this
    show splitAux [':'] g cur 0 = _
    rw [this]
    simp [splitAux]
  | cons h rest ih =>
    intro g hg cur
    rw [joinColon_cons_cons,
      splitAux_skip_group [] g (hexGroup_no_colon g (hg g (List.mem_cons_self _ _)))]
    rw [splitAux]
    simp only [List.isPrefixOf, beq_self_eq_true, Bool.and_self, if_true, List.length_singleton,
      Nat.sub_self]
    rw [ih h (fun x hx => hg x (List.mem_cons_of_mem _ hx)) []]
    simp

theorem joinColon_head (c : Char) (t : Str) (rest : List Str) :
    ∃ X, joinColon ((c :: t) :: rest) = c :: X := by
  cases rest with
  | nil => exact ⟨t, rfl⟩
  | cons h r => exact ⟨t ++ ':' :: joinColon (h :: r), rfl⟩

theorem split_elision_joinColon (gs : List Str) :
    (∀ x ∈ gs, HexGroup x) → ∀ tail cur : Str,
      splitAux [':', ':'] (joinColon gs ++ tail) cur 0 =
        splitAux [':', ':'] tail ((joinColon gs).reverse ++ cur) 0 := by
  induction gs with
  | nil => intro _ tail cur; rfl
  | cons g gs ih =>
    intro hg tail cur
    have hgc := hexGroup_no_colon g (hg g (List.mem_cons_self _ _))
    cases gs with
    | nil => exact splitAux_skip_group [':'] g hgc tail cur
    | cons h rest =>
      have hh : HexGroup h := hg h (List.mem_cons_of_mem _ (List.mem_cons_self _ _))
      obtain ⟨c, t, rfl⟩ : ∃ c t, h = c :: t := by
        cases h with
        | nil => exact absurd rfl hh.1
        | cons c t => exact ⟨c, t, rfl⟩
      have hcc : (':' == c) = false := by
        have := hexGroup_no_colon _ hh c (List.mem_cons_self _ _)
        simp only [beq_eq_false_iff_ne, ne_eq]
        exact fun e => this e.symm
      have IH := ih (fun x hx => hg x (List.mem_cons_of_mem _ hx)) tail
        (':' :: (g.reverse ++ cur))
      obtain ⟨X, hX⟩ := joinColon_head c t rest
      rw [joinColon_cons_cons, List.append_assoc, splitAux_skip_group [':'] g hgc,
        List.cons_append]
      rw [hX] at IH ⊢
      rw [List.cons_append, splitAux]
      simp only [List.isPrefixOf, beq_self_eq_true, hcc, Bool.true_and, Bool.false_and,
        Bool.false_eq_true, if_false]
      rw [← List.cons_append, IH]
      simp

theorem split_elision (before after : List Str) (hb : ∀ x ∈ before, HexGroup x)
    (ha : ∀ x ∈ after, HexGroup x) :
    split (joinColon before ++ ':' :: ':' :: joinColon after) [':', ':'] =
      [joinColon before, joinColon after] := by
  unfold split
  rw [split_elision_joinColon before hb, splitAux]
  simp only [List.isPrefixOf, beq_self_eq_true, Bool.and_self, if_true]
  have e : ([':', ':'] : Str).length - 1 = 0 + 1 := rfl
  rw [e, splitAux]
  have := split_elision_joinColon after ha [] []
  rw [List.append_nil] at this
  rw [this]
  simp [splitAux]

theorem split_no_elision (before : List Str) (hb : ∀ x ∈ before, HexGroup x) :
    split (joinColon before) [':', ':'] = [joinColon before] := by
  unfold split
  have := split_elision_joinColon before hb [] []
  rw [List.append_nil] at this
  rw [this]
  simp [splitAux]

theorem written_groups (gs : List Str) (hg : ∀ x ∈ gs, HexGroup x) :
    (if joinColon gs = [] then [] else split (joinColon gs) [':']) = gs := by
  cases gs with
  | nil => rfl
  | cons g rest =>
    have hne : joinColon (g :: rest) ≠ [] := by
      have hgne := (hg g (List.mem_cons_self _ _)).1
      cases rest with
      | nil => exact hgne
      | cons h r =>
        rw [joinColon_cons_cons]
        intro e
        exact hgne (List.append_eq_nil.mp e).1
    rw [if_neg hne]
    unfold split
    rw [split_colon_joinColon rest g hg []]
    rfl

theorem map_parse_groups (gs : List Str) (hg : ∀ x ∈ gs, HexGroup x) :
    gs.map (fun part => parseInt (if part = [] then ['0'] else part) 16) =
      gs.map (fun g => some (hexValue g : Int)) := by
  apply List.map_congr_left
  intro g hgm
  rw [if_neg (hg g hgm).1, parseInt_hexGroup g (hg g hgm)]

theorem normalizeIP_of_groups (ip : Str) (before after : List Str)
    (hb : ∀ x ∈ before, HexGroup x) (ha : ∀ x ∈ after, HexGroup x)
    (hn : before.length + after.length ≤ 8)
    (h0 : (match (split ip [':', ':'])[0]? with
      | some p => if p = [] then [] else split p [':']
      | none => []) = before)
    (h1 : (match (split ip [':', ':'])[1]? with
      | some p => if p = [] then [] else split p [':']
      | none => []) = after) :
    normalizeIP ip = .ok (expandElision before after) := by
  unfold normalizeIP
  simp only [h0, h1]
  have hm : ¬ ((8 : Int) - ((before.length : Int) + (after.length : Int)) < 0) := by omega
  rw [if_neg hm]
  have ht : ((8 : Int) - ((before.length : Int) + (after.length : Int))).toNat =
      8 - (before.length + after.length) := by omega
  rw [ht, List.map_append, List.map_append, map_parse_groups before hb,
    map_parse_groups after ha, List.map_replicate]
  rfl

theorem normalizeIP_elision (before after : List Str)
    (hb : ∀ x ∈ before, HexGroup x) (ha : ∀ x ∈ after, HexGroup x)
    (hn : before.length + after.length ≤ 8) :
    normalizeIP (joinColon before ++ ':' :: ':' :: joinColon after) =
      .ok (expandElision before after) := by
  apply normalizeIP_of_groups _ before after hb ha hn
  · rw [split_elision before after hb ha]
    exact written_groups before hb
  · rw [split_elision before after hb ha]
    exact written_groups after ha

theorem normalizeIP_no_elision (before : List Str)
    (hb : ∀ x ∈ before, HexGroup x) (hn : before.length ≤ 8) :
    normalizeIP (joinColon before) = .ok (expandElision before []) := by
  apply normalizeIP_of_groups _ before [] hb (fun _ h => absurd h (List.not_mem_nil _))
    (by simpa using hn)
  · rw [split_no_elision before hb]
    exact written_groups before hb
  · rw [split_no_elision before hb]
    rfl

theorem expandElision_length (before after : List Str)
    (hn : before.length + after.length ≤ 8) : (expandElision before after).length = 8 := by
  simp only [expandElision, List.length_append, List.length_map, List.length_replicate]
  omega

theorem normalizeIP_group_colon (g : Str) (hg : HexGroup g) :
    normalizeIP (g ++ [':']) = .ok (expandElision [g] []) := by
  have hgs : ∀ x ∈ [g], HexGroup x := fun x hx => by
    rw [List.mem_singleton] at hx
    exact hx ▸ hg
  have hsplit : split (g ++ [':']) [':', ':'] = [g ++ [':']] := by
    unfold split
    have := split_elision_joinColon [g] hgs [':'] []
    rw [show joinColon [g] = g from rfl] at this
    rw [this]
    simp [splitAux]
  have hcolon : split (g ++ [':']) [':'] = [g, []] := by
    unfold split
    rw [splitAux_skip_group [] g (hexGroup_no_colon g hg)]
    simp [splitAux]
  unfold normalizeIP
  rw [hsplit]
  have hne : g ++ [':'] ≠ [] := by simp
  simp only [List.getElem?_cons_zero, if_neg hne, hcolon]
  have h1 : ([g ++ [':']] : List Str)[1]? = none := rfl
  simp only [h1, List.length_cons, List.length_nil]
  rw [if_neg (by decide)]
  have ht : ((8 : Int) - (((0 + 1 + 1 : Nat) : Int) + ((0 : Nat) : Int))).toNat = 6 := by decide
  rw [ht]
  simp only [List.map_append, List.map_cons, List.map_nil, List.map_replicate, if_neg hg.1,
    parseInt_hexGroup g hg]
  rfl

theorem repEnds_sound (step : Str → List Str) (L : Str → Prop)
    (hstep : ∀ s t, t ∈ step s → ∃ m, s = m ++ t ∧ L m) :
    ∀ (hi lo : Nat) (s t : Str), t ∈ repEnds step hi lo s →
      ∃ ms : List Str, lo ≤ ms.length ∧ ms.length ≤ hi ∧ (∀ x ∈ ms, L x) ∧
        s = ms.flatten ++ t := by
  intro hi
  induction hi with
  | zero =>
    intro lo s t h
    simp only [repEnds] at h
    by_cases h0 : lo = 0
    · rw [if_pos h0, List.mem_singleton] at h
      exact ⟨[], by simp [h0], by simp, by simp, by simp [h]⟩
    · rw [if_neg h0] at h
      exact absurd h (List.not_mem_nil _)
  | succ hi ih =>
    intro lo s t h
    simp only [repEnds, List.mem_append, List.mem_flatMap] at h
    rcases h with h | ⟨u, hu, ht⟩
    · by_cases h0 : lo = 0
      · rw [if_pos h0, List.mem_singleton] at h
        exact ⟨[], by simp [h0], by simp, by simp, by simp [h]⟩
      · rw [if_neg h0] at h
        exact absurd h (List.not_mem_nil _)
    · obtain ⟨m, hm, hL⟩ := hstep s u hu
      obtain ⟨ms, h1, h2, h3, h4⟩ := ih (lo - 1) u t ht
      refine ⟨m :: ms, by simp only [List.length_cons]; omega,
        by simp only [List.length_cons]; omega, ?_, ?_⟩
      · intro x hx
        rcases List.mem_cons.mp hx with rfl | hx
        · exact hL
        · exact h3 x hx
      · rw [List.flatten_cons, List.append_assoc, ← h4, hm]

theorem ends_sound (r : Re) : ∀ s t : Str, t ∈ r.ends s → ∃ m, s = m ++ t ∧ r.Lang m := by
  induction r with
  | eps =>
    intro s t h
    simp only [Re.ends, List.mem_singleton] at h
    exact ⟨[], by simp [h], rfl⟩
  | chr c =>
    intro s t h
    cases s with
    | nil => simp [Re.ends] at h
    | cons d u =>
      simp only [Re.ends] at h
      by_cases e : d = c
      · rw [if_pos e, List.mem_singleton] at h
        exact ⟨[c], by simp [h, e], rfl⟩
      · rw [if_neg e] at h
        exact absurd h (List.not_mem_nil _)
  | cls p =>
    intro s t h
    cases s with
    | nil => simp [Re.ends] at h
    | cons d u =>
      simp only [Re.ends] at h
      by_cases e : p d = true
      · rw [if_pos e, List.mem_singleton] at h
        exact ⟨[d], by simp [h], d, rfl, e⟩
      · rw [if_neg e] at h
        exact absurd h (List.not_mem_nil _)
  | seq a b iha ihb =>
    intro s t h
    simp only [Re.ends, List.mem_flatMap] at h
    obtain ⟨u, hu, ht⟩ := h
    obtain ⟨x, hx, hxa⟩ := iha s u hu
    obtain ⟨y, hy, hyb⟩ := ihb u t ht
    exact ⟨x ++ y, by rw [hx, hy, List.append_assoc], x, y, rfl, hxa, hyb⟩
  | alt a b iha ihb =>
    intro s t h
    simp only [Re.ends, List.mem_append] at h
    rcases h with h | h
    · obtain ⟨m, hm, hL⟩ := iha s t h
      exact ⟨m, hm, Or.inl hL⟩
    · obtain ⟨m, hm, hL⟩ := ihb s t h
      exact ⟨m, hm, Or.inr hL⟩
  | rep r lo hi ih =>
    intro s t h
    simp only [Re.ends] at h
    obtain ⟨ms, h1, h2, h3, h4⟩ := repEnds_sound r.ends r.Lang ih hi lo s t h
    exact ⟨ms.flatten, h4, ms, h1, h2, h3, rfl⟩
  | atLeast r lo ih =>
    intro s t h
    simp only [Re.ends] at h
    obtain ⟨ms, h1, _, h3, h4⟩ := repEnds_sound r.ends r.Lang ih _ lo s t h
    exact ⟨ms.flatten, h4, ms, h1, h3, rfl⟩

theorem test_sound (r : Re) (s : Str) (h : r.test s = true) : r.Lang s := by
  simp only [Re.test, List.any_eq_true, List.isEmpty_iff] at h
  obtain ⟨t, ht, rfl⟩ := h
  obtain ⟨m, hm, hL⟩ := ends_sound r s [] ht
  rw [List.append_nil] at hm
  exact hm ▸ hL

theorem lang_hexRun (lo hi : Nat) (m : Str) (h : (Re.rep (.cls isHexDigit) lo hi).Lang m) :
    lo ≤ m.length ∧ m.length ≤ hi ∧ ∀ c ∈ m, isHexDigit c = true := by
  obtain ⟨ms, h1, h2, h3, rfl⟩ := h
  have key : ∀ ms : List Str, (∀ x ∈ ms, (Re.cls isHexDigit).Lang x) →
      ms.flatten.length = ms.length ∧ ∀ c ∈ ms.flatten, isHexDigit c = true := by
    intro ms
    induction ms with
    | nil => intro _; exact ⟨rfl, fun c hc => absurd hc (List.not_mem_nil _)⟩
    | cons x xs ih =>
      intro hx
      obtain ⟨c, rfl, hc⟩ := hx x (List.mem_cons_self _ _)
      obtain ⟨e1, e2⟩ := ih (fun y hy => hx y (List.mem_cons_of_mem _ hy))
      refine ⟨by simp [e1], fun d hd => ?_⟩
      rw [List.flatten_cons, List.singleton_append, List.mem_cons] at hd
      rcases hd with rfl | hd
      · exact hc
      · exact e2 d hd
  obtain ⟨e1, e2⟩ := key ms h3
  exact ⟨by omega, by omega, e2⟩

theorem lang_hexGroup (hi : Nat) (hhi : hi ≤ 13) (g : Str)
    (h : (Re.rep (.cls isHexDigit) 1 hi).Lang g) : HexGroup g := by
  obtain ⟨h1, h2, h3⟩ := lang_hexRun 1 hi g h
  exact ⟨fun e => by rw [e] at h1; simp at h1, by omega, h3⟩

theorem lang_groups (f : Str → Str) (r : Re)
    (hr : ∀ x, r.Lang x → ∃ g, HexGroup g ∧ x = f g) (lo hi : Nat) (m : Str)
    (h : (Re.rep r lo hi).Lang m) :
    ∃ gs : List Str, lo ≤ gs.length ∧ gs.length ≤ hi ∧ (∀ g ∈ gs, HexGroup g) ∧
      m = (gs.map f).flatten := by
  obtain ⟨ms, h1, h2, h3, rfl⟩ := h
  have key : ∀ ms : List Str, (∀ x ∈ ms, r.Lang x) →
      ∃ gs : List Str, gs.length = ms.length ∧ (∀ g ∈ gs, HexGroup g) ∧ ms = gs.map f := by
    intro ms
    induction ms with
    | nil => intro _; exact ⟨[], rfl, fun g hg => absurd hg (List.not_mem_nil _), rfl⟩
    | cons x xs ih =>
      intro hx
      obtain ⟨g, hg, rfl⟩ := hr x (hx x (List.mem_cons_self _ _))
      obtain ⟨gs, e1, e2, e3⟩ := ih (fun y hy => hx y (List.mem_cons_of_mem _ hy))
      refine ⟨g :: gs, by simp [e1], fun y hy => ?_, by rw [e3]; rfl⟩
      rcases List.mem_cons.mp hy with rfl | hy
      · exact hg
      · exact e2 y hy
  obtain ⟨gs, e1, e2, e3⟩ := key ms h3
  exact ⟨gs, by omega, by omega, e2, by rw [e3]⟩

theorem lang_reH4Colon (lo hi : Nat) (m : Str) (h : (reH4Colon lo hi).Lang m) :
    ∃ gs : List Str, lo ≤ gs.length ∧ gs.length ≤ hi ∧ (∀ g ∈ gs, HexGroup g) ∧
      m = (gs.map (fun g => g ++ [':'])).flatten := by
  apply lang_groups (fun g => g ++ [':']) (.seq reH4 (.chr ':')) _ lo hi m h
  rintro x ⟨g, c, rfl, hg, rfl⟩
  exact ⟨g, lang_hexGroup 4 (by decide) g hg, rfl⟩

theorem lang_reColonH4 (lo hi : Nat) (m : Str) (h : (reColonH4 lo hi).Lang m) :
    ∃ gs : List Str, lo ≤ gs.length ∧ gs.length ≤ hi ∧ (∀ g ∈ gs, HexGroup g) ∧
      m = (gs.map (fun g => ':' :: g)).flatten := by
  apply lang_groups (fun g => ':' :: g) (.seq (.chr ':') reH4) _ lo hi m h
  rintro x ⟨c, g, rfl, rfl, hg⟩
  exact ⟨g, lang_hexGroup 4 (by decide) g hg, rfl⟩

theorem flatten_groups_colon (gs : List Str) (tail : Str) :
    (gs.map (fun g => g ++ [':'])).flatten ++ tail =
      match gs with
      | [] => tail
      | _ :: _ => joinColon gs ++ ':' :: tail := by
  induction gs with
  | nil => rfl
  | cons g rest ih =>
    rw [List.map_cons, List.flatten_cons, List.append_assoc, ih]
    cases rest with
    | nil => simp [joinColon]
    | cons h r => simp [joinColon]

theorem flatten_colon_groups (gs : List Str) :
    (gs.map (fun g => ':' :: g)).flatten =
      match gs with
      | [] => []
      | _ :: _ => ':' :: joinColon gs := by
  induction gs with
  | nil => rfl
  | cons g rest ih =>
    rw [List.map_cons, List.flatten_cons, ih]
    cases rest with
    | nil => simp [joinColon]
    | cons h r => simp [joinColon]

theorem joinColon_snoc (gs : List Str) (g : Str) (hgs : gs ≠ []) :
    joinColon (gs ++ [g]) = joinColon gs ++ ':' :: g := by
  induction gs with
  | nil => exact absurd rfl hgs
  | cons h rest ih =>
    cases rest with
    | nil => rfl
    | cons k r =>
      have := ih (by simp)
      rw [List.cons_append, List.cons_append, joinColon_cons_cons, ← List.cons_append, this,
        joinColon_cons_cons]
      simp

theorem lang_alts (rs : List Re) (m : Str) (h : (Re.alts rs).Lang m) : ∃ r ∈ rs, r.Lang m := by
  induction rs with
  | nil =>
    obtain ⟨c, _, hc⟩ := h
    exact absurd hc Bool.false_ne_true
  | cons r rest ih =>
    cases rest with
    | nil => exact ⟨r, List.mem_cons_self _ _, h⟩
    | cons r2 rest2 =>
      rcases h with h | h
      · exact ⟨r, List.mem_cons_self _ _, h⟩
      · obtain ⟨q, hq, hL⟩ := ih h
        exact ⟨q, List.mem_cons_of_mem _ hq, hL⟩

theorem lang_reIPv4 (m : Str) (h : reIPv4.Lang m) : '.' ∈ m := by
  obtain ⟨a, b, rfl, ⟨ms, h1, _, h3, rfl⟩, _⟩ := h
  cases ms with
  | nil => simp at h1
  | cons m0 rest =>
    obtain ⟨p, q, rfl, _, rfl⟩ := h3 m0 (List.mem_cons_self _ _)
    simp

theorem lang_reMask (y : Str) (h : reMask.Lang y) : y = [] ∨ '/' ∈ y := by
  obtain ⟨ms, _, _, h3, rfl⟩ := h
  cases ms with
  | nil => exact Or.inl rfl
  | cons m0 rest =>
    obtain ⟨p, q, rfl, rfl, _⟩ := h3 m0 (List.mem_cons_self _ _)
    exact Or.inr (by simp)

theorem lang_group_pair (k j : Nat) (hkj : k + j ≤ 8) (x : Str)
    (h : (Re.seq (reH4Colon 1 k) (reColonH4 1 j)).Lang x) :
    ∃ before after : List Str, (∀ g ∈ before, HexGroup g) ∧ (∀ g ∈ after, HexGroup g) ∧
      before.length + after.length ≤ 8 ∧ Written x before after := by
  obtain ⟨a, b, rfl, ha, hb⟩ := h
  obtain ⟨gs, g1, g2, g3, rfl⟩ := lang_reH4Colon 1 k a ha
  obtain ⟨hs, k1, k2, k3, rfl⟩ := lang_reColonH4 1 j b hb
  refine ⟨gs, hs, g3, k3, by omega, Or.inl ?_⟩
  rw [flatten_groups_colon, flatten_colon_groups]
  cases gs with
  | nil => simp at g1
  | cons g0 rest =>
    cases hs with
    | nil => simp at k1
    | cons h0 rest2 => rfl

theorem lang_alternative (r : Re) (hr : r ∈ ipv6Alternatives) (x : Str) (h : r.Lang x)
    (hdot : '.' ∉ x) (hzone : '%' ∉ x) :
    ∃ before after : List Str, (∀ g ∈ before, HexGroup g) ∧ (∀ g ∈ after, HexGroup g) ∧
      before.length + after.length ≤ 8 ∧ Written x before after := by
  simp only [ipv6Alternatives, List.mem_cons, List.mem_singleton, List.not_mem_nil,
    or_false] at hr
  rcases hr with rfl | rfl | rfl | rfl | rfl | rfl | rfl | rfl | rfl | rfl | rfl | rfl
  · obtain ⟨a, g, rfl, ha, hg⟩ := h
    obtain ⟨gs, g1, g2, g3, rfl⟩ := lang_reH4Colon 7 7 a ha
    have hgg := lang_hexGroup 4 (by decide) g hg
    refine ⟨gs ++ [g], [], ?_, fun _ hx => absurd hx (List.not_mem_nil _), ?_,
      Or.inr (Or.inl ⟨rfl, ?_⟩)⟩
    · intro y hy
      rcases List.mem_append.mp hy with hy | hy
      · exact g3 y hy
      · rw [List.mem_singleton] at hy
        exact hy ▸ hgg
    · simp only [List.length_append, List.length_singleton, List.length_nil]
      omega
    · rw [flatten_groups_colon]
      cases gs with
      | nil => simp at g1
      | cons g0 rest => exact (joinColon_snoc (g0 :: rest) g (by simp)).symm
  · obtain ⟨g, c, rfl, hg, rfl⟩ := h
    have hgg := lang_hexGroup 7 (by decide) g hg
    refine ⟨[g], [], ?_, fun _ hx => absurd hx (List.not_mem_nil _), by simp,
      Or.inr (Or.inr ⟨rfl, g, rfl, rfl⟩)⟩
    intro y hy
    rw [List.mem_singleton] at hy
    exact hy ▸ hgg
  · obtain ⟨a, b, rfl, ha, c, g, rfl, rfl, hg⟩ := h
    obtain ⟨gs, g1, g2, g3, rfl⟩ := lang_reH4Colon 1 6 a ha
    have hgg := lang_hexGroup 4 (by decide) g hg
    refine ⟨gs, [g], g3, ?_, by simp only [List.length_singleton]; omega, Or.inl ?_⟩
    · intro y hy
      rw [List.mem_singleton] at hy
      exact hy ▸ hgg
    · rw [flatten_groups_colon]
      cases gs with
      | nil => simp at g1
      | cons g0 rest => rfl
  · exact lang_group_pair 5 2 (by decide) x h
  · exact lang_group_pair 4 3 (by decide) x h
  · exact lang_group_pair 3 4 (by decide) x h
  · exact lang_group_pair 2 5 (by decide) x h
  · obtain ⟨g, b, rfl, hg, c, d, rfl, rfl, hd⟩ := h
    obtain ⟨hs, k1, k2, k3, rfl⟩ := lang_reColonH4 1 6 d hd
    have hgg := lang_hexGroup 4 (by decide) g hg
    refine ⟨[g], hs, ?_, k3, by simp only [List.length_singleton]; omega, Or.inl ?_⟩
    · intro y hy
      rw [List.mem_singleton] at hy
      exact hy ▸ hgg
    · rw [flatten_colon_groups]
      cases hs with
      | nil => simp at k1
      | cons h0 rest => rfl
  · obtain ⟨c, b, rfl, rfl, hb⟩ := h
    rcases hb with hb | hb
    · obtain ⟨hs, k1, k2, k3, rfl⟩ := lang_reColonH4 1 7 b hb
      refine ⟨[], hs, fun _ hx => absurd hx (List.not_mem_nil _), k3,
        by simp only [List.length_nil]; omega, Or.inl ?_⟩
      rw [flatten_colon_groups]
      cases hs with
      | nil => simp at k1
      | cons h0 rest => rfl
    · have hb' : b = [':'] := hb
      subst hb'
      exact ⟨[], [], fun _ hx => absurd hx (List.not_mem_nil _),
        fun _ hx => absurd hx (List.not_mem_nil _), by simp, Or.inl rfl⟩
  · obtain ⟨a, _, rfl, _, b, _, rfl, _, c, d, rfl, hc, _⟩ := h
    have hc' : c = ['%'] := hc
    subst hc'
    exact absurd (by simp) hzone
  · obtain ⟨a, _, rfl, _, b, c, rfl, _, hc⟩ := h
    exact absurd (by simp [lang_reIPv4 c hc]) hdot
  · obtain ⟨a, _, rfl, _, b, c, rfl, _, hc⟩ := h
    exact absurd (by simp [lang_reIPv4 c hc]) hdot

theorem isIPv6_plainHex_written (addr : Str) (h : isIPv6 addr = true) (hp : PlainHex addr) :
    ∃ before after : List Str, (∀ g ∈ before, HexGroup g) ∧ (∀ g ∈ after, HexGroup g) ∧
      before.length + after.length ≤ 8 ∧ Written addr before after := by
  obtain ⟨x, y, rfl, hx, hy⟩ := test_sound IPV6_REGEX addr h
  obtain ⟨hdot, hzone, hslash⟩ := hp
  have hy0 : y = [] := by
    rcases lang_reMask y hy with e | e
    · exact e
    · exact absurd (List.mem_append_right _ e) hslash
  subst hy0
  rw [List.append_nil] at hdot hzone ⊢
  obtain ⟨r, hr, hL⟩ := lang_alts _ x hx
  exact lang_alternative r hr x hL hdot hzone

theorem normalizeIP_written (addr : Str) (before after : List Str)
    (hb : ∀ g ∈ before, HexGroup g) (ha : ∀ g ∈ after, HexGroup g)
    (hn : before.length + after.length ≤ 8) (hw : Written addr before after) :
    normalizeIP addr = .ok (expandElision before after) := by
  rcases hw with rfl | ⟨rfl, rfl⟩ | ⟨rfl, g, rfl, rfl⟩
  · exact normalizeIP_elision before after hb ha hn
  · exact normalizeIP_no_elision before hb (by simpa using hn)
  · exact normalizeIP_group_colon g (hb g (List.mem_singleton.mpr rfl))

/-- C18: `normalizeIP` expands `::` to 8 groups.  For groups of hexadecimal digits `before` and
`after`, at most 8 together, the address written as the groups `before`, `::` and the groups
`after`, and the address written as the groups `before` alone, are normalized to the values of
the groups `before`, then a zero for each of the 8 groups that is not written, then the values
of the groups `after`: 8 numbers.  Every address that `isIPv6` accepts and that is in plain
hexadecimal form (no dotted quad, no zone, no prefix length) is written in one of these ways,
or as one group and a colon, and is normalized in the same way. -/
theorem normalizeIP_expands_elision :
    (∀ before after : List Str, (∀ g ∈ before, HexGroup g) → (∀ g ∈ after, HexGroup g) →
      before.length + after.length ≤ 8 →
      normalizeIP (joinColon before ++ "::".toList ++ joinColon after) =
        .ok (expandElision before after) ∧
      normalizeIP (joinColon before) = .ok (expandElision before []) ∧
      (expandElision before after).length = 8) ∧
    (∀ addr : Str, isIPv6 addr = true → PlainHex addr →
      ∃ before after : List Str, (∀ g ∈ before, HexGroup g) ∧ (∀ g ∈ after, HexGroup g) ∧
        before.length + after.length ≤ 8 ∧ Written addr before after ∧
        normalizeIP addr = .ok (expandElision before after)) := by
  refine ⟨fun before after hb ha hn => ⟨?_, ?_, expandElision_length before after hn⟩,
    fun addr h hp => ?_⟩
  · rw [List.append_assoc]
    exact normalizeIP_elision before after hb ha hn
  · exact normalizeIP_no_elision before hb (by omega)
  · obtain ⟨before, after, hb, ha, hn, hw⟩ := isIPv6_plainHex_written addr h hp
    exact ⟨before, after, hb, ha, hn, hw, normalizeIP_written addr before after hb ha hn hw⟩

/-- The instance of C18 at the address `2001:db8::1`, and at the accepted address `abc:`. -/
theorem normalizeIP_expands_elision_witness :
    normalizeIP "2001:db8::1".toList =
      .ok [some 0x2001, some 0xdb8, some 0, some 0, some 0, some 0, some 0, some 1] ∧
    ∃ before after : List Str, (∀ g ∈ before, HexGroup g) ∧ (∀ g ∈ after, HexGroup g) ∧
      before.length + after.length ≤ 8 ∧ Written "abc:".toList before after ∧
      normalizeIP "abc:".toList = .ok (expandElision before after) :=
  ⟨(normalizeIP_expands_elision.1 ["2001".toList, "db8".toList] ["1".toList]
      (by simp [HexGroup]; decide) (by simp [HexGroup]; decide) (by decide)).1,
    normalizeIP_expands_elision.2 "abc:".toList (by decide)
      ⟨by decide, by decide, by decide⟩⟩

/-! ### `getRandomIPv6`: the prefix length 128 on an address with a dotted quad -/

/-- C11 fails on the code at the addresses with a dotted quad, which `isIPv6` accepts: on
`::ffff:1.2.3.4/128` the result is `0000:0000:0000:0000:0000:0000:ffff:0001` and on
`::1.2.3.4/128` it is `0000:0000:0000:0000:0000:0000:0000:0001`, the result on `::1/128`, for
every outcome of the random source; the groups of the two input addresses end with `0102` and
`0304`.  `normalizeIP` reads the dotted quad `1.2.3.4` with `parseInt` as the one group 1. -/
theorem getRandomIPv6_prefix_128_dotted_quad (rnd : Nat → RandomOutcome) :
    isIPv6 "::ffff:1.2.3.4/128".toList = true ∧
    normalizeIP "::ffff:1.2.3.4".toList =
      .ok [some 0, some 0, some 0, some 0, some 0, some 0, some 0xffff, some 1] ∧
    getRandomIPv6 rnd "::ffff:1.2.3.4/128".toList =
      .ok "0000:0000:0000:0000:0000:0000:ffff:0001".toList ∧
    getRandomIPv6 rnd "::1.2.3.4/128".toList =
      .ok "0000:0000:0000:0000:0000:0000:0000:0001".toList ∧
    getRandomIPv6 rnd "::1/128".toList =
      .ok "0000:0000:0000:0000:0000:0000:0000:0001".toList := by
  have e1 : isIPv6 "::ffff:1.2.3.4/128".toList = true := by decide
  have e2 : isIPv6 "::1.2.3.4/128".toList = true := by decide
  have e3 : isIPv6 "::1/128".toList = true := by decide
  have n1 : normalizeIP "::ffff:1.2.3.4".toList =
      .ok [some 0, some 0, some 0, some 0, some 0, some 0, some 0xffff, some 1] := rfl
  refine ⟨e1, n1, ?_, ?_, ?_⟩
  · unfold getRandomIPv6
    rw [e1]
    rfl
  · unfold getRandomIPv6
    rw [e2]
    rfl
  · unfold getRandomIPv6
    rw [e3]
    rfl

end Utils
